import Mathlib

/-!
Verification of the maze/pathfinding core of the repository
(`src/bin/d16.rs`: Dijkstra search over (cell, facing) vertices and the
memoized-DFS variant; `src/bin/d18.rs`: A*-style search on an n×n map).

The Rust code is shallowly embedded: `usize` is modelled as `Nat` with an
explicit wrap modulo `2^64` exactly where the Rust code performs wrapping
casts or release-mode wrapping arithmetic; indexing a `Vec` out of bounds,
a failed `HashMap` index and `expect` failures are modelled as an explicit
`panic` outcome (`Option.none` for intermediate computations); the
`BinaryHeap` is modelled as a multiset (list) whose pop removes a maximal
element of the Rust `Ord` instance, i.e. the entry with the lexicographically
least (cost, x, y, direction-index) key — entries comparing equal under the
Rust `Ord` are equal values, so this is the unique possible pop result.
Unbounded `while` loops are modelled with explicit fuel; the fuel actually
supplied is proved sufficient (`DResult.fuelOut` is unreachable).
-/

set_option maxRecDepth 2000

/-! ## Machine integers -/

def USIZE : Nat := 2 ^ 64

def usizeMAX : Nat := USIZE - 1

/-- `(v as usize)` for an `isize`-valued expression `v` (two's-complement wrap). -/
def wrapIdx (v : Int) : Nat := (v % (USIZE : Int)).toNat

/-! ## d16: directions, map items, map (from `src/bin/d16.rs`) -/

inductive Direction where
  | Up
  | Down
  | Left
  | Right
deriving DecidableEq, Repr

def Direction.idx : Direction → Nat
  | .Up => 0
  | .Down => 1
  | .Left => 2
  | .Right => 3

def Direction.dx_dy : Direction → Int × Int
  | .Up => (0, -1)
  | .Down => (0, 1)
  | .Left => (-1, 0)
  | .Right => (1, 0)

def Direction.opposite_direction : Direction → Direction
  | .Up => .Down
  | .Down => .Up
  | .Left => .Right
  | .Right => .Left

def Direction.turns_to_face (self other : Direction) : Nat :=
  if self = other then 0
  else if self.opposite_direction = other then 2
  else 1

/-- The `HashSet<Direction>` stored in a `MapItem::Reindeer`, modelled by its
characteristic four booleans. -/
structure DirSet where
  up : Bool
  down : Bool
  left : Bool
  right : Bool
deriving DecidableEq, Repr

def DirSet.contains (s : DirSet) : Direction → Bool
  | .Up => s.up
  | .Down => s.down
  | .Left => s.left
  | .Right => s.right

def DirSet.insert (s : DirSet) : Direction → DirSet
  | .Up => { s with up := true }
  | .Down => { s with down := true }
  | .Left => { s with left := true }
  | .Right => { s with right := true }

def DirSet.single (d : Direction) : DirSet :=
  DirSet.insert ⟨false, false, false, false⟩ d

inductive MapItem where
  | Wall
  | Empty
  | Start
  | End
  | Reindeer (dirs : DirSet)
deriving DecidableEq, Repr

abbrev Map : Type := List (List MapItem)

/-- `map[y][x]`: `some` item when in bounds, `none` when the Rust indexing
would panic. -/
def mapGet (m : Map) (y x : Nat) : Option MapItem :=
  if hy : y < m.length then
    if hx : x < (m.get ⟨y, hy⟩).length then some ((m.get ⟨y, hy⟩).get ⟨x, hx⟩) else none
  else none

structure Reindeer where
  x : Nat
  y : Nat
  direction : Direction
deriving DecidableEq, Repr

def findStartInRow : List MapItem → Nat → Option Nat
  | [], _ => none
  | item :: rest, x =>
    if item = MapItem.Start then some x else findStartInRow rest (x + 1)

def findStartAux : List (List MapItem) → Nat → Option (Nat × Nat)
  | [], _ => none
  | row :: rest, y =>
    match findStartInRow row 0 with
    | some x => some (x, y)
    | none => findStartAux rest (y + 1)

/-- `find_rudolph`: first `Start` cell in row-major order, facing east
(`Direction::Right`); `none` models the `expect` panic. -/
def find_rudolph (m : Map) : Option Reindeer :=
  (findStartAux m 0).map (fun p => ⟨p.1, p.2, Direction.Right⟩)

/-! ## d16: Dijkstra (mod `dijkstra` in `src/bin/d16.rs`) -/

structure Vertex where
  x : Nat
  y : Nat
  direction : Direction
deriving DecidableEq, Repr

structure Edge where
  next_position : Vertex
  cost : Nat
deriving DecidableEq, Repr

def DIRECTIONS : List Direction := [.Up, .Down, .Left, .Right]

/-- `matches!(val, MapItem::Empty | MapItem::Start | MapItem::End)`. -/
def isAdjSource : MapItem → Bool
  | .Empty => true
  | .Start => true
  | .End => true
  | _ => false

def targetOf (v : Vertex) (d : Direction) : Vertex :=
  ⟨wrapIdx ((v.x : Int) + d.dx_dy.1), wrapIdx ((v.y : Int) + d.dx_dy.2), d⟩

def edgeCost (f d : Direction) : Nat := f.turns_to_face d * 1000 + 1

/-- Inner `for move_direction in DIRECTIONS` loop of the adjacency builder:
`none` models the out-of-bounds panic of `&map[ny][nx]`. -/
def edgesForCellAux (m : Map) (x y : Nat) (cur : Direction) :
    List Direction → Option (List Edge)
  | [] => some []
  | md :: rest =>
    let t := targetOf ⟨x, y, cur⟩ md
    match mapGet m t.y t.x with
    | none => none
    | some nmap =>
      if nmap = MapItem.Wall then edgesForCellAux m x y cur rest
      else
        match edgesForCellAux m x y cur rest with
        | none => none
        | some es => some (⟨t, edgeCost cur md⟩ :: es)

def edgesForCell (m : Map) (x y : Nat) (cur : Direction) : Option (List Edge) :=
  edgesForCellAux m x y cur DIRECTIONS

def cellAdjacenciesAux (m : Map) (x y : Nat) :
    List Direction → Option (List (Vertex × List Edge))
  | [] => some []
  | cur :: rest =>
    match edgesForCell m x y cur with
    | none => none
    | some es =>
      match cellAdjacenciesAux m x y rest with
      | none => none
      | some r => some ((⟨x, y, cur⟩, es) :: r)

def cellAdjacencies (m : Map) (x y : Nat) : Option (List (Vertex × List Edge)) :=
  cellAdjacenciesAux m x y DIRECTIONS

def rowAdjacencies (m : Map) (y : Nat) : Nat → List MapItem → Option (List (Vertex × List Edge))
  | _, [] => some []
  | x, item :: rest =>
    if isAdjSource item then
      match cellAdjacencies m x y with
      | none => none
      | some a =>
        match rowAdjacencies m y (x + 1) rest with
        | none => none
        | some b => some (a ++ b)
    else rowAdjacencies m y (x + 1) rest

def genAdjacenciesAux (m : Map) : Nat → List (List MapItem) → Option (List (Vertex × List Edge))
  | _, [] => some []
  | y, row :: rest =>
    match rowAdjacencies m y 0 row with
    | none => none
    | some a =>
      match genAdjacenciesAux m (y + 1) rest with
      | none => none
      | some b => some (a ++ b)

/-- The `adjacencies : HashMap<Vertex, Vec<Edge>>` built by
`find_optimal_path_using_dijkstra`, as an association list with pairwise
distinct keys; `none` models the out-of-bounds panic. -/
def genAdjacencies (m : Map) : Option (List (Vertex × List Edge)) :=
  genAdjacenciesAux m 0 m

def alookup {α β : Type} [DecidableEq α] : List (α × β) → α → Option β
  | [], _ => none
  | (k, v) :: rest, a => if k = a then some v else alookup rest a

structure SState where
  position : Vertex
  cost : Nat
deriving DecidableEq, Repr

/-- The pop order of the Rust `BinaryHeap<State>`: the popped (maximal w.r.t.
the reversed `Ord`) entry is the one with the least (cost, x, y, idx) key. -/
def stateKey (s : SState) : Nat × Nat × Nat × Nat :=
  (s.cost, s.position.x, s.position.y, s.position.direction.idx)

def keyLE : Nat × Nat × Nat × Nat → Nat × Nat × Nat × Nat → Bool
  | (a1, a2, a3, a4), (b1, b2, b3, b4) =>
    if a1 ≠ b1 then a1 < b1
    else if a2 ≠ b2 then a2 < b2
    else if a3 ≠ b3 then a3 < b3
    else a4 ≤ b4

def popMin : List SState → Option (SState × List SState)
  | [] => none
  | s :: rest =>
    match popMin rest with
    | none => some (s, [])
    | some (m, r) => if keyLE (stateKey s) (stateKey m) then some (s, rest) else some (m, s :: r)

abbrev DistMap : Type := Vertex → Option Nat

def dupdate (d : DistMap) (v : Vertex) (c : Nat) : DistMap :=
  fun w => if w = v then some c else d w

def initDist : List Vertex → DistMap
  | [] => fun _ => none
  | v :: rest => dupdate (initDist rest) v usizeMAX

/-- The `for edge in adjacencies[&position]` relaxation loop; `none` models the
`dist[&next.position]` panic. `next.cost = edge.cost + cost` wraps like release
`usize` addition. -/
def relax : List Edge → Nat → List SState → DistMap → Option (List SState × DistMap)
  | [], _, pq, dist => some (pq, dist)
  | e :: rest, c, pq, dist =>
    match dist e.next_position with
    | none => none
    | some dw =>
      let nc := (e.cost + c) % USIZE
      if nc < dw then
        relax rest c (⟨e.next_position, nc⟩ :: pq) (dupdate dist e.next_position nc)
      else relax rest c pq dist

inductive DResult where
  | found (cost : Nat)
  | noPath
  | panic
  | fuelOut
deriving DecidableEq, Repr

inductive DStepOut where
  | halt (r : DResult)
  | next (pq : List SState) (dist : DistMap)

/-- One iteration of the `while let Some(State { position, cost }) = pq.pop()`
loop. -/
def dstep (m : Map) (adjL : List (Vertex × List Edge)) (pq : List SState) (dist : DistMap) :
    DStepOut :=
  match popMin pq with
  | none => .halt .noPath
  | some (st, pq1) =>
    match mapGet m st.position.y st.position.x with
    | none => .halt .panic
    | some item =>
      if item = MapItem.End then .halt (.found st.cost)
      else
        match dist st.position with
        | none => .halt .panic
        | some d =>
          if d < st.cost then .next pq1 dist
          else
            match alookup adjL st.position with
            | none => .halt .panic
            | some edges =>
              match relax edges st.cost pq1 dist with
              | none => .halt .panic
              | some (pq2, dist2) => .next pq2 dist2

def dloop (m : Map) (adjL : List (Vertex × List Edge)) :
    Nat → List SState → DistMap → DResult
  | 0, _, _ => .fuelOut
  | fuel + 1, pq, dist =>
    match dstep m adjL pq dist with
    | .halt r => r
    | .next pq2 dist2 => dloop m adjL fuel pq2 dist2

def keysOf (adjL : List (Vertex × List Edge)) : List Vertex := adjL.map (fun p => p.1)

def sumDist (keys : List Vertex) (dist : DistMap) : Nat :=
  (keys.map (fun v => (dist v).getD 0)).sum

def dmeasure (keys : List Vertex) (pq : List SState) (dist : DistMap) : Nat :=
  sumDist keys dist + pq.length

/-- The Dijkstra search started from an arbitrary start vertex `s` (the source
seeds `dist[s] = 0` and pushes `State { position: s, cost: 0 }`). -/
def dijkstra_core (m : Map) (s : Vertex) : DResult :=
  match genAdjacencies m with
  | none => .panic
  | some adjL =>
    let keys := keysOf adjL
    let dist0 := dupdate (initDist keys) s 0
    let pq0 : List SState := [⟨s, 0⟩]
    dloop m adjL (dmeasure keys pq0 dist0 + 1) pq0 dist0

/-- `dijkstra::find_optimal_path_using_dijkstra`. -/
def find_optimal_path_using_dijkstra (m : Map) : DResult :=
  match find_rudolph m with
  | none => .panic
  | some r => dijkstra_core m ⟨r.x, r.y, r.direction⟩

/-! ## Grid-level edge/path semantics -/

/-- The conceptual edge relation realised by the adjacency builder: from a
source vertex on an `Empty | Start | End` cell, one wrapping step in direction
`d` to an in-bounds non-wall cell, with cost `1 + 1000 * turns`. -/
def EdgeRel (m : Map) (v w : Vertex) (c : Nat) : Prop :=
  (∃ it, mapGet m v.y v.x = some it ∧ isAdjSource it = true) ∧
  ∃ d, w = targetOf v d ∧ c = edgeCost v.direction d ∧
    ∃ it2, mapGet m w.y w.x = some it2 ∧ it2 ≠ MapItem.Wall

inductive Reaches (m : Map) (s : Vertex) : Vertex → Nat → Prop where
  | refl : Reaches m s s 0
  | tail {v c w ec} : Reaches m s v c → EdgeRel m v w ec → Reaches m s w (c + ec)

def isEndCell (m : Map) (v : Vertex) : Prop := mapGet m v.y v.x = some MapItem.End

/-- `c` is the cost of some path from `s` to a vertex on the end cell. -/
def EndCosts (m : Map) (s : Vertex) (c : Nat) : Prop :=
  ∃ v, isEndCell m v ∧ Reaches m s v c

def itemNoRein : MapItem → Bool
  | .Reindeer _ => false
  | _ => true

/-- The grid contains only `# . S E` cells (the data model of the spec; parsed
arrow glyphs would produce `Reindeer` items). -/
def NoReindeer (m : Map) : Prop := ∀ row ∈ m, ∀ it ∈ row, itemNoRein it = true

instance : DecidablePred NoReindeer := fun m =>
  inferInstanceAs (Decidable (∀ row ∈ m, ∀ it ∈ row, itemNoRein it = true))

/-! ## d16: memoized DFS (mod `dfs` in `src/bin/d16.rs`) -/

/-- The `HashMap<(usize, usize, Direction, Direction), Option<usize>>` cache. -/
abbrev DfsCache : Type := Nat × Nat × Direction × Direction → Option (Option Nat)

def cupdate (c : DfsCache) (k : Nat × Nat × Direction × Direction) (v : Option Nat) : DfsCache :=
  fun k2 => if k2 = k then some v else c k2

/-- The `match direction { ... }` neighbour computation of
`find_optimal_path_dfs_from_check_direction` (release-mode wrapping `usize`
arithmetic). -/
def dfsTranslate (x y : Nat) : Direction → Nat × Nat
  | .Up => (x, wrapIdx ((y : Int) - 1))
  | .Down => (x, wrapIdx ((y : Int) + 1))
  | .Left => (wrapIdx ((x : Int) - 1), y)
  | .Right => (wrapIdx ((x : Int) + 1), y)

def msetCell (m : Map) (y x : Nat) (it : MapItem) : Map :=
  if hy : y < m.length then
    if _hx : x < (m.get ⟨y, hy⟩).length then m.set y ((m.get ⟨y, hy⟩).set x it)
    else m
  else m

/-- `find_optimal_path_dfs_from_check_direction`, parameterised by the
continuation `rec` (the recursive call into `find_optimal_path_dfs_from`).
Outer `none` models a panic or exhausted fuel. -/
def itemBlocks (item : MapItem) (d : Direction) : Bool :=
  match item with
  | MapItem.Reindeer ds => ds.contains d
  | _ => false

def dfs_check_dir (rec : Map → Reindeer → DfsCache → Option (Option Nat × DfsCache))
    (m : Map) (x y : Nat) (direction : Direction) (rud : Reindeer) (cache : DfsCache) :
    Option (Option Nat × DfsCache) :=
  let key := (x, y, rud.direction, direction)
  match cache key with
  | some cv => some (cv, cache)
  | none =>
    let nxy := dfsTranslate x y direction
    match mapGet m y x with
    | none => none
    | some item =>
      if item = MapItem.Wall then some (none, cache)
      else if itemBlocks item direction then some (none, cache)
      else
        let turns := rud.direction.turns_to_face direction
        let this_cost := 1000 * turns + 1
        let newItem :=
          match item with
          | MapItem.Reindeer ds => MapItem.Reindeer (ds.insert direction)
          | _ => MapItem.Reindeer (DirSet.single direction)
        let m2 := msetCell m y x newItem
        let rud2 : Reindeer := ⟨nxy.1, nxy.2, direction⟩
        match rec m2 rud2 cache with
        | none => none
        | some (value0, cache2) =>
          let value := value0.map (fun rem => (this_cost + rem) % USIZE)
          some (value, cupdate cache2 key value)

/-- `costs.iter().filter_map(|c| *c).min()`. -/
def minCosts (l : List (Option Nat)) : Option Nat := (l.filterMap id).min?

/-- `find_optimal_path_dfs_from` with explicit fuel (the visualization side
effects of the `animate` CLI flag are pure no-ops on the result). -/
def dfsFromAux : Nat → Map → Reindeer → DfsCache → Option (Option Nat × DfsCache)
  | 0, _, _, _ => none
  | fuel + 1, m, rud, cache =>
    match mapGet m rud.y rud.x with
    | none => none
    | some it =>
      if it = MapItem.End then some (some 0, cache)
      else
        match dfs_check_dir (dfsFromAux fuel) m rud.x rud.y .Left rud cache with
        | none => none
        | some (c1, cache1) =>
          match dfs_check_dir (dfsFromAux fuel) m rud.x rud.y .Right rud cache1 with
          | none => none
          | some (c2, cache2) =>
            match dfs_check_dir (dfsFromAux fuel) m rud.x rud.y .Up rud cache2 with
            | none => none
            | some (c3, cache3) =>
              match dfs_check_dir (dfsFromAux fuel) m rud.x rud.y .Down rud cache3 with
              | none => none
              | some (c4, cache4) => some (minCosts [c1, c2, c3, c4], cache4)

/-- Fuel bound: along any recursion chain each (cell, direction) mark is
placed at most once, so `4 * cells + 4` levels always suffice. -/
def dfsFuel (m : Map) : Nat := 4 * (m.map List.length).sum + 4

/-- `dfs::find_optimal_path_dfs`: `some (some c)` = `Some(c)`,
`some none` = `None` (no path), outer `none` = panic/fuel. -/
def find_optimal_path_dfs (m : Map) : Option (Option Nat) :=
  match find_rudolph m with
  | none => none
  | some rud => (dfsFromAux (dfsFuel m) m rud (fun _ => none)).map (fun p => p.1)

/-! ## d18: A*-style maze search (`src/bin/d18.rs`) -/

inductive MapEntry where
  | Open
  | Corrupted
deriving DecidableEq, Repr

abbrev AMap : Type := List (List MapEntry)

structure Position where
  x : Nat
  y : Nat
deriving DecidableEq, Repr

def aGet (m : AMap) (y x : Nat) : Option MapEntry :=
  if hy : y < m.length then
    if hx : x < (m.get ⟨y, hy⟩).length then some ((m.get ⟨y, hy⟩).get ⟨x, hx⟩) else none
  else none

def DELTAS : List (Int × Int) := [(0, 1), (0, -1), (1, 0), (-1, 0)]

/-- `usize::checked_add_signed`. -/
def checkedAddSigned (x : Nat) (d : Int) : Option Nat :=
  if 0 ≤ (x : Int) + d ∧ (x : Int) + d < (USIZE : Int) then some ((x : Int) + d).toNat
  else none

/-- `find_neighbors`; `none` models the `map[ny][nx]` panic (possible only on
non-square maps, since both bounds checks compare against `map.len()`). -/
def find_neighbors_aux (m : AMap) (p : Position) : List (Int × Int) → Option (List Position)
  | [] => some []
  | (dx, dy) :: rest =>
    match checkedAddSigned p.x dx with
    | none => find_neighbors_aux m p rest
    | some nx =>
      match checkedAddSigned p.y dy with
      | none => find_neighbors_aux m p rest
      | some ny =>
        if nx ≥ m.length ∨ ny ≥ m.length then find_neighbors_aux m p rest
        else
          match aGet m ny nx with
          | none => none
          | some MapEntry.Corrupted => find_neighbors_aux m p rest
          | some MapEntry.Open =>
            match find_neighbors_aux m p rest with
            | none => none
            | some r => some (⟨nx, ny⟩ :: r)

def find_neighbors (m : AMap) (p : Position) : Option (List Position) :=
  find_neighbors_aux m p DELTAS

/-- The `Node` of d18; `root` is a node with `prev: None`, `step` one with
`prev: Some(boxed)`. -/
inductive Node where
  | root (position : Position) (cost estimated_cost_to_goal estimated_total_cost : Nat)
  | step (position : Position) (cost estimated_cost_to_goal estimated_total_cost : Nat)
      (prev : Node)
deriving DecidableEq, Repr

def Node.position : Node → Position
  | .root p _ _ _ => p
  | .step p _ _ _ _ => p

def Node.cost : Node → Nat
  | .root _ c _ _ => c
  | .step _ c _ _ _ => c

def Node.estimated_total_cost : Node → Nat
  | .root _ _ _ t => t
  | .step _ _ _ t _ => t

/-- `Node::default()`. -/
def defaultNode : Node := .root ⟨0, 0⟩ 0 usizeMAX usizeMAX

/-- `a` pops strictly before `b` in the `BinaryHeap<Node>` (the `Ord`
instance reverses cost and estimated total cost, then compares positions
by (y, x)). Nodes comparing equal may differ (in `prev`); the pop among
equals is modelled as the leftmost. -/
def nodeBeats (a b : Node) : Bool :=
  a.cost < b.cost ∨
    (a.cost = b.cost ∧ a.estimated_total_cost < b.estimated_total_cost) ∨
      (a.cost = b.cost ∧ a.estimated_total_cost = b.estimated_total_cost ∧
        (b.position.y < a.position.y ∨ (b.position.y = a.position.y ∧ b.position.x < a.position.x)))

def popMax : List Node → Option (Node × List Node)
  | [] => none
  | n :: rest =>
    match popMax rest with
    | none => some (n, [])
    | some (mx, r) => if nodeBeats mx n then some (mx, n :: r) else some (n, rest)

/-- The `while let Some(cur_node) = next_node { path.push_back(...) }`
path-reconstruction loop. -/
def pathOf : Node → List Position
  | .root p _ _ _ => [p]
  | .step p _ _ _ prev => p :: pathOf prev

def wrapSub (a b : Nat) : Nat := (a + USIZE - b) % USIZE

/-- `let cost = node.cost + 1` of the neighbour loop. -/
def neighCost (node : Node) : Nat := (node.cost + 1) % USIZE

/-- `(goal.y - y) + (goal.x - x)` (release-mode wrapping `usize` subtraction). -/
def neighEcg (node : Node) (goal : Position) : Nat :=
  (wrapSub goal.y node.position.y + wrapSub goal.x node.position.x) % USIZE

def neighEtc (node : Node) (goal : Position) : Nat :=
  (neighEcg node goal + neighCost node) % USIZE

/-- The `for neigh_position in find_neighbors(map, node.position)` body. -/
def aRelax (node : Node) (goal : Position) :
    List Position → List Node → List Position → List Node × List Position
  | [], frontier, visited => (frontier, visited)
  | np :: rest, frontier, visited =>
    if np ∈ visited then aRelax node goal rest frontier visited
    else
      let neigh : Node := .step np (neighCost node) (neighEcg node goal) (neighEtc node goal) node
      if (frontier.filter (fun n => n.position = np)).any
          (fun n => n.cost < neighCost node) then
        aRelax node goal rest frontier visited
      else aRelax node goal rest (neigh :: frontier) (np :: visited)

inductive AResult where
  | found (path : List Position)
  | noPath
  | panic
  | fuelOut
deriving DecidableEq, Repr

inductive AStepOut where
  | halt (r : AResult)
  | next (frontier : List Node) (visited : List Position)

def astep (m : AMap) (goal : Position) (frontier : List Node) (visited : List Position) :
    AStepOut :=
  match popMax frontier with
  | none => .halt .noPath
  | some (node, rest) =>
    if node.position = goal then .halt (.found (pathOf node))
    else
      match find_neighbors m node.position with
      | none => .halt .panic
      | some neighs =>
        .next (aRelax node goal neighs rest visited).1
          (aRelax node goal neighs rest visited).2

def aloop (m : AMap) (goal : Position) : Nat → List Node → List Position → AResult
  | 0, _, _ => .fuelOut
  | fuel + 1, frontier, visited =>
    match astep m goal frontier visited with
    | .halt r => r
    | .next f2 v2 => aloop m goal fuel f2 v2

/-- `solve_maze_using_astar`; `found p` models `Some(path)` with the
`VecDeque` rendered front-to-back as a list. -/
def solve_maze_using_astar (m : AMap) : AResult :=
  let goal : Position := ⟨wrapSub m.length 1, wrapSub m.length 1⟩
  aloop m goal (m.length * m.length + 2) [defaultNode] []

/-! ## Generic lemmas: association lists, popMin, distance maps -/

theorem alookup_append {α β : Type} [DecidableEq α] (a b : List (α × β)) (k : α) :
    alookup (a ++ b) k =
      match alookup a k with
      | some v => some v
      | none => alookup b k := by
  induction a with
  | nil => simp [alookup]
  | cons p rest ih =>
    obtain ⟨k1, v1⟩ := p
    by_cases h : k1 = k <;> simp [alookup, h, ih]

theorem alookup_mem {α β : Type} [DecidableEq α] {l : List (α × β)} {a : α} {b : β}
    (h : alookup l a = some b) : (a, b) ∈ l := by
  induction l with
  | nil => simp [alookup] at h
  | cons p rest ih =>
    obtain ⟨k, v⟩ := p
    by_cases hk : k = a
    · subst hk
      simp [alookup] at h
      subst h
      exact List.mem_cons_self _ _
    · simp [alookup, hk] at h
      exact List.mem_cons_of_mem _ (ih h)

theorem alookup_isSome_iff {α β : Type} [DecidableEq α] (l : List (α × β)) (a : α) :
    (alookup l a).isSome = true ↔ a ∈ l.map Prod.fst := by
  induction l with
  | nil => simp [alookup]
  | cons p rest ih =>
    obtain ⟨k, v⟩ := p
    by_cases hk : k = a
    · subst hk; simp [alookup]
    · simp [alookup, hk, ih, Ne.symm hk]

theorem alookup_eq_none_of_not_mem {α β : Type} [DecidableEq α] {l : List (α × β)} {a : α}
    (h : a ∉ l.map Prod.fst) : alookup l a = none := by
  cases hl : alookup l a with
  | none => rfl
  | some b =>
    exact absurd ((alookup_isSome_iff l a).1 (by simp [hl])) h

theorem keyLE_iff (a1 a2 a3 a4 b1 b2 b3 b4 : Nat) :
    keyLE (a1, a2, a3, a4) (b1, b2, b3, b4) = true ↔
      a1 < b1 ∨ (a1 = b1 ∧ (a2 < b2 ∨ (a2 = b2 ∧ (a3 < b3 ∨ (a3 = b3 ∧ a4 ≤ b4))))) := by
  simp only [keyLE]
  by_cases h1 : a1 = b1 <;> by_cases h2 : a2 = b2 <;> by_cases h3 : a3 = b3 <;>
    simp [h1, h2, h3] <;> omega

theorem keyLE_refl (k : Nat × Nat × Nat × Nat) : keyLE k k = true := by
  obtain ⟨a1, a2, a3, a4⟩ := k
  rw [keyLE_iff]
  omega

theorem keyLE_trans {k1 k2 k3 : Nat × Nat × Nat × Nat}
    (h1 : keyLE k1 k2 = true) (h2 : keyLE k2 k3 = true) : keyLE k1 k3 = true := by
  obtain ⟨a1, a2, a3, a4⟩ := k1
  obtain ⟨b1, b2, b3, b4⟩ := k2
  obtain ⟨c1, c2, c3, c4⟩ := k3
  rw [keyLE_iff] at h1 h2 ⊢
  omega

theorem keyLE_total (k1 k2 : Nat × Nat × Nat × Nat)
    (h : ¬ keyLE k1 k2 = true) : keyLE k2 k1 = true := by
  obtain ⟨a1, a2, a3, a4⟩ := k1
  obtain ⟨b1, b2, b3, b4⟩ := k2
  rw [keyLE_iff] at h ⊢
  omega

theorem popMin_none_iff (l : List SState) : popMin l = none ↔ l = [] := by
  cases l with
  | nil => simp [popMin]
  | cons s rest =>
    simp only [popMin]
    cases popMin rest with
    | none => simp
    | some p =>
      obtain ⟨m, r⟩ := p
      by_cases h : keyLE (stateKey s) (stateKey m) = true <;> simp [h]

theorem popMin_perm {l : List SState} {m : SState} {r : List SState}
    (h : popMin l = some (m, r)) : l.Perm (m :: r) := by
  induction l generalizing m r with
  | nil => simp [popMin] at h
  | cons s rest ih =>
    simp only [popMin] at h
    cases hr : popMin rest with
    | none =>
      rw [hr] at h
      have : rest = [] := (popMin_none_iff rest).1 hr
      subst this
      simp at h
      obtain ⟨h1, h2⟩ := h
      subst h1; subst h2
      rfl
    | some p =>
      obtain ⟨m2, r2⟩ := p
      rw [hr] at h
      by_cases hk : keyLE (stateKey s) (stateKey m2) = true
      · simp [hk] at h
        obtain ⟨h1, h2⟩ := h
        subst h1; subst h2
        rfl
      · simp [hk] at h
        obtain ⟨h1, h2⟩ := h
        subst h1; subst h2
        exact List.Perm.trans (List.Perm.cons s (ih hr)) (List.Perm.swap _ s r2)

theorem popMin_le {l : List SState} {m : SState} {r : List SState}
    (h : popMin l = some (m, r)) : ∀ s ∈ l, keyLE (stateKey m) (stateKey s) = true := by
  induction l generalizing m r with
  | nil => simp [popMin] at h
  | cons s rest ih =>
    simp only [popMin] at h
    cases hr : popMin rest with
    | none =>
      rw [hr] at h
      have : rest = [] := (popMin_none_iff rest).1 hr
      subst this
      simp at h
      obtain ⟨h1, _⟩ := h
      subst h1
      intro t ht
      simp at ht
      subst ht
      exact keyLE_refl _
    | some p =>
      obtain ⟨m2, r2⟩ := p
      rw [hr] at h
      by_cases hk : keyLE (stateKey s) (stateKey m2) = true
      · simp [hk] at h
        obtain ⟨h1, _⟩ := h
        subst h1
        intro t ht
        rcases List.mem_cons.1 ht with h | h
        · subst h; exact keyLE_refl _
        · exact keyLE_trans hk (ih hr t h)
      · simp [hk] at h
        obtain ⟨h1, _⟩ := h
        subst h1
        intro t ht
        rcases List.mem_cons.1 ht with h | h
        · subst h; exact keyLE_total _ _ hk
        · exact ih hr t h

theorem popMin_cost_le {l : List SState} {m : SState} {r : List SState}
    (h : popMin l = some (m, r)) : ∀ s ∈ l, m.cost ≤ s.cost := by
  intro s hs
  have hk := popMin_le h s hs
  simp only [stateKey] at hk
  rw [keyLE_iff] at hk
  omega


/-! ## Characterisation of the generated adjacency map -/

theorem mapGet_eq_bind (m : Map) (y x : Nat) :
    mapGet m y x = (m.get? y).bind (fun row => row.get? x) := by
  simp only [mapGet]
  by_cases hy : y < m.length
  · rw [dif_pos hy, List.get?_eq_get hy]
    by_cases hx : x < (m.get ⟨y, hy⟩).length
    · rw [dif_pos hx]
      simp [List.get?_eq_get hx]
    · rw [dif_neg hx]
      simp only [Option.some_bind]
      rw [eq_comm, List.get?_eq_none]
      omega
  · rw [dif_neg hy]
    rw [List.get?_eq_none.2 (by omega : m.length ≤ y)]
    rfl

def vertexMatched (m : Map) (v : Vertex) : Bool :=
  match mapGet m v.y v.x with
  | some it => isAdjSource it
  | none => false

theorem edgesForCellAux_isSome_iff (m : Map) (x y : Nat) (cur : Direction)
    (dirs : List Direction) :
    (edgesForCellAux m x y cur dirs).isSome = true ↔
      ∀ d ∈ dirs,
        (mapGet m (targetOf ⟨x, y, cur⟩ d).y (targetOf ⟨x, y, cur⟩ d).x).isSome = true := by
  induction dirs with
  | nil => simp [edgesForCellAux]
  | cons md rest ih =>
    simp only [edgesForCellAux]
    cases hg : mapGet m (targetOf ⟨x, y, cur⟩ md).y (targetOf ⟨x, y, cur⟩ md).x with
    | none =>
      dsimp only
      simp only [List.mem_cons]
      constructor
      · intro h; simp at h
      · intro h
        have := h md (Or.inl rfl)
        rw [hg] at this
        simp at this
    | some nmap =>
      dsimp only
      by_cases hw : nmap = MapItem.Wall
      · rw [if_pos hw]
        rw [ih]
        constructor
        · intro h d hd
          rcases List.mem_cons.1 hd with h1 | h1
          · subst h1; simp [hg]
          · exact h d h1
        · intro h d hd
          exact h d (List.mem_cons_of_mem _ hd)
      · rw [if_neg hw]
        cases hrec : edgesForCellAux m x y cur rest with
        | none =>
          constructor
          · intro h; simp at h
          · intro h
            have h2 : (edgesForCellAux m x y cur rest).isSome = true := by
              rw [ih]
              intro d hd
              exact h d (List.mem_cons_of_mem _ hd)
            rw [hrec] at h2
            simp at h2
        | some es =>
          simp only [Option.isSome_some, true_iff]
          intro d hd
          rcases List.mem_cons.1 hd with h1 | h1
          · subst h1; simp [hg]
          · have h2 : (edgesForCellAux m x y cur rest).isSome = true := by simp [hrec]
            rw [ih] at h2
            exact h2 d h1

theorem edgesForCellAux_mem {m : Map} {x y : Nat} {cur : Direction}
    {dirs : List Direction} {es : List Edge}
    (h : edgesForCellAux m x y cur dirs = some es) :
    ∀ e, e ∈ es ↔ ∃ d ∈ dirs, e = (⟨targetOf ⟨x, y, cur⟩ d, edgeCost cur d⟩ : Edge) ∧
      ∃ it2, mapGet m (targetOf ⟨x, y, cur⟩ d).y (targetOf ⟨x, y, cur⟩ d).x = some it2 ∧
        it2 ≠ MapItem.Wall := by
  induction dirs generalizing es with
  | nil =>
    simp only [edgesForCellAux] at h
    injection h with hh
    subst hh
    simp
  | cons md rest ih =>
    simp only [edgesForCellAux] at h
    cases hg : mapGet m (targetOf ⟨x, y, cur⟩ md).y (targetOf ⟨x, y, cur⟩ md).x with
    | none => rw [hg] at h; exact absurd h (by simp)
    | some nmap =>
      rw [hg] at h
      dsimp only at h
      by_cases hw : nmap = MapItem.Wall
      · rw [if_pos hw] at h
        intro e
        rw [ih h e]
        constructor
        · rintro ⟨d, hd, he, it2, hit2, hw2⟩
          exact ⟨d, List.mem_cons_of_mem _ hd, he, it2, hit2, hw2⟩
        · rintro ⟨d, hd, he, it2, hit2, hw2⟩
          rcases List.mem_cons.1 hd with h1 | h1
          · subst h1
            rw [hg] at hit2
            injection hit2 with hh
            subst hh
            exact absurd hw hw2
          · exact ⟨d, h1, he, it2, hit2, hw2⟩
      · rw [if_neg hw] at h
        cases hrec : edgesForCellAux m x y cur rest with
        | none => rw [hrec] at h; exact absurd h (by simp)
        | some es2 =>
          rw [hrec] at h
          injection h with hh
          subst hh
          intro e
          constructor
          · intro h1
            rcases List.mem_cons.1 h1 with h1 | h1
            · exact ⟨md, List.mem_cons_self _ _, h1, nmap, hg, hw⟩
            · obtain ⟨d, hd, he, it2, hit2, hw2⟩ := (ih hrec e).1 h1
              exact ⟨d, List.mem_cons_of_mem _ hd, he, it2, hit2, hw2⟩
          · rintro ⟨d, hd, he, it2, hit2, hw2⟩
            rcases List.mem_cons.1 hd with h1 | h1
            · subst h1
              exact List.mem_cons.2 (Or.inl he)
            · exact List.mem_cons.2 (Or.inr ((ih hrec e).2 ⟨d, h1, he, it2, hit2, hw2⟩))

theorem edgesForCellAux_filter {m : Map} {x y : Nat} {cur : Direction}
    {dirs : List Direction} {es : List Edge} (hnd : dirs.Nodup)
    (h : edgesForCellAux m x y cur dirs = some es) {d : Direction} (hd : d ∈ dirs)
    {it : MapItem}
    (hit : mapGet m (targetOf ⟨x, y, cur⟩ d).y (targetOf ⟨x, y, cur⟩ d).x = some it) :
    es.filter (fun e => e.next_position.direction = d) =
      if it = MapItem.Wall then [] else [⟨targetOf ⟨x, y, cur⟩ d, edgeCost cur d⟩] := by
  induction dirs generalizing es with
  | nil => simp at hd
  | cons md rest ih =>
    simp only [edgesForCellAux] at h
    cases hg : mapGet m (targetOf ⟨x, y, cur⟩ md).y (targetOf ⟨x, y, cur⟩ md).x with
    | none => rw [hg] at h; exact absurd h (by simp)
    | some nmap =>
      rw [hg] at h
      dsimp only at h
      have hsub : ∀ es2, edgesForCellAux m x y cur rest = some es2 →
          ∀ e ∈ es2, e.next_position.direction ∈ rest := by
        intro es2 h2 e he
        obtain ⟨d2, hd2, he2, _, _, _⟩ := (edgesForCellAux_mem h2 e).1 he
        subst he2
        simpa [targetOf] using hd2
      rcases List.mem_cons.1 hd with hcase | hcase
      · subst hcase
        rw [hg] at hit
        injection hit with hh
        subst hh
        by_cases hw : nmap = MapItem.Wall
        · rw [if_pos hw] at h ⊢
          rw [List.filter_eq_nil]
          intro e he
          have hmem := hsub es h e he
          intro hcontra
          simp at hcontra
          rw [hcontra] at hmem
          exact (List.nodup_cons.1 hnd).1 hmem
        · rw [if_neg hw] at h ⊢
          cases hrec : edgesForCellAux m x y cur rest with
          | none => rw [hrec] at h; exact absurd h (by simp)
          | some es2 =>
            rw [hrec] at h
            injection h with hh
            subst hh
            rw [List.filter_cons]
            have htt : (targetOf ⟨x, y, cur⟩ d).direction = d := by simp [targetOf]
            rw [if_pos (by simp [htt])]
            congr 1
            rw [List.filter_eq_nil]
            intro e he
            have hmem := hsub es2 hrec e he
            intro hcontra
            simp at hcontra
            rw [hcontra] at hmem
            exact (List.nodup_cons.1 hnd).1 hmem
      · have hmd : d ≠ md := by
          intro hcontra
          subst hcontra
          exact (List.nodup_cons.1 hnd).1 hcase
        by_cases hw : nmap = MapItem.Wall
        · rw [if_pos hw] at h
          exact ih (List.nodup_cons.1 hnd).2 h hcase
        · rw [if_neg hw] at h
          cases hrec : edgesForCellAux m x y cur rest with
          | none => rw [hrec] at h; exact absurd h (by simp)
          | some es2 =>
            rw [hrec] at h
            injection h with hh
            subst hh
            rw [List.filter_cons]
            have htt : (targetOf ⟨x, y, cur⟩ md).direction = md := by simp [targetOf]
            rw [if_neg (by simp [htt]; exact fun hc => hmd hc.symm)]
            exact ih (List.nodup_cons.1 hnd).2 hrec hcase

theorem dir_mem_DIRECTIONS (d : Direction) : d ∈ DIRECTIONS := by
  cases d <;> simp [DIRECTIONS]

theorem DIRECTIONS_nodup : DIRECTIONS.Nodup := by decide

theorem cellAdjacenciesAux_success {m : Map} {x y : Nat} :
    ∀ {dirs : List Direction} {C : List (Vertex × List Edge)},
    cellAdjacenciesAux m x y dirs = some C →
    ∀ cur ∈ dirs, (edgesForCell m x y cur).isSome = true := by
  intro dirs
  induction dirs with
  | nil => intro C _ cur hc; simp at hc
  | cons d0 rest ih =>
    intro C h cur hc
    simp only [cellAdjacenciesAux] at h
    cases hec : edgesForCell m x y d0 with
    | none => rw [hec] at h; exact absurd h (by simp)
    | some es =>
      rw [hec] at h
      dsimp only at h
      cases hrec : cellAdjacenciesAux m x y rest with
      | none => rw [hrec] at h; exact absurd h (by simp)
      | some r =>
        rcases List.mem_cons.1 hc with h1 | h1
        · subst h1; simp [hec]
        · exact ih hrec cur h1

theorem cellAdjacenciesAux_lookup {m : Map} {x y : Nat} :
    ∀ {dirs : List Direction} {C : List (Vertex × List Edge)},
    cellAdjacenciesAux m x y dirs = some C →
    ∀ v : Vertex, alookup C v =
      if v.x = x ∧ v.y = y ∧ v.direction ∈ dirs then edgesForCell m x y v.direction
      else none := by
  intro dirs
  induction dirs with
  | nil =>
    intro C h v
    simp only [cellAdjacenciesAux] at h
    injection h with hh
    subst hh
    simp [alookup]
  | cons cur rest ih =>
    intro C h v
    simp only [cellAdjacenciesAux] at h
    cases hec : edgesForCell m x y cur with
    | none => rw [hec] at h; exact absurd h (by simp)
    | some es =>
      rw [hec] at h
      dsimp only at h
      cases hrec : cellAdjacenciesAux m x y rest with
      | none => rw [hrec] at h; exact absurd h (by simp)
      | some r =>
        rw [hrec] at h
        injection h with hh
        subst hh
        simp only [alookup]
        by_cases hv : (⟨x, y, cur⟩ : Vertex) = v
        · rw [if_pos hv]
          have hx : v.x = x := by rw [← hv]
          have hy : v.y = y := by rw [← hv]
          have hd : v.direction = cur := by rw [← hv]
          rw [if_pos ⟨hx, hy, by rw [hd]; exact List.mem_cons_self _ _⟩]
          rw [hd, hec]
        · rw [if_neg hv]
          rw [ih hrec v]
          by_cases hc : v.x = x ∧ v.y = y ∧ v.direction ∈ rest
          · rw [if_pos hc, if_pos ⟨hc.1, hc.2.1, List.mem_cons_of_mem _ hc.2.2⟩]
          · rw [if_neg hc]
            by_cases hc2 : v.x = x ∧ v.y = y ∧ v.direction ∈ (cur :: rest)
            · exfalso
              rcases List.mem_cons.1 hc2.2.2 with h1 | h1
              · exact hv (by cases v; simp_all)
              · exact hc ⟨hc2.1, hc2.2.1, h1⟩
            · rw [if_neg hc2]

def matchedAt (items : List MapItem) (k : Nat) : Bool :=
  match items.get? k with
  | some it => isAdjSource it
  | none => false

theorem matchedAt_zero (item : MapItem) (rest : List MapItem) :
    matchedAt (item :: rest) 0 = isAdjSource item := rfl

theorem matchedAt_succ (item : MapItem) (rest : List MapItem) (k : Nat) :
    matchedAt (item :: rest) (k + 1) = matchedAt rest k := rfl

theorem rowAdjacencies_success {m : Map} {y : Nat} :
    ∀ {items : List MapItem} {x : Nat} {B : List (Vertex × List Edge)},
    rowAdjacencies m y x items = some B →
    ∀ k, matchedAt items k = true → ∀ dc, (edgesForCell m (x + k) y dc).isSome = true := by
  intro items
  induction items with
  | nil => intro x B _ k hk; simp [matchedAt] at hk
  | cons item rest ih =>
    intro x B h k hk dc
    simp only [rowAdjacencies] at h
    by_cases hm : isAdjSource item = true
    · rw [if_pos hm] at h
      cases hc : cellAdjacencies m x y with
      | none => rw [hc] at h; exact absurd h (by simp)
      | some a =>
        rw [hc] at h
        dsimp only at h
        cases hrec : rowAdjacencies m y (x + 1) rest with
        | none => rw [hrec] at h; exact absurd h (by simp)
        | some b =>
          cases k with
          | zero => exact cellAdjacenciesAux_success hc dc (dir_mem_DIRECTIONS _)
          | succ k0 =>
            rw [matchedAt_succ] at hk
            have := ih hrec k0 hk dc
            have harith : x + 1 + k0 = x + (k0 + 1) := by omega
            rw [harith] at this
            exact this
    · rw [if_neg hm] at h
      cases k with
      | zero =>
        rw [matchedAt_zero] at hk
        exact absurd hk hm
      | succ k0 =>
        rw [matchedAt_succ] at hk
        have := ih h k0 hk dc
        have harith : x + 1 + k0 = x + (k0 + 1) := by omega
        rw [harith] at this
        exact this

theorem rowAdjacencies_lookup {m : Map} {y : Nat} :
    ∀ {items : List MapItem} {x : Nat} {B : List (Vertex × List Edge)},
    rowAdjacencies m y x items = some B →
    ∀ v : Vertex, alookup B v =
      if v.y = y ∧ x ≤ v.x ∧ matchedAt items (v.x - x) = true
      then edgesForCell m v.x y v.direction else none := by
  intro items
  induction items with
  | nil =>
    intro x B h v
    simp only [rowAdjacencies] at h
    injection h with hh
    subst hh
    simp [alookup, matchedAt]
  | cons item rest ih =>
    intro x B h v
    simp only [rowAdjacencies] at h
    by_cases hm : isAdjSource item = true
    · rw [if_pos hm] at h
      cases hc : cellAdjacencies m x y with
      | none => rw [hc] at h; exact absurd h (by simp)
      | some a =>
        rw [hc] at h
        dsimp only at h
        cases hrec : rowAdjacencies m y (x + 1) rest with
        | none => rw [hrec] at h; exact absurd h (by simp)
        | some b =>
          rw [hrec] at h
          injection h with hh
          subst hh
          rw [alookup_append, cellAdjacenciesAux_lookup hc v]
          by_cases hv : v.x = x ∧ v.y = y
          · rw [if_pos ⟨hv.1, hv.2, dir_mem_DIRECTIONS _⟩]
            obtain ⟨es, hes⟩ := Option.isSome_iff_exists.1
              (cellAdjacenciesAux_success hc v.direction (dir_mem_DIRECTIONS _))
            rw [hes]
            dsimp only
            have hk : v.x - x = 0 := by omega
            rw [if_pos ⟨hv.2, by omega, by rw [hk, matchedAt_zero]; exact hm⟩]
            rw [hv.1, hes]
          · rw [if_neg (fun hc2 => hv ⟨hc2.1, hc2.2.1⟩)]
            dsimp only
            rw [ih hrec v]
            by_cases hy : v.y = y
            · by_cases hxlt : x < v.x
              · have hsh : v.x - x = (v.x - (x + 1)) + 1 := by omega
                by_cases hmm : matchedAt rest (v.x - (x + 1)) = true
                · rw [if_pos ⟨hy, by omega, hmm⟩,
                    if_pos ⟨hy, by omega, by rw [hsh, matchedAt_succ]; exact hmm⟩]
                · rw [if_neg (fun hc2 => hmm hc2.2.2),
                    if_neg (fun hc2 => hmm (by
                      have := hc2.2.2
                      rw [hsh, matchedAt_succ] at this
                      exact this))]
              · by_cases hxe : v.x = x
                · exact absurd ⟨hxe, hy⟩ hv
                · rw [if_neg (fun hc2 => by omega : ¬(v.y = y ∧ x + 1 ≤ v.x ∧
                    matchedAt rest (v.x - (x + 1)) = true)),
                    if_neg (fun hc2 => by omega : ¬(v.y = y ∧ x ≤ v.x ∧
                    matchedAt (item :: rest) (v.x - x) = true))]
            · rw [if_neg (fun hc2 => hy hc2.1), if_neg (fun hc2 => hy hc2.1)]
    · rw [if_neg hm] at h
      rw [ih h v]
      by_cases hy : v.y = y
      · by_cases hxlt : x < v.x
        · have hsh : v.x - x = (v.x - (x + 1)) + 1 := by omega
          by_cases hmm : matchedAt rest (v.x - (x + 1)) = true
          · rw [if_pos ⟨hy, by omega, hmm⟩,
              if_pos ⟨hy, by omega, by rw [hsh, matchedAt_succ]; exact hmm⟩]
          · rw [if_neg (fun hc2 => hmm hc2.2.2),
              if_neg (fun hc2 => hmm (by
                have := hc2.2.2
                rw [hsh, matchedAt_succ] at this
                exact this))]
        · by_cases hxe : v.x = x
          · rw [if_neg (fun hc2 => by omega : ¬(v.y = y ∧ x + 1 ≤ v.x ∧
              matchedAt rest (v.x - (x + 1)) = true))]
            have hk : v.x - x = 0 := by omega
            rw [if_neg (fun hc2 => hm (by
              have := hc2.2.2
              rw [hk, matchedAt_zero] at this
              exact this))]
          · rw [if_neg (fun hc2 => by omega : ¬(v.y = y ∧ x + 1 ≤ v.x ∧
              matchedAt rest (v.x - (x + 1)) = true)),
              if_neg (fun hc2 => by omega : ¬(v.y = y ∧ x ≤ v.x ∧
              matchedAt (item :: rest) (v.x - x) = true))]
      · rw [if_neg (fun hc2 => hy hc2.1), if_neg (fun hc2 => hy hc2.1)]

def rowsMatchedAt (rows : List (List MapItem)) (k x : Nat) : Bool :=
  match rows.get? k with
  | some row => matchedAt row x
  | none => false

theorem rowsMatchedAt_zero (row : List MapItem) (rest : List (List MapItem)) (x : Nat) :
    rowsMatchedAt (row :: rest) 0 x = matchedAt row x := rfl

theorem rowsMatchedAt_succ (row : List MapItem) (rest : List (List MapItem)) (k x : Nat) :
    rowsMatchedAt (row :: rest) (k + 1) x = rowsMatchedAt rest k x := rfl

theorem genAdjacenciesAux_lookup {m : Map} :
    ∀ {rows : List (List MapItem)} {y : Nat} {A : List (Vertex × List Edge)},
    genAdjacenciesAux m y rows = some A →
    ∀ v : Vertex, alookup A v =
      if y ≤ v.y ∧ rowsMatchedAt rows (v.y - y) v.x = true
      then edgesForCell m v.x v.y v.direction else none := by
  intro rows
  induction rows with
  | nil =>
    intro y A h v
    simp only [genAdjacenciesAux] at h
    injection h with hh
    subst hh
    simp [alookup, rowsMatchedAt]
  | cons row rest ih =>
    intro y A h v
    simp only [genAdjacenciesAux] at h
    cases hrow : rowAdjacencies m y 0 row with
    | none => rw [hrow] at h; exact absurd h (by simp)
    | some a =>
      rw [hrow] at h
      dsimp only at h
      cases hrec : genAdjacenciesAux m (y + 1) rest with
      | none => rw [hrec] at h; exact absurd h (by simp)
      | some b =>
        rw [hrec] at h
        injection h with hh
        subst hh
        rw [alookup_append, rowAdjacencies_lookup hrow v]
        by_cases hy : v.y = y
        · by_cases hmm : matchedAt row v.x = true
          · rw [if_pos ⟨hy, by omega, by simpa using hmm⟩]
            obtain ⟨es, hes⟩ := Option.isSome_iff_exists.1
              (by
                have h0 : v.x = 0 + v.x := by omega
                have := rowAdjacencies_success hrow v.x hmm v.direction
                rw [← h0] at this
                exact this)
            rw [hes]
            dsimp only
            have hk : v.y - y = 0 := by omega
            rw [if_pos ⟨by omega, by rw [hk, rowsMatchedAt_zero]; exact hmm⟩]
            rw [hy, hes]
          · rw [if_neg (fun hc2 => hmm (by simpa using hc2.2.2))]
            dsimp only
            rw [ih hrec v]
            have hk : v.y - y = 0 := by omega
            rw [if_neg (fun hc2 => by omega : ¬(y + 1 ≤ v.y ∧
              rowsMatchedAt rest (v.y - (y + 1)) v.x = true))]
            rw [if_neg (fun hc2 => hmm (by
              have := hc2.2
              rw [hk, rowsMatchedAt_zero] at this
              exact this))]
        · rw [if_neg (fun hc2 => hy hc2.1)]
          dsimp only
          rw [ih hrec v]
          by_cases hylt : y < v.y
          · have hsh : v.y - y = (v.y - (y + 1)) + 1 := by omega
            by_cases hmm : rowsMatchedAt rest (v.y - (y + 1)) v.x = true
            · rw [if_pos ⟨by omega, hmm⟩,
                if_pos ⟨by omega, by rw [hsh, rowsMatchedAt_succ]; exact hmm⟩]
            · rw [if_neg (fun hc2 => hmm hc2.2),
                if_neg (fun hc2 => hmm (by
                  have := hc2.2
                  rw [hsh, rowsMatchedAt_succ] at this
                  exact this))]
          · rw [if_neg (fun hc2 => by omega : ¬(y + 1 ≤ v.y ∧
              rowsMatchedAt rest (v.y - (y + 1)) v.x = true)),
              if_neg (fun hc2 => by omega : ¬(y ≤ v.y ∧
              rowsMatchedAt (row :: rest) (v.y - y) v.x = true))]

theorem genAdjacenciesAux_success {m : Map} :
    ∀ {rows : List (List MapItem)} {y : Nat} {A : List (Vertex × List Edge)},
    genAdjacenciesAux m y rows = some A →
    ∀ k x, rowsMatchedAt rows k x = true → ∀ dc, (edgesForCell m x (y + k) dc).isSome = true := by
  intro rows
  induction rows with
  | nil => intro y A _ k x hk; simp [rowsMatchedAt] at hk
  | cons row rest ih =>
    intro y A h k x hk dc
    simp only [genAdjacenciesAux] at h
    cases hrow : rowAdjacencies m y 0 row with
    | none => rw [hrow] at h; exact absurd h (by simp)
    | some a =>
      rw [hrow] at h
      dsimp only at h
      cases hrec : genAdjacenciesAux m (y + 1) rest with
      | none => rw [hrec] at h; exact absurd h (by simp)
      | some b =>
        cases k with
        | zero =>
          rw [rowsMatchedAt_zero] at hk
          have := rowAdjacencies_success hrow x hk dc
          simpa using this
        | succ k0 =>
          rw [rowsMatchedAt_succ] at hk
          have := ih hrec k0 x hk dc
          have harith : y + 1 + k0 = y + (k0 + 1) := by omega
          rw [harith] at this
          exact this

theorem vertexMatched_eq_rowsMatchedAt (m : Map) (v : Vertex) :
    vertexMatched m v = rowsMatchedAt m v.y v.x := by
  simp only [vertexMatched, rowsMatchedAt, matchedAt, mapGet_eq_bind]
  cases m.get? v.y with
  | none => rfl
  | some row => simp only [Option.some_bind]

/-- The central characterisation of the generated adjacency map: looking up a
vertex yields the `edgesForCell` list exactly when the vertex cell matches
`Empty | Start | End`. -/
theorem gen_lookup_spec {m : Map} {A : List (Vertex × List Edge)}
    (h : genAdjacencies m = some A) (v : Vertex) :
    alookup A v =
      if vertexMatched m v = true then edgesForCell m v.x v.y v.direction else none := by
  have := genAdjacenciesAux_lookup h v
  rw [vertexMatched_eq_rowsMatchedAt]
  simpa using this

theorem gen_success {m : Map} {A : List (Vertex × List Edge)}
    (h : genAdjacencies m = some A) (v : Vertex) (hv : vertexMatched m v = true) :
    (edgesForCell m v.x v.y v.direction).isSome = true := by
  have := genAdjacenciesAux_success h v.y v.x
    (by rw [← vertexMatched_eq_rowsMatchedAt]; exact hv) v.direction
  simpa using this

theorem gen_keys_iff {m : Map} {A : List (Vertex × List Edge)}
    (h : genAdjacencies m = some A) (v : Vertex) :
    v ∈ keysOf A ↔ vertexMatched m v = true := by
  rw [keysOf, ← alookup_isSome_iff, gen_lookup_spec h v]
  by_cases hv : vertexMatched m v = true
  · simp only [if_pos hv, iff_true_intro hv, iff_true]
    exact gen_success h v hv
  · simp [hv]

/-! ## Bridging generated edges and the grid-level edge relation -/

theorem targetOf_direction (v : Vertex) (d : Direction) : (targetOf v d).direction = d := rfl

theorem edgeCost_pos (f d : Direction) : 1 ≤ edgeCost f d := by
  simp [edgeCost]

theorem turns_le_two (f d : Direction) : f.turns_to_face d ≤ 2 := by
  cases f <;> cases d <;> decide

theorem edgeCost_le (f d : Direction) : edgeCost f d ≤ 2001 := by
  have := turns_le_two f d
  simp only [edgeCost]
  omega

theorem edgeRel_cost_le {m : Map} {v w : Vertex} {c : Nat} (h : EdgeRel m v w c) :
    1 ≤ c ∧ c ≤ 2001 := by
  obtain ⟨_, d, _, hc, _⟩ := h
  subst hc
  exact ⟨edgeCost_pos _ _, edgeCost_le _ _⟩

theorem edge_mem_of_lookup {m : Map} {A : List (Vertex × List Edge)}
    (hA : genAdjacencies m = some A) {v : Vertex} {es : List Edge}
    (hv : alookup A v = some es) {e : Edge} (he : e ∈ es) :
    EdgeRel m v e.next_position e.cost := by
  rw [gen_lookup_spec hA v] at hv
  by_cases hm : vertexMatched m v = true
  · rw [if_pos hm] at hv
    have hmem := (edgesForCellAux_mem (by simpa [edgesForCell] using hv) e).1 he
    obtain ⟨d, _, he2, it2, hit2, hw2⟩ := hmem
    constructor
    · simp only [vertexMatched] at hm
      cases hg : mapGet m v.y v.x with
      | none => rw [hg] at hm; simp at hm
      | some it => exact ⟨it, rfl, by rw [hg] at hm; exact hm⟩
    · refine ⟨d, ?_, ?_, it2, ?_, hw2⟩
      · rw [he2]
      · rw [he2]
      · rw [he2]
        exact hit2
  · rw [if_neg hm] at hv
    exact absurd hv (by simp)

theorem lookup_mem_of_edgeRel {m : Map} {A : List (Vertex × List Edge)}
    (hA : genAdjacencies m = some A) {v w : Vertex} {c : Nat} (h : EdgeRel m v w c) :
    ∃ es, alookup A v = some es ∧ (⟨w, c⟩ : Edge) ∈ es := by
  obtain ⟨⟨it, hit, hsrc⟩, d, hw, hc, it2, hit2, hw2⟩ := h
  have hm : vertexMatched m v = true := by
    simp only [vertexMatched, hit]
    exact hsrc
  obtain ⟨es, hes⟩ := Option.isSome_iff_exists.1 (gen_success hA v hm)
  refine ⟨es, ?_, ?_⟩
  · rw [gen_lookup_spec hA v, if_pos hm]
    exact hes
  · rw [edgesForCellAux_mem (by simpa [edgesForCell] using hes) ⟨w, c⟩]
    refine ⟨d, dir_mem_DIRECTIONS _, ?_, it2, ?_, hw2⟩
    · simp only [Edge.mk.injEq]
      constructor
      · rw [hw]
      · rw [hc]
    · rw [← hw]
      exact hit2

theorem lookup_isSome_of_matched {m : Map} {A : List (Vertex × List Edge)}
    (hA : genAdjacencies m = some A) {v : Vertex} (hm : vertexMatched m v = true) :
    (alookup A v).isSome = true := by
  rw [gen_lookup_spec hA v, if_pos hm]
  exact gen_success hA v hm

/-- Targets of generated edges are themselves matched vertices (in bounds,
non-wall) as long as the map has no `Reindeer` items. -/
theorem edgeRel_target_matched {m : Map} (hnr : NoReindeer m) {v w : Vertex} {c : Nat}
    (h : EdgeRel m v w c) : vertexMatched m w = true := by
  obtain ⟨_, d, hw, _, it2, hit2, hw2⟩ := h
  simp only [vertexMatched, hit2]
  cases it2 with
  | Wall => exact absurd rfl hw2
  | Empty => rfl
  | Start => rfl
  | End => rfl
  | Reindeer ds =>
    exfalso
    rw [mapGet_eq_bind] at hit2
    cases hrow : m.get? w.y with
    | none => rw [hrow] at hit2; simp at hit2
    | some row =>
      rw [hrow] at hit2
      simp only [Option.some_bind] at hit2
      have hrm : row ∈ m := List.get?_mem hrow
      have him : MapItem.Reindeer ds ∈ row := List.get?_mem hit2
      have := hnr row hrm _ him
      simp [itemNoRein] at this

/-! ## Relaxation and loop measure -/

theorem dupdate_same (d : DistMap) (v : Vertex) (c : Nat) : dupdate d v c v = some c := by
  simp [dupdate]

theorem dupdate_other (d : DistMap) (v w : Vertex) (c : Nat) (h : w ≠ v) :
    dupdate d v c w = d w := by
  simp [dupdate, h]

theorem relax_dist_mono :
    ∀ {es : List Edge} {c : Nat} {pq : List SState} {dist : DistMap}
      {pq2 : List SState} {dist2 : DistMap},
    relax es c pq dist = some (pq2, dist2) → ∀ v,
      dist2 v = dist v ∨ ∃ d0 d2, dist v = some d0 ∧ dist2 v = some d2 ∧ d2 < d0 := by
  intro es
  induction es with
  | nil =>
    intro c pq dist pq2 dist2 h v
    simp only [relax] at h
    injection h with hh
    cases hh
    exact Or.inl rfl
  | cons e rest ih =>
    intro c pq dist pq2 dist2 h v
    simp only [relax] at h
    cases hw : dist e.next_position with
    | none => rw [hw] at h; exact absurd h (by simp)
    | some dw =>
      rw [hw] at h
      dsimp only at h
      by_cases hlt : (e.cost + c) % USIZE < dw
      · rw [if_pos hlt] at h
        rcases ih h v with h1 | ⟨d0, d2, hd0, hd2, hlt2⟩
        · rw [h1]
          by_cases hv : v = e.next_position
          · subst hv
            rw [dupdate_same]
            exact Or.inr ⟨dw, _, hw, rfl, hlt⟩
          · rw [dupdate_other _ _ _ _ hv]
            exact Or.inl rfl
        · by_cases hv : v = e.next_position
          · subst hv
            rw [dupdate_same] at hd0
            injection hd0 with hd0e
            exact Or.inr ⟨dw, d2, hw, hd2, by omega⟩
          · rw [dupdate_other _ _ _ _ hv] at hd0
            exact Or.inr ⟨d0, d2, hd0, hd2, hlt2⟩
      · rw [if_neg hlt] at h
        exact ih h v

theorem relax_dist_le {es : List Edge} {c : Nat} {pq : List SState} {dist : DistMap}
    {pq2 : List SState} {dist2 : DistMap}
    (h : relax es c pq dist = some (pq2, dist2)) (v : Vertex) {d0 : Nat}
    (hd : dist v = some d0) : ∃ d2, dist2 v = some d2 ∧ d2 ≤ d0 := by
  rcases relax_dist_mono h v with h1 | ⟨d0b, d2, hd0, hd2, hlt⟩
  · exact ⟨d0, by rw [h1, hd], le_refl _⟩
  · rw [hd] at hd0
    injection hd0 with he
    subst he
    exact ⟨d2, hd2, by omega⟩

theorem relax_dist_none {es : List Edge} {c : Nat} {pq : List SState} {dist : DistMap}
    {pq2 : List SState} {dist2 : DistMap}
    (h : relax es c pq dist = some (pq2, dist2)) (v : Vertex)
    (hd : dist v = none) : dist2 v = none := by
  rcases relax_dist_mono h v with h1 | ⟨d0, d2, hd0, _, _⟩
  · rw [h1, hd]
  · rw [hd] at hd0; exact absurd hd0 (by simp)

theorem relax_news :
    ∀ {es : List Edge} {c : Nat} {pq : List SState} {dist : DistMap}
      {pq2 : List SState} {dist2 : DistMap},
    relax es c pq dist = some (pq2, dist2) →
    ∃ news, pq2 = news ++ pq ∧ ∀ st ∈ news,
      (∃ e ∈ es, st.position = e.next_position ∧ st.cost = (e.cost + c) % USIZE) ∧
      ∃ d0, dist st.position = some d0 ∧ st.cost < d0 := by
  intro es
  induction es with
  | nil =>
    intro c pq dist pq2 dist2 h
    simp only [relax] at h
    injection h with hh
    cases hh
    exact ⟨[], by simp, by simp⟩
  | cons e rest ih =>
    intro c pq dist pq2 dist2 h
    simp only [relax] at h
    cases hw : dist e.next_position with
    | none => rw [hw] at h; exact absurd h (by simp)
    | some dw =>
      rw [hw] at h
      dsimp only at h
      by_cases hlt : (e.cost + c) % USIZE < dw
      · rw [if_pos hlt] at h
        obtain ⟨news, hpq, hcond⟩ := ih h
        refine ⟨news ++ [⟨e.next_position, (e.cost + c) % USIZE⟩], by simp [hpq], ?_⟩
        intro st hst
        rcases List.mem_append.1 hst with h1 | h1
        · obtain ⟨⟨e2, he2, hpos, hcost⟩, d0, hd0, hlt0⟩ := hcond st h1
          refine ⟨⟨e2, List.mem_cons_of_mem _ he2, hpos, hcost⟩, ?_⟩
          by_cases hv : st.position = e.next_position
          · rw [hv, dupdate_same] at hd0
            injection hd0 with he0
            refine ⟨dw, ?_, by omega⟩
            rw [hv]
            exact hw
          · rw [dupdate_other _ _ _ _ hv] at hd0
            exact ⟨d0, hd0, hlt0⟩
        · simp at h1
          subst h1
          exact ⟨⟨e, List.mem_cons_self _ _, rfl, rfl⟩, dw, hw, hlt⟩
      · rw [if_neg hlt] at h
        obtain ⟨news, hpq, hcond⟩ := ih h
        refine ⟨news, hpq, ?_⟩
        intro st hst
        obtain ⟨⟨e2, he2, hpos, hcost⟩, d0, hd0, hlt0⟩ := hcond st hst
        exact ⟨⟨e2, List.mem_cons_of_mem _ he2, hpos, hcost⟩, d0, hd0, hlt0⟩

theorem relax_isSome {es : List Edge} {c : Nat} {pq : List SState} {dist : DistMap}
    (hs : ∀ e ∈ es, (dist e.next_position).isSome = true) :
    (relax es c pq dist).isSome = true := by
  induction es generalizing pq dist with
  | nil => simp [relax]
  | cons e rest ih =>
    simp only [relax]
    cases hw : dist e.next_position with
    | none =>
      have := hs e (List.mem_cons_self _ _)
      rw [hw] at this
      simp at this
    | some dw =>
      dsimp only
      by_cases hlt : (e.cost + c) % USIZE < dw
      · rw [if_pos hlt]
        refine ih ?_
        intro e2 he2
        have := hs e2 (List.mem_cons_of_mem _ he2)
        by_cases hv : e2.next_position = e.next_position
        · rw [hv, dupdate_same]; rfl
        · rw [dupdate_other _ _ _ _ hv]; exact this
      · rw [if_neg hlt]
        exact ih (fun e2 he2 => hs e2 (List.mem_cons_of_mem _ he2))

theorem sumDist_le_of_pointwise {keys : List Vertex} {f g : DistMap}
    (h : ∀ w ∈ keys, (f w).getD 0 ≤ (g w).getD 0) : sumDist keys f ≤ sumDist keys g := by
  induction keys with
  | nil => simp [sumDist]
  | cons k rest ih =>
    simp only [sumDist, List.map_cons, List.sum_cons]
    have h1 := h k (List.mem_cons_self _ _)
    have h2 := ih (fun w hw => h w (List.mem_cons_of_mem _ hw))
    simp only [sumDist] at h2
    omega

theorem sumDist_update_lt {keys : List Vertex} {dist : DistMap} {v : Vertex} {c d : Nat}
    (hv : v ∈ keys) (hd : dist v = some d) (hc : c < d) :
    sumDist keys (dupdate dist v c) + 1 ≤ sumDist keys dist := by
  induction keys with
  | nil => simp at hv
  | cons k rest ih =>
    simp only [sumDist, List.map_cons, List.sum_cons]
    have hpt : ∀ w ∈ rest, ((dupdate dist v c) w).getD 0 ≤ (dist w).getD 0 := by
      intro w _
      by_cases hw : w = v
      · subst hw
        rw [dupdate_same, hd]
        simp
        omega
      · rw [dupdate_other _ _ _ _ hw]
    rcases List.mem_cons.1 hv with h1 | h1
    · subst h1
      rw [dupdate_same, hd]
      have := sumDist_le_of_pointwise hpt
      simp only [sumDist] at this
      simp only [Option.getD_some]
      omega
    · have := ih h1
      have hk : ((dupdate dist v c) k).getD 0 ≤ (dist k).getD 0 := by
        by_cases hw : k = v
        · subst hw
          rw [dupdate_same, hd]
          simp
          omega
        · rw [dupdate_other _ _ _ _ hw]
      simp only [sumDist] at this
      omega

theorem relax_measure {keys : List Vertex} :
    ∀ {es : List Edge} {c : Nat} {pq : List SState} {dist : DistMap}
      {pq2 : List SState} {dist2 : DistMap},
    relax es c pq dist = some (pq2, dist2) →
    (∀ v d, dist v = some d → v ∈ keys) →
    sumDist keys dist2 + pq2.length ≤ sumDist keys dist + pq.length ∧
      (∀ v d, dist2 v = some d → v ∈ keys) := by
  intro es
  induction es with
  | nil =>
    intro c pq dist pq2 dist2 h hdom
    simp only [relax] at h
    injection h with hh
    cases hh
    exact ⟨le_refl _, hdom⟩
  | cons e rest ih =>
    intro c pq dist pq2 dist2 h hdom
    simp only [relax] at h
    cases hw : dist e.next_position with
    | none => rw [hw] at h; exact absurd h (by simp)
    | some dw =>
      rw [hw] at h
      dsimp only at h
      by_cases hlt : (e.cost + c) % USIZE < dw
      · rw [if_pos hlt] at h
        have hdom2 : ∀ v d, dupdate dist e.next_position ((e.cost + c) % USIZE) v = some d →
            v ∈ keys := by
          intro v d hv
          by_cases hve : v = e.next_position
          · subst hve; exact hdom _ _ hw
          · rw [dupdate_other _ _ _ _ hve] at hv
            exact hdom _ _ hv
        obtain ⟨hle, hdom3⟩ := ih h hdom2
        refine ⟨?_, hdom3⟩
        have hupd := sumDist_update_lt (hdom _ _ hw) hw hlt
        simp only [List.length_cons] at hle ⊢
        omega
      · rw [if_neg hlt] at h
        exact ih h hdom

inductive DStepView where
  | halted (r : DResult)
  | stepped (pq2 : List SState) (dist2 : DistMap)

theorem dstep_next_measure {m : Map} {A : List (Vertex × List Edge)} {keys : List Vertex}
    {pq : List SState} {dist : DistMap} {pq2 : List SState} {dist2 : DistMap}
    (h : dstep m A pq dist = .next pq2 dist2)
    (hdom : ∀ v d, dist v = some d → v ∈ keys) :
    dmeasure keys pq2 dist2 < dmeasure keys pq dist ∧
      (∀ v d, dist2 v = some d → v ∈ keys) := by
  simp only [dstep] at h
  cases hpop : popMin pq with
  | none => rw [hpop] at h; exact absurd h (by simp)
  | some p =>
    obtain ⟨st, pq1⟩ := p
    rw [hpop] at h
    dsimp only at h
    have hlen : pq.length = pq1.length + 1 := by
      have := popMin_perm hpop
      have := this.length_eq
      simpa using this
    cases hg : mapGet m st.position.y st.position.x with
    | none => rw [hg] at h; exact absurd h (by simp)
    | some item =>
      rw [hg] at h
      dsimp only at h
      by_cases hend : item = MapItem.End
      · rw [if_pos hend] at h; exact absurd h (by simp)
      · rw [if_neg hend] at h
        cases hd : dist st.position with
        | none => rw [hd] at h; exact absurd h (by simp)
        | some d0 =>
          rw [hd] at h
          dsimp only at h
          by_cases hstale : d0 < st.cost
          · rw [if_pos hstale] at h
            injection h with h1 h2
            subst h1; subst h2
            constructor
            · simp only [dmeasure]
              omega
            · exact hdom
          · rw [if_neg hstale] at h
            cases ha : alookup A st.position with
            | none => rw [ha] at h; exact absurd h (by simp)
            | some edges =>
              rw [ha] at h
              dsimp only at h
              cases hr : relax edges st.cost pq1 dist with
              | none => rw [hr] at h; exact absurd h (by simp)
              | some out =>
                obtain ⟨pq3, dist3⟩ := out
                rw [hr] at h
                injection h with h1 h2
                subst h1; subst h2
                obtain ⟨hle, hdom2⟩ := relax_measure hr hdom
                constructor
                · simp only [dmeasure]
                  omega
                · exact hdom2

theorem dloop_ne_fuelOut {m : Map} {A : List (Vertex × List Edge)} {keys : List Vertex} :
    ∀ {fuel : Nat} {pq : List SState} {dist : DistMap},
    (∀ v d, dist v = some d → v ∈ keys) →
    dmeasure keys pq dist < fuel →
    dloop m A fuel pq dist ≠ .fuelOut := by
  intro fuel
  induction fuel with
  | zero => intro pq dist _ hlt; omega
  | succ f ih =>
    intro pq dist hdom hlt
    simp only [dloop]
    cases hs : dstep m A pq dist with
    | halt r =>
      cases hpop : popMin pq with
      | none =>
        simp only [dstep, hpop] at hs
        injection hs with hh
        subst hh
        simp
      | some p =>
        obtain ⟨st, pq1⟩ := p
        simp only [dstep, hpop] at hs
        cases hg : mapGet m st.position.y st.position.x with
        | none =>
          rw [hg] at hs
          injection hs with hh
          subst hh
          simp
        | some item =>
          rw [hg] at hs
          dsimp only at hs
          by_cases hend : item = MapItem.End
          · rw [if_pos hend] at hs
            injection hs with hh
            subst hh
            simp
          · rw [if_neg hend] at hs
            cases hd : dist st.position with
            | none =>
              rw [hd] at hs
              injection hs with hh
              subst hh
              simp
            | some d0 =>
              rw [hd] at hs
              dsimp only at hs
              by_cases hstale : d0 < st.cost
              · rw [if_pos hstale] at hs
                exact absurd hs (by simp)
              · rw [if_neg hstale] at hs
                cases ha : alookup A st.position with
                | none =>
                  rw [ha] at hs
                  injection hs with hh
                  subst hh
                  simp
                | some edges =>
                  rw [ha] at hs
                  dsimp only at hs
                  cases hr : relax edges st.cost pq1 dist with
                  | none =>
                    rw [hr] at hs
                    injection hs with hh
                    subst hh
                    simp
                  | some out =>
                    rw [hr] at hs
                    exact absurd hs (by simp)
    | next pq2 dist2 =>
      obtain ⟨hm2, hdom2⟩ := dstep_next_measure hs hdom
      exact ih hdom2 (by omega)

/-! ## Weak invariant: no panics, termination, no-path soundness -/

theorem usizeMAX_pos : 0 < usizeMAX := by
  simp only [usizeMAX, USIZE]
  norm_num

theorem initDist_spec (keys : List Vertex) (v : Vertex) :
    initDist keys v = if v ∈ keys then some usizeMAX else none := by
  induction keys with
  | nil => simp [initDist]
  | cons k rest ih =>
    simp only [initDist]
    by_cases hv : v = k
    · subst hv
      rw [dupdate_same, if_pos (List.mem_cons_self _ _)]
    · rw [dupdate_other _ _ _ _ hv, ih]
      by_cases hm : v ∈ rest
      · rw [if_pos hm, if_pos (List.mem_cons_of_mem _ hm)]
      · rw [if_neg hm, if_neg (by
          intro hc
          rcases List.mem_cons.1 hc with h1 | h1
          · exact hv h1
          · exact hm h1)]

theorem findStartInRow_spec :
    ∀ {row : List MapItem} {x0 x : Nat}, findStartInRow row x0 = some x →
      x0 ≤ x ∧ row.get? (x - x0) = some MapItem.Start := by
  intro row
  induction row with
  | nil => intro x0 x h; simp [findStartInRow] at h
  | cons item rest ih =>
    intro x0 x h
    simp only [findStartInRow] at h
    by_cases hit : item = MapItem.Start
    · rw [if_pos hit] at h
      injection h with hh
      subst hh
      refine ⟨le_refl _, ?_⟩
      simp [hit]
    · rw [if_neg hit] at h
      obtain ⟨hle, hget⟩ := ih h
      refine ⟨by omega, ?_⟩
      have : x - x0 = (x - (x0 + 1)) + 1 := by omega
      rw [this]
      simpa using hget

theorem findStartAux_spec :
    ∀ {rows : List (List MapItem)} {y0 : Nat} {x y : Nat},
    findStartAux rows y0 = some (x, y) →
      y0 ≤ y ∧ ∃ row, rows.get? (y - y0) = some row ∧ row.get? x = some MapItem.Start := by
  intro rows
  induction rows with
  | nil => intro y0 x y h; simp [findStartAux] at h
  | cons row rest ih =>
    intro y0 x y h
    simp only [findStartAux] at h
    cases hr : findStartInRow row 0 with
    | some x2 =>
      rw [hr] at h
      injection h with hh
      have hx : x2 = x := congrArg Prod.fst hh
      have hy : y0 = y := congrArg Prod.snd hh
      subst hx
      subst hy
      obtain ⟨_, hget⟩ := findStartInRow_spec hr
      refine ⟨le_refl _, row, ?_, by simpa using hget⟩
      simp [Nat.sub_self]
    | none =>
      rw [hr] at h
      obtain ⟨hle, row2, hrow2, hget⟩ := ih h
      refine ⟨by omega, row2, ?_, hget⟩
      have hsh : y - y0 = (y - (y0 + 1)) + 1 := by omega
      rw [hsh]
      simpa using hrow2

theorem find_rudolph_spec {m : Map} {r : Reindeer} (h : find_rudolph m = some r) :
    mapGet m r.y r.x = some MapItem.Start ∧ r.direction = Direction.Right := by
  simp only [find_rudolph] at h
  cases hf : findStartAux m 0 with
  | none => rw [hf] at h; exact absurd h (by simp)
  | some p =>
    rw [hf] at h
    obtain ⟨x, y⟩ := p
    injection h with hh
    subst hh
    obtain ⟨_, row, hrow, hget⟩ := findStartAux_spec hf
    constructor
    · rw [mapGet_eq_bind]
      simp only
      rw [show y - 0 = y from rfl] at hrow
      rw [hrow]
      simpa using hget
    · rfl

/-- Weak invariant of the Dijkstra loop: every queue entry sits on a matched
vertex actually reachable from the source, its cost is below the sentinel,
and the distance map is defined exactly on matched vertices with values at
most the sentinel. -/
structure WInv (m : Map) (s : Vertex) (pq : List SState) (dist : DistMap) : Prop where
  pqPos : ∀ st ∈ pq, vertexMatched m st.position = true ∧ (∃ c, Reaches m s st.position c) ∧
    st.cost < usizeMAX
  distDom : ∀ v d, dist v = some d → vertexMatched m v = true
  distLe : ∀ v d, dist v = some d → d ≤ usizeMAX
  distFull : ∀ v, vertexMatched m v = true → (dist v).isSome = true

theorem dstep_weak {m : Map} {A : List (Vertex × List Edge)} {s : Vertex}
    {pq : List SState} {dist : DistMap}
    (hA : genAdjacencies m = some A) (hnr : NoReindeer m)
    (hw : WInv m s pq dist) :
    dstep m A pq dist ≠ .halt .panic ∧
    (∀ r, dstep m A pq dist = .halt (.found r) →
      (∃ v c, isEndCell m v ∧ Reaches m s v c) ∧ r < usizeMAX) ∧
    (∀ pq2 dist2, dstep m A pq dist = .next pq2 dist2 → WInv m s pq2 dist2) := by
  cases hpop : popMin pq with
  | none =>
    simp only [dstep, hpop]
    exact ⟨by simp, by simp, by simp⟩
  | some p =>
    obtain ⟨st, pq1⟩ := p
    have hmem : st ∈ pq := (popMin_perm hpop).mem_iff.2 (List.mem_cons_self _ _)
    obtain ⟨hmatch, hreach, hcost⟩ := hw.pqPos st hmem
    have hpq1 : ∀ st2 ∈ pq1, st2 ∈ pq :=
      fun st2 h2 => (popMin_perm hpop).mem_iff.2 (List.mem_cons_of_mem _ h2)
    obtain ⟨it, hit⟩ : ∃ it, mapGet m st.position.y st.position.x = some it := by
      simp only [vertexMatched] at hmatch
      cases hg : mapGet m st.position.y st.position.x with
      | none => rw [hg] at hmatch; simp at hmatch
      | some it => exact ⟨it, rfl⟩
    simp only [dstep, hpop, hit]
    by_cases hend : it = MapItem.End
    · rw [if_pos hend]
      refine ⟨by simp, ?_, by simp⟩
      intro r hr
      simp only [DStepOut.halt.injEq] at hr
      obtain ⟨c, hc⟩ := hreach
      refine ⟨⟨st.position, c, ?_, hc⟩, ?_⟩
      · simp only [isEndCell]
        rw [hit, hend]
      · injection hr with hh
        rw [← hh]
        exact hcost
    · rw [if_neg hend]
      obtain ⟨d0, hd0⟩ := Option.isSome_iff_exists.1 (hw.distFull st.position hmatch)
      rw [hd0]
      dsimp only
      by_cases hstale : d0 < st.cost
      · rw [if_pos hstale]
        refine ⟨by simp, by simp, ?_⟩
        intro pq2 dist2 hn
        injection hn with h1 h2
        subst h1; subst h2
        exact ⟨fun st2 h2 => hw.pqPos st2 (hpq1 st2 h2), hw.distDom, hw.distLe, hw.distFull⟩
      · rw [if_neg hstale]
        obtain ⟨es, hes⟩ := Option.isSome_iff_exists.1 (lookup_isSome_of_matched hA hmatch)
        rw [hes]
        dsimp only
        have hesome : (relax es st.cost pq1 dist).isSome = true := by
          refine relax_isSome ?_
          intro e he
          have herel := edge_mem_of_lookup hA hes he
          exact hw.distFull _ (edgeRel_target_matched hnr herel)
        obtain ⟨out, hout⟩ := Option.isSome_iff_exists.1 hesome
        obtain ⟨pq3, dist3⟩ := out
        rw [hout]
        refine ⟨by simp, by simp, ?_⟩
        intro pq2 dist2 hn
        injection hn with h1 h2
        subst h1; subst h2
        obtain ⟨news, hnews, hcond⟩ := relax_news hout
        constructor
        · intro st2 h2
          rw [hnews] at h2
          rcases List.mem_append.1 h2 with h3 | h3
          · obtain ⟨⟨e, he, hpos, hcst⟩, dd, hdd, hltd⟩ := hcond st2 h3
            have herel := edge_mem_of_lookup hA hes he
            refine ⟨?_, ?_, ?_⟩
            · rw [hpos]
              exact edgeRel_target_matched hnr herel
            · obtain ⟨c0, hc0⟩ := hreach
              refine ⟨c0 + e.cost, ?_⟩
              rw [hpos]
              exact Reaches.tail hc0 herel
            · have := hw.distLe _ _ hdd
              omega
          · exact hw.pqPos st2 (hpq1 st2 h3)
        · intro v d hd
          rcases relax_dist_mono hout v with h1 | ⟨da, db, hda, hdb, _⟩
          · exact hw.distDom v d (by rw [← h1]; exact hd)
          · exact hw.distDom v da hda
        · intro v d hd
          rcases relax_dist_mono hout v with h1 | ⟨da, db, hda, hdb, hless⟩
          · exact hw.distLe v d (by rw [← h1]; exact hd)
          · rw [hd] at hdb
            injection hdb with he2
            subst he2
            have := hw.distLe v da hda
            omega
        · intro v hv
          obtain ⟨d0b, hd0b⟩ := Option.isSome_iff_exists.1 (hw.distFull v hv)
          obtain ⟨d2, hd2, _⟩ := relax_dist_le hout v hd0b
          simp [hd2]

theorem dloop_weak {m : Map} {A : List (Vertex × List Edge)} {s : Vertex}
    (hA : genAdjacencies m = some A) (hnr : NoReindeer m) :
    ∀ {fuel : Nat} {pq : List SState} {dist : DistMap}, WInv m s pq dist →
    dloop m A fuel pq dist ≠ .panic ∧
    (∀ r, dloop m A fuel pq dist = .found r →
      (∃ v c, isEndCell m v ∧ Reaches m s v c) ∧ r < usizeMAX) := by
  intro fuel
  induction fuel with
  | zero =>
    intro pq dist _
    simp only [dloop]
    exact ⟨by simp, by simp⟩
  | succ f ih =>
    intro pq dist hw
    obtain ⟨hnp, hfound, hnext⟩ := dstep_weak hA hnr hw
    simp only [dloop]
    cases hs2 : dstep m A pq dist with
    | halt r =>
      cases r with
      | panic => exact absurd hs2 hnp
      | found r0 =>
        refine ⟨by simp, ?_⟩
        intro r1 hr1
        injection hr1 with hh
        subst hh
        exact hfound r0 hs2
      | noPath => exact ⟨by simp, by simp⟩
      | fuelOut => exact ⟨by simp, by simp⟩
    | next pq2 dist2 =>
      exact ih (hnext pq2 dist2 hs2)

theorem dijkstra_core_initial_WInv {m : Map} {A : List (Vertex × List Edge)} {s : Vertex}
    (hA : genAdjacencies m = some A) (hs : vertexMatched m s = true) :
    WInv m s [⟨s, 0⟩] (dupdate (initDist (keysOf A)) s 0) := by
  constructor
  · intro st hst
    simp at hst
    subst hst
    exact ⟨hs, ⟨0, Reaches.refl⟩, usizeMAX_pos⟩
  · intro v d hd
    by_cases hv : v = s
    · subst hv; exact hs
    · rw [dupdate_other _ _ _ _ hv, initDist_spec] at hd
      by_cases hm : v ∈ keysOf A
      · exact (gen_keys_iff hA v).1 hm
      · rw [if_neg hm] at hd; exact absurd hd (by simp)
  · intro v d hd
    by_cases hv : v = s
    · subst hv
      rw [dupdate_same] at hd
      injection hd with hh
      omega
    · rw [dupdate_other _ _ _ _ hv, initDist_spec] at hd
      by_cases hm : v ∈ keysOf A
      · rw [if_pos hm] at hd
        injection hd with hh
        omega
      · rw [if_neg hm] at hd; exact absurd hd (by simp)
  · intro v hv
    by_cases hve : v = s
    · subst hve; simp [dupdate_same]
    · rw [dupdate_other _ _ _ _ hve, initDist_spec, if_pos ((gen_keys_iff hA v).2 hv)]
      simp

theorem dijkstra_core_spec {m : Map} {s : Vertex}
    (hA : (genAdjacencies m).isSome = true) (hnr : NoReindeer m)
    (hs : vertexMatched m s = true) :
    dijkstra_core m s ≠ .panic ∧ dijkstra_core m s ≠ .fuelOut ∧
    (∀ r, dijkstra_core m s = .found r →
      (∃ v c, isEndCell m v ∧ Reaches m s v c) ∧ r < usizeMAX) := by
  obtain ⟨A, hA2⟩ := Option.isSome_iff_exists.1 hA
  simp only [dijkstra_core, hA2]
  have hwinv := dijkstra_core_initial_WInv hA2 hs
  have hdom : ∀ v d, dupdate (initDist (keysOf A)) s 0 v = some d → v ∈ keysOf A := by
    intro v d hd
    exact (gen_keys_iff hA2 v).2 (hwinv.distDom v d hd)
  obtain ⟨hp, hf⟩ := dloop_weak hA2 hnr hwinv
  exact ⟨hp, dloop_ne_fuelOut hdom (by omega), hf⟩

theorem dijkstra_core_noPath {m : Map} {s : Vertex}
    (hA : (genAdjacencies m).isSome = true) (hnr : NoReindeer m)
    (hs : vertexMatched m s = true)
    (hnoreach : ¬ ∃ v c, isEndCell m v ∧ Reaches m s v c) :
    dijkstra_core m s = .noPath := by
  obtain ⟨hp, hfo, hf⟩ := dijkstra_core_spec hA hnr hs
  cases hres : dijkstra_core m s with
  | found r => exact absurd ((hf r hres).1) hnoreach
  | noPath => rfl
  | panic => exact absurd hres hp
  | fuelOut => exact absurd hres hfo

/-! ## Strong invariant: optimality of the first popped end entry -/

theorem USIZE_pos : 0 < USIZE := by
  simp only [USIZE]
  positivity

theorem usizeMAX_succ : usizeMAX + 1 = USIZE := by
  have := USIZE_pos
  simp only [usizeMAX]
  omega

/-- Full invariant of the Dijkstra loop relative to a ghost settled set `S`:
distances are sentinel or genuine path costs, queue entries are path costs at
least the recorded distance, settled vertices carry final (least) distances
not exceeding the optimum `mval`, every non-settled non-sentinel distance has
a live queue entry at exactly that cost, settled vertices are fully relaxed,
queue entries on settled vertices are stale, and the queue holds no duplicate
entries. -/
structure SInv (m : Map) (s : Vertex) (mval : Nat) (S : Set Vertex)
    (pq : List SState) (dist : DistMap) : Prop where
  win : WInv m s pq dist
  distSound : ∀ v d, dist v = some d → d = usizeMAX ∨ (Reaches m s v d ∧ d < usizeMAX)
  pqReach : ∀ st ∈ pq, Reaches m s st.position st.cost
  pqGeDist : ∀ st ∈ pq, ∃ d, dist st.position = some d ∧ d ≤ st.cost
  settled : ∀ v ∈ S, ∃ d, dist v = some d ∧ Reaches m s v d ∧
    (∀ c, Reaches m s v c → d ≤ c) ∧ d ≤ mval ∧ ¬ isEndCell m v
  active : ∀ v d, v ∉ S → dist v = some d → d ≠ usizeMAX →
    ∃ st ∈ pq, st.position = v ∧ st.cost = d
  relaxed : ∀ v ∈ S, ∀ dv, dist v = some dv → ∀ w c, EdgeRel m v w c →
    ∃ dw, dist w = some dw ∧ dw ≤ dv + c
  pqStale : ∀ st ∈ pq, st.position ∈ S → ∃ d, dist st.position = some d ∧ d < st.cost
  pqNodup : pq.Nodup
  srcZero : dist s = some 0

theorem sinv_cross {m : Map} {s : Vertex} {mval : Nat} {S : Set Vertex}
    {pq : List SState} {dist : DistMap}
    (hsmall : mval + 2002 < USIZE)
    (hinv : SInv m s mval S pq dist) :
    ∀ {u : Vertex} {c : Nat}, Reaches m s u c → u ∉ S → ∃ st ∈ pq, st.cost ≤ c := by
  intro u c hreach
  induction hreach with
  | refl =>
    intro hnot
    obtain ⟨st, hst, hpos, hcost⟩ :=
      hinv.active s 0 hnot hinv.srcZero (by have := usizeMAX_pos; omega)
    exact ⟨st, hst, by omega⟩
  | tail hr he ih =>
    intro hnot
    rename_i v c0 w ec
    by_cases hvS : v ∈ S
    · obtain ⟨dv, hdv, _, hlbv, hdvm, _⟩ := hinv.settled v hvS
      obtain ⟨dw, hdw, hdwle⟩ := hinv.relaxed v hvS dv hdv w ec he
      have hec := edgeRel_cost_le he
      have hdw_ne : dw ≠ usizeMAX := by
        have h1 : dw ≤ dv + ec := hdwle
        have h2 : dv ≤ c0 := hlbv c0 hr
        have := usizeMAX_succ
        omega
      obtain ⟨st, hst, hpos, hcost⟩ := hinv.active w dw hnot hdw hdw_ne
      refine ⟨st, hst, ?_⟩
      have h2 : dv ≤ c0 := hlbv c0 hr
      omega
    · obtain ⟨st, hst, hcost⟩ := ih hvS
      have hec := edgeRel_cost_le he
      exact ⟨st, hst, by omega⟩

/-- Invariant during the relaxation of the freshly settled vertex `v` (with
final distance `c`): like `SInv` for the enlarged settled set, except that
edges of `v` still in `rem` need not be relaxed yet. -/
structure RInv (m : Map) (s : Vertex) (mval : Nat) (S2 : Set Vertex)
    (v : Vertex) (c : Nat) (rem : List Edge)
    (pq : List SState) (dist : DistMap) : Prop where
  win : WInv m s pq dist
  distSound : ∀ u d, dist u = some d → d = usizeMAX ∨ (Reaches m s u d ∧ d < usizeMAX)
  pqReach : ∀ st ∈ pq, Reaches m s st.position st.cost
  pqGeDist : ∀ st ∈ pq, ∃ d, dist st.position = some d ∧ d ≤ st.cost
  settled : ∀ u ∈ S2, ∃ d, dist u = some d ∧ Reaches m s u d ∧
    (∀ c2, Reaches m s u c2 → d ≤ c2) ∧ d ≤ mval ∧ ¬ isEndCell m u
  active : ∀ u d, u ∉ S2 → dist u = some d → d ≠ usizeMAX →
    ∃ st ∈ pq, st.position = u ∧ st.cost = d
  relaxedOld : ∀ u ∈ S2, u ≠ v → ∀ du, dist u = some du → ∀ w c2, EdgeRel m u w c2 →
    ∃ dw, dist w = some dw ∧ dw ≤ du + c2
  relaxedNew : ∀ w c2, EdgeRel m v w c2 →
    (⟨w, c2⟩ : Edge) ∈ rem ∨ ∃ dw, dist w = some dw ∧ dw ≤ c + c2
  pqStale : ∀ st ∈ pq, st.position ∈ S2 → ∃ d, dist st.position = some d ∧ d < st.cost
  pqNodup : pq.Nodup
  srcZero : dist s = some 0
  distV : dist v = some c
  vIn : v ∈ S2

theorem relax_rinv {m : Map} {s : Vertex} {mval : Nat} {S2 : Set Vertex}
    {v : Vertex} {c : Nat} (hnr : NoReindeer m)
    (hsmall : mval + 2002 < USIZE)
    (hvreach : Reaches m s v c) (hcm : c ≤ mval) :
    ∀ {rem : List Edge} {pq : List SState} {dist : DistMap},
    (∀ e ∈ rem, EdgeRel m v e.next_position e.cost) →
    RInv m s mval S2 v c rem pq dist →
    ∃ pq2 dist2, relax rem c pq dist = some (pq2, dist2) ∧
      RInv m s mval S2 v c [] pq2 dist2 := by
  intro rem
  induction rem with
  | nil =>
    intro pq dist _ hinv
    exact ⟨pq, dist, rfl, hinv⟩
  | cons e rest ih =>
    intro pq dist hrem hinv
    have herel : EdgeRel m v e.next_position e.cost := hrem e (List.mem_cons_self _ _)
    have hrem2 : ∀ e2 ∈ rest, EdgeRel m v e2.next_position e2.cost :=
      fun e2 h2 => hrem e2 (List.mem_cons_of_mem _ h2)
    have hwmatch : vertexMatched m e.next_position = true := edgeRel_target_matched hnr herel
    obtain ⟨dw, hdw⟩ := Option.isSome_iff_exists.1 (hinv.win.distFull _ hwmatch)
    have hec := edgeRel_cost_le herel
    have hnowrap : (e.cost + c) % USIZE = e.cost + c := by
      apply Nat.mod_eq_of_lt
      omega
    simp only [relax, hdw, hnowrap]
    by_cases hlt : e.cost + c < dw
    · rw [if_pos hlt]
      have hwreach : Reaches m s e.next_position (c + e.cost) := Reaches.tail hvreach herel
      have hwne : e.next_position ∉ S2 := by
        intro hin
        obtain ⟨d2, hd2, _, hlb2, _, _⟩ := hinv.settled _ hin
        rw [hdw] at hd2
        injection hd2 with hd2e
        subst hd2e
        have := hlb2 _ hwreach
        omega
      have hwnev : e.next_position ≠ v := fun hh => hwne (hh ▸ hinv.vIn)
      have hcostlt : e.cost + c < usizeMAX := by
        have := usizeMAX_succ
        omega
      refine ih hrem2 ?_
      constructor
      · -- WInv
        constructor
        · intro st hst
          rcases List.mem_cons.1 hst with h1 | h1
          · subst h1
            exact ⟨hwmatch, ⟨c + e.cost, hwreach⟩, by simpa using hcostlt⟩
          · exact hinv.win.pqPos st h1
        · intro u d hd
          by_cases hu : u = e.next_position
          · subst hu; exact hwmatch
          · rw [dupdate_other _ _ _ _ hu] at hd
            exact hinv.win.distDom u d hd
        · intro u d hd
          by_cases hu : u = e.next_position
          · subst hu
            rw [dupdate_same] at hd
            injection hd with hh
            omega
          · rw [dupdate_other _ _ _ _ hu] at hd
            exact hinv.win.distLe u d hd
        · intro u hu
          by_cases hue : u = e.next_position
          · subst hue; simp [dupdate_same]
          · rw [dupdate_other _ _ _ _ hue]
            exact hinv.win.distFull u hu
      · -- distSound
        intro u d hd
        by_cases hu : u = e.next_position
        · subst hu
          rw [dupdate_same] at hd
          injection hd with hh
          subst hh
          exact Or.inr ⟨by rw [Nat.add_comm]; exact hwreach, hcostlt⟩
        · rw [dupdate_other _ _ _ _ hu] at hd
          exact hinv.distSound u d hd
      · -- pqReach
        intro st hst
        rcases List.mem_cons.1 hst with h1 | h1
        · subst h1
          simpa [Nat.add_comm] using hwreach
        · exact hinv.pqReach st h1
      · -- pqGeDist
        intro st hst
        rcases List.mem_cons.1 hst with h1 | h1
        · subst h1
          exact ⟨e.cost + c, dupdate_same _ _ _, le_refl _⟩
        · obtain ⟨d, hd, hdle⟩ := hinv.pqGeDist st h1
          by_cases hu : st.position = e.next_position
          · rw [hu] at hd
            rw [hdw] at hd
            injection hd with hh
            subst hh
            exact ⟨e.cost + c, by rw [hu]; exact dupdate_same _ _ _, by omega⟩
          · exact ⟨d, by rw [dupdate_other _ _ _ _ hu]; exact hd, hdle⟩
      · -- settled
        intro u hu
        obtain ⟨d, hd, hre, hlb, hdm, hend⟩ := hinv.settled u hu
        have hune : u ≠ e.next_position := fun hh => hwne (hh ▸ hu)
        exact ⟨d, by rw [dupdate_other _ _ _ _ hune]; exact hd, hre, hlb, hdm, hend⟩
      · -- active
        intro u d hu hd hdn
        by_cases hue : u = e.next_position
        · subst hue
          rw [dupdate_same] at hd
          injection hd with hh
          subst hh
          exact ⟨⟨e.next_position, e.cost + c⟩, List.mem_cons_self _ _, rfl, rfl⟩
        · rw [dupdate_other _ _ _ _ hue] at hd
          obtain ⟨st, hst, h1, h2⟩ := hinv.active u d hu hd hdn
          exact ⟨st, List.mem_cons_of_mem _ hst, h1, h2⟩
      · -- relaxedOld
        intro u hu hune du hdu w c2 he2
        have huw : u ≠ e.next_position := fun hh => hwne (hh ▸ hu)
        rw [dupdate_other _ _ _ _ huw] at hdu
        obtain ⟨dw2, hdw2, hdw2le⟩ := hinv.relaxedOld u hu hune du hdu w c2 he2
        by_cases hwe : w = e.next_position
        · subst hwe
          rw [hdw] at hdw2
          injection hdw2 with hh
          subst hh
          exact ⟨e.cost + c, dupdate_same _ _ _, by omega⟩
        · exact ⟨dw2, by rw [dupdate_other _ _ _ _ hwe]; exact hdw2, hdw2le⟩
      · -- relaxedNew
        intro w c2 he2
        rcases hinv.relaxedNew w c2 he2 with h1 | ⟨dw2, hdw2, hdw2le⟩
        · rcases List.mem_cons.1 h1 with h2 | h2
          · right
            have hww : w = e.next_position := by
              have := congrArg Edge.next_position h2
              simpa using this
            have hcc : c2 = e.cost := by
              have := congrArg Edge.cost h2
              simpa using this
            subst hww
            subst hcc
            exact ⟨e.cost + c, dupdate_same _ _ _, by omega⟩
          · exact Or.inl h2
        · right
          by_cases hwe : w = e.next_position
          · subst hwe
            rw [hdw] at hdw2
            injection hdw2 with hh
            subst hh
            exact ⟨e.cost + c, dupdate_same _ _ _, by omega⟩
          · exact ⟨dw2, by rw [dupdate_other _ _ _ _ hwe]; exact hdw2, hdw2le⟩
      · -- pqStale
        intro st hst hstS
        rcases List.mem_cons.1 hst with h1 | h1
        · subst h1
          exact absurd hstS hwne
        · obtain ⟨d, hd, hdlt⟩ := hinv.pqStale st h1 hstS
          have hne : st.position ≠ e.next_position := fun hh => hwne (hh ▸ hstS)
          exact ⟨d, by rw [dupdate_other _ _ _ _ hne]; exact hd, hdlt⟩
      · -- pqNodup
        refine List.nodup_cons.2 ⟨?_, hinv.pqNodup⟩
        intro hmem
        obtain ⟨d, hd, hdle⟩ := hinv.pqGeDist _ hmem
        simp only at hd hdle
        rw [hdw] at hd
        injection hd with hh
        omega
      · -- srcZero
        have hsne : s ≠ e.next_position := by
          intro hh
          rw [← hh] at hdw
          rw [hinv.srcZero] at hdw
          injection hdw with hh2
          omega
        rw [dupdate_other _ _ _ _ hsne]
        exact hinv.srcZero
      · -- distV
        have hvne : v ≠ e.next_position := fun hh => hwnev hh.symm
        rw [dupdate_other _ _ _ _ hvne]
        exact hinv.distV
      · exact hinv.vIn
    · rw [if_neg hlt]
      refine ih hrem2 ?_
      constructor
      · exact hinv.win
      · exact hinv.distSound
      · exact hinv.pqReach
      · exact hinv.pqGeDist
      · exact hinv.settled
      · exact hinv.active
      · exact hinv.relaxedOld
      · -- relaxedNew: the processed edge is now known relaxed
        intro w c2 he2
        rcases hinv.relaxedNew w c2 he2 with h1 | h1
        · rcases List.mem_cons.1 h1 with h2 | h2
          · right
            have hww : w = e.next_position := by
              have := congrArg Edge.next_position h2
              simpa using this
            have hcc : c2 = e.cost := by
              have := congrArg Edge.cost h2
              simpa using this
            subst hww
            subst hcc
            exact ⟨dw, hdw, by omega⟩
          · exact Or.inl h2
        · exact Or.inr h1
      · exact hinv.pqStale
      · exact hinv.pqNodup
      · exact hinv.srcZero
      · exact hinv.distV
      · exact hinv.vIn

theorem dloop_main {m : Map} {A : List (Vertex × List Edge)} {s : Vertex} {mval : Nat}
    (hA : genAdjacencies m = some A) (hnr : NoReindeer m)
    (hmem : EndCosts m s mval) (hlb : ∀ c, EndCosts m s c → mval ≤ c)
    (hsmall : mval + 2002 < USIZE) :
    ∀ {fuel : Nat} {pq : List SState} {dist : DistMap} {S : Set Vertex},
    SInv m s mval S pq dist →
    dmeasure (keysOf A) pq dist < fuel →
    dloop m A fuel pq dist = .found mval := by
  intro fuel
  induction fuel with
  | zero => intro pq dist S _ hf; omega
  | succ f ih =>
    intro pq dist S hinv hfuel
    obtain ⟨ve, hve_end, hve_reach⟩ := hmem
    have hveS : ve ∉ S := by
      intro hin
      obtain ⟨_, _, _, _, _, hnend⟩ := hinv.settled ve hin
      exact hnend hve_end
    obtain ⟨stw, hstw, hstwle⟩ := sinv_cross hsmall hinv hve_reach hveS
    cases hpop : popMin pq with
    | none =>
      exfalso
      rw [popMin_none_iff] at hpop
      subst hpop
      simp at hstw
    | some p =>
      obtain ⟨st, pq1⟩ := p
      have hperm := popMin_perm hpop
      have hstmem : st ∈ pq := hperm.mem_iff.2 (List.mem_cons_self _ _)
      have hpq1mem : ∀ st2 ∈ pq1, st2 ∈ pq :=
        fun st2 h2 => hperm.mem_iff.2 (List.mem_cons_of_mem _ h2)
      have hmin := popMin_cost_le hpop
      have hstle_m : st.cost ≤ mval := le_trans (hmin stw hstw) hstwle
      obtain ⟨hmatch, _, hcostlt⟩ := hinv.win.pqPos st hstmem
      obtain ⟨it, hit⟩ : ∃ it, mapGet m st.position.y st.position.x = some it := by
        simp only [vertexMatched] at hmatch
        cases hg : mapGet m st.position.y st.position.x with
        | none => rw [hg] at hmatch; simp at hmatch
        | some it => exact ⟨it, rfl⟩
      have hnodup_cons : st ∉ pq1 ∧ pq1.Nodup := by
        have := hperm.nodup_iff.1 hinv.pqNodup
        exact ⟨(List.nodup_cons.1 this).1, (List.nodup_cons.1 this).2⟩
      have hlen : pq.length = pq1.length + 1 := by simpa using hperm.length_eq
      simp only [dloop, dstep, hpop, hit]
      by_cases hend : it = MapItem.End
      · rw [if_pos hend]
        have hceq : st.cost = mval := by
          refine le_antisymm hstle_m (hlb st.cost ?_)
          refine ⟨st.position, ?_, hinv.pqReach st hstmem⟩
          simp only [isEndCell]
          rw [hit, hend]
        rw [hceq]
      · rw [if_neg hend]
        obtain ⟨d0, hd0⟩ := Option.isSome_iff_exists.1 (hinv.win.distFull _ hmatch)
        rw [hd0]
        dsimp only
        by_cases hstale : d0 < st.cost
        · rw [if_pos hstale]
          have hSpos : st.position ∈ S := by
            by_contra hns
            have hd0ne : d0 ≠ usizeMAX := by omega
            obtain ⟨st2, hst2, hpos2, hcost2⟩ := hinv.active _ _ hns hd0 hd0ne
            have := hmin st2 hst2
            omega
          have hinv1 : SInv m s mval S pq1 dist := by
            constructor
            · exact ⟨fun st2 h2 => hinv.win.pqPos st2 (hpq1mem st2 h2),
                hinv.win.distDom, hinv.win.distLe, hinv.win.distFull⟩
            · exact hinv.distSound
            · exact fun st2 h2 => hinv.pqReach st2 (hpq1mem st2 h2)
            · exact fun st2 h2 => hinv.pqGeDist st2 (hpq1mem st2 h2)
            · exact hinv.settled
            · intro u d hu hd hdn
              obtain ⟨st2, hst2, hpos2, hcost2⟩ := hinv.active u d hu hd hdn
              rcases List.mem_cons.1 (hperm.mem_iff.1 hst2) with h2 | h2
              · exfalso
                subst h2
                rw [hpos2] at hSpos
                exact hu hSpos
              · exact ⟨st2, h2, hpos2, hcost2⟩
            · exact hinv.relaxed
            · exact fun st2 h2 => hinv.pqStale st2 (hpq1mem st2 h2)
            · exact hnodup_cons.2
            · exact hinv.srcZero
          refine ih hinv1 ?_
          simp only [dmeasure] at hfuel ⊢
          omega
        · rw [if_neg hstale]
          have hd0eq : d0 = st.cost := by
            obtain ⟨d, hd, hdle⟩ := hinv.pqGeDist st hstmem
            rw [hd0] at hd
            injection hd with hh
            omega
          have hvnotS : st.position ∉ S := by
            intro hin
            obtain ⟨d, hd, hdlt⟩ := hinv.pqStale st hstmem hin
            rw [hd0] at hd
            injection hd with hh
            omega
          have hreachv : Reaches m s st.position st.cost := hinv.pqReach st hstmem
          have hlbv : ∀ cp, Reaches m s st.position cp → st.cost ≤ cp := by
            intro cp hcp
            obtain ⟨st2, hst2, hle2⟩ := sinv_cross hsmall hinv hcp hvnotS
            have := hmin st2 hst2
            omega
          obtain ⟨es, hes⟩ := Option.isSome_iff_exists.1 (lookup_isSome_of_matched hA hmatch)
          rw [hes]
          dsimp only
          have hremrel : ∀ e ∈ es, EdgeRel m st.position e.next_position e.cost :=
            fun e he => edge_mem_of_lookup hA hes he
          have hnendp : ¬ isEndCell m st.position := by
            simp only [isEndCell, hit]
            intro hc
            injection hc with hc2
            exact hend hc2
          have hRInv : RInv m s mval (S ∪ {st.position}) st.position st.cost es pq1 dist := by
            constructor
            · exact ⟨fun st2 h2 => hinv.win.pqPos st2 (hpq1mem st2 h2),
                hinv.win.distDom, hinv.win.distLe, hinv.win.distFull⟩
            · exact hinv.distSound
            · exact fun st2 h2 => hinv.pqReach st2 (hpq1mem st2 h2)
            · exact fun st2 h2 => hinv.pqGeDist st2 (hpq1mem st2 h2)
            · intro u hu
              rcases hu with hu | hu
              · exact hinv.settled u hu
              · rw [Set.mem_singleton_iff] at hu
                subst hu
                exact ⟨st.cost, by rw [hd0, hd0eq], hreachv, hlbv, hstle_m, hnendp⟩
            · intro u d hu hd hdn
              have huS : u ∉ S := fun hc => hu (Or.inl hc)
              have huv : u ≠ st.position := by
                intro hc
                exact hu (Or.inr (by rw [hc]; rfl))
              obtain ⟨st2, hst2, hpos2, hcost2⟩ := hinv.active u d huS hd hdn
              rcases List.mem_cons.1 (hperm.mem_iff.1 hst2) with h2 | h2
              · exfalso
                subst h2
                rw [hpos2] at huv
                exact huv rfl
              · exact ⟨st2, h2, hpos2, hcost2⟩
            · intro u hu hune du hdu w c2 he2
              rcases hu with hu | hu
              · exact hinv.relaxed u hu du hdu w c2 he2
              · rw [Set.mem_singleton_iff] at hu
                exact absurd hu hune
            · intro w c2 he2
              left
              obtain ⟨es2, hes2, hmem2⟩ := lookup_mem_of_edgeRel hA he2
              rw [hes] at hes2
              injection hes2 with hh
              rw [hh]
              exact hmem2
            · intro st2 h2 hst2S
              rcases hst2S with hu | hu
              · exact hinv.pqStale st2 (hpq1mem st2 h2) hu
              · rw [Set.mem_singleton_iff] at hu
                obtain ⟨d, hd, hdle⟩ := hinv.pqGeDist st2 (hpq1mem st2 h2)
                rw [hu, hd0] at hd
                injection hd with hh
                subst hh
                refine ⟨d0, by rw [hu, hd0], ?_⟩
                rcases Nat.lt_or_ge d0 st2.cost with hc | hc
                · exact hc
                · exfalso
                  have hcosteq : st2.cost = st.cost := by omega
                  have hsame : st2 = st := by
                    obtain ⟨p2, c2v⟩ := st2
                    obtain ⟨p1, c1v⟩ := st
                    simp only at hu hcosteq hd0eq
                    rw [hu, hcosteq]
                  rw [hsame] at h2
                  exact hnodup_cons.1 h2
            · exact hnodup_cons.2
            · exact hinv.srcZero
            · rw [hd0, hd0eq]
            · exact Or.inr rfl
          obtain ⟨pq3, dist3, hrel, hfinal⟩ :=
            relax_rinv hnr hsmall hreachv hstle_m hremrel hRInv
          rw [hrel]
          dsimp only
          have hinv3 : SInv m s mval (S ∪ {st.position}) pq3 dist3 := by
            constructor
            · exact hfinal.win
            · exact hfinal.distSound
            · exact hfinal.pqReach
            · exact hfinal.pqGeDist
            · exact hfinal.settled
            · exact hfinal.active
            · intro u hu du hdu w c2 he2
              by_cases hune : u = st.position
              · subst hune
                have hdv := hfinal.distV
                rw [hdv] at hdu
                injection hdu with hh
                subst hh
                rcases hfinal.relaxedNew w c2 he2 with h1 | h1
                · simp at h1
                · exact h1
              · exact hfinal.relaxedOld u hu hune du hdu w c2 he2
            · exact hfinal.pqStale
            · exact hfinal.pqNodup
            · exact hfinal.srcZero
          refine ih hinv3 ?_
          have hdom : ∀ v d, dist v = some d → v ∈ keysOf A :=
            fun v d hd => (gen_keys_iff hA v).2 (hinv.win.distDom v d hd)
          obtain ⟨hle3, _⟩ := relax_measure hrel hdom
          simp only [dmeasure] at hfuel ⊢
          omega

theorem dijkstra_core_initial_SInv {m : Map} {A : List (Vertex × List Edge)} {s : Vertex}
    {mval : Nat} (hA : genAdjacencies m = some A) (hs : vertexMatched m s = true) :
    SInv m s mval ∅ [⟨s, 0⟩] (dupdate (initDist (keysOf A)) s 0) := by
  constructor
  · exact dijkstra_core_initial_WInv hA hs
  · intro v d hd
    by_cases hv : v = s
    · subst hv
      rw [dupdate_same] at hd
      injection hd with hh
      subst hh
      exact Or.inr ⟨Reaches.refl, usizeMAX_pos⟩
    · rw [dupdate_other _ _ _ _ hv, initDist_spec] at hd
      by_cases hm : v ∈ keysOf A
      · rw [if_pos hm] at hd
        injection hd with hh
        exact Or.inl hh.symm
      · rw [if_neg hm] at hd
        exact absurd hd (by simp)
  · intro st hst
    simp at hst
    subst hst
    exact Reaches.refl
  · intro st hst
    simp at hst
    subst hst
    exact ⟨0, dupdate_same _ _ _, le_refl _⟩
  · intro v hv
    simp at hv
  · intro v d hv hd hdn
    by_cases hve : v = s
    · subst hve
      rw [dupdate_same] at hd
      injection hd with hh
      exact ⟨⟨v, 0⟩, List.mem_cons_self _ _, rfl, hh⟩
    · exfalso
      rw [dupdate_other _ _ _ _ hve, initDist_spec] at hd
      by_cases hm : v ∈ keysOf A
      · rw [if_pos hm] at hd
        injection hd with hh
        exact hdn hh.symm
      · rw [if_neg hm] at hd
        exact absurd hd (by simp)
  · intro v hv
    simp at hv
  · intro st hst hS
    simp at hS
  · simp
  · exact dupdate_same _ _ _

theorem dijkstra_core_found {m : Map} {s : Vertex} {mval : Nat}
    (hA : (genAdjacencies m).isSome = true) (hnr : NoReindeer m)
    (hs : vertexMatched m s = true)
    (hmem : EndCosts m s mval) (hlb : ∀ c, EndCosts m s c → mval ≤ c)
    (hsmall : mval + 2002 < USIZE) :
    dijkstra_core m s = .found mval := by
  obtain ⟨A, hA2⟩ := Option.isSome_iff_exists.1 hA
  simp only [dijkstra_core, hA2]
  exact dloop_main hA2 hnr hmem hlb hsmall (dijkstra_core_initial_SInv hA2 hs) (by omega)

/-! ## Termination and monotonicity facts about the search (claims C6, C7) -/

theorem dloop_measure_fuel {m : Map} {A : List (Vertex × List Edge)} {s : Vertex}
    (hA : genAdjacencies m = some A) (hs : vertexMatched m s = true) :
    dijkstra_core m s ≠ .fuelOut := by
  simp only [dijkstra_core, hA]
  have hdom : ∀ v d, dupdate (initDist (keysOf A)) s 0 v = some d → v ∈ keysOf A := by
    intro v d hd
    by_cases hv : v = s
    · subst hv
      exact (gen_keys_iff hA v).2 hs
    · rw [dupdate_other _ _ _ _ hv, initDist_spec] at hd
      by_cases hm : v ∈ keysOf A
      · exact hm
      · rw [if_neg hm] at hd
        exact absurd hd (by simp)
  exact @dloop_ne_fuelOut m A (keysOf A) _ _ _ hdom (by omega)

/-- The whole search never runs out of the supplied fuel, on any input map. -/
theorem find_optimal_ne_fuelOut (m : Map) :
    find_optimal_path_using_dijkstra m ≠ .fuelOut := by
  simp only [find_optimal_path_using_dijkstra]
  cases hr : find_rudolph m with
  | none => simp
  | some r =>
    dsimp only
    cases hA : genAdjacencies m with
    | none => simp [dijkstra_core, hA]
    | some A =>
      obtain ⟨hstart, _⟩ := find_rudolph_spec hr
      refine dloop_measure_fuel hA ?_
      simp only [vertexMatched]
      rw [hstart]
      rfl

/-- Every entry present after a loop iteration either was already in the
queue, or was pushed with a cost strictly below the previously recorded
distance of its vertex. -/
theorem dstep_push_lower {m : Map} {A : List (Vertex × List Edge)}
    {pq : List SState} {dist : DistMap} {pq2 : List SState} {dist2 : DistMap}
    (h : dstep m A pq dist = .next pq2 dist2) :
    ∀ st ∈ pq2, st ∈ pq ∨ ∃ d, dist st.position = some d ∧ st.cost < d := by
  simp only [dstep] at h
  cases hpop : popMin pq with
  | none => rw [hpop] at h; exact absurd h (by simp)
  | some p =>
    obtain ⟨st0, pq1⟩ := p
    rw [hpop] at h
    have hperm := popMin_perm hpop
    have hpq1mem : ∀ st2 ∈ pq1, st2 ∈ pq :=
      fun st2 h2 => hperm.mem_iff.2 (List.mem_cons_of_mem _ h2)
    dsimp only at h
    cases hg : mapGet m st0.position.y st0.position.x with
    | none => rw [hg] at h; exact absurd h (by simp)
    | some item =>
      rw [hg] at h
      dsimp only at h
      by_cases hend : item = MapItem.End
      · rw [if_pos hend] at h; exact absurd h (by simp)
      · rw [if_neg hend] at h
        cases hd : dist st0.position with
        | none => rw [hd] at h; exact absurd h (by simp)
        | some d0 =>
          rw [hd] at h
          dsimp only at h
          by_cases hstale : d0 < st0.cost
          · rw [if_pos hstale] at h
            injection h with h1 h2
            subst h1; subst h2
            exact fun st hst => Or.inl (hpq1mem st hst)
          · rw [if_neg hstale] at h
            cases ha : alookup A st0.position with
            | none => rw [ha] at h; exact absurd h (by simp)
            | some edges =>
              rw [ha] at h
              dsimp only at h
              cases hrel : relax edges st0.cost pq1 dist with
              | none => rw [hrel] at h; exact absurd h (by simp)
              | some out =>
                obtain ⟨pq3, dist3⟩ := out
                rw [hrel] at h
                injection h with h1 h2
                subst h1; subst h2
                intro st hst
                obtain ⟨news, hnews, hcond⟩ := relax_news hrel
                rw [hnews] at hst
                rcases List.mem_append.1 hst with h1 | h1
                · obtain ⟨_, d, hdist, hlt⟩ := hcond st h1
                  exact Or.inr ⟨d, hdist, hlt⟩
                · exact Or.inl (hpq1mem st h1)

/-- One loop iteration never raises a recorded distance: each entry of the
distance map is left unchanged or strictly lowered, and absent entries stay
absent. -/
theorem dstep_dist_mono {m : Map} {A : List (Vertex × List Edge)}
    {pq : List SState} {dist : DistMap} {pq2 : List SState} {dist2 : DistMap}
    (h : dstep m A pq dist = .next pq2 dist2) :
    ∀ v, dist2 v = dist v ∨ ∃ d0 d2, dist v = some d0 ∧ dist2 v = some d2 ∧ d2 < d0 := by
  simp only [dstep] at h
  cases hpop : popMin pq with
  | none => rw [hpop] at h; exact absurd h (by simp)
  | some p =>
    obtain ⟨st0, pq1⟩ := p
    rw [hpop] at h
    dsimp only at h
    cases hg : mapGet m st0.position.y st0.position.x with
    | none => rw [hg] at h; exact absurd h (by simp)
    | some item =>
      rw [hg] at h
      dsimp only at h
      by_cases hend : item = MapItem.End
      · rw [if_pos hend] at h; exact absurd h (by simp)
      · rw [if_neg hend] at h
        cases hd : dist st0.position with
        | none => rw [hd] at h; exact absurd h (by simp)
        | some d0 =>
          rw [hd] at h
          dsimp only at h
          by_cases hstale : d0 < st0.cost
          · rw [if_pos hstale] at h
            injection h with h1 h2
            subst h2
            exact fun v => Or.inl rfl
          · rw [if_neg hstale] at h
            cases ha : alookup A st0.position with
            | none => rw [ha] at h; exact absurd h (by simp)
            | some edges =>
              rw [ha] at h
              dsimp only at h
              cases hrel : relax edges st0.cost pq1 dist with
              | none => rw [hrel] at h; exact absurd h (by simp)
              | some out =>
                obtain ⟨pq3, dist3⟩ := out
                rw [hrel] at h
                injection h with h1 h2
                subst h2
                exact relax_dist_mono hrel

/-- A popped entry that is stale (cost strictly above the recorded distance)
on a non-end cell is discarded: the queue just loses that entry and the
distance map is untouched. -/
theorem dstep_stale_discard {m : Map} {A : List (Vertex × List Edge)}
    {pq pq1 : List SState} {dist : DistMap} {st : SState} {it : MapItem} {d : Nat}
    (hpop : popMin pq = some (st, pq1))
    (hit : mapGet m st.position.y st.position.x = some it) (hend : it ≠ MapItem.End)
    (hd : dist st.position = some d) (hstale : d < st.cost) :
    dstep m A pq dist = .next pq1 dist := by
  simp only [dstep, hpop, hit, if_neg hend, hd]
  rw [if_pos hstale]

/-- Under the loop invariant, a stale pop can never sit on the end cell (the
cheaper fresh entry for the same vertex would have been popped first), so the
End-check-before-staleness order of the code cannot return a stale cost. -/
theorem sinv_stale_not_end {m : Map} {s : Vertex} {mval : Nat} {S : Set Vertex}
    {pq pq1 : List SState} {dist : DistMap} {st : SState} {d : Nat}
    (hinv : SInv m s mval S pq dist)
    (hpop : popMin pq = some (st, pq1))
    (hd : dist st.position = some d) (hstale : d < st.cost) :
    ¬ isEndCell m st.position := by
  have hstmem : st ∈ pq := (popMin_perm hpop).mem_iff.2 (List.mem_cons_self _ _)
  have hmin := popMin_cost_le hpop
  have hSpos : st.position ∈ S := by
    by_contra hns
    obtain ⟨_, _, hcostlt⟩ := hinv.win.pqPos st hstmem
    have hd0ne : d ≠ usizeMAX := by omega
    obtain ⟨st2, hst2, hpos2, hcost2⟩ := hinv.active _ _ hns hd hd0ne
    have := hmin st2 hst2
    omega
  obtain ⟨_, _, _, _, _, hnend⟩ := hinv.settled _ hSpos
  exact hnend

/-! ## Decidable helpers for bounding concrete path costs -/

def edgeExists (m : Map) (v : Vertex) (d : Direction) : Bool :=
  vertexMatched m v &&
    match mapGet m (targetOf v d).y (targetOf v d).x with
    | some it => decide (it ≠ MapItem.Wall)
    | none => false

theorem edgeRel_iff_edgeExists (m : Map) (v w : Vertex) (c : Nat) :
    EdgeRel m v w c ↔
      ∃ d, edgeExists m v d = true ∧ w = targetOf v d ∧ c = edgeCost v.direction d := by
  constructor
  · rintro ⟨⟨it, hit, hsrc⟩, d, hw, hc, it2, hit2, hw2⟩
    refine ⟨d, ?_, hw, hc⟩
    simp only [edgeExists, Bool.and_eq_true]
    constructor
    · simp only [vertexMatched, hit]
      exact hsrc
    · rw [← hw, hit2]
      simpa using hw2
  · rintro ⟨d, hex, hw, hc⟩
    simp only [edgeExists, Bool.and_eq_true] at hex
    obtain ⟨hm, htgt⟩ := hex
    constructor
    · simp only [vertexMatched] at hm
      cases hg : mapGet m v.y v.x with
      | none => rw [hg] at hm; simp at hm
      | some it => exact ⟨it, rfl, by rw [hg] at hm; exact hm⟩
    · refine ⟨d, hw, hc, ?_⟩
      cases hg : mapGet m (targetOf v d).y (targetOf v d).x with
      | none => rw [hg] at htgt; simp at htgt
      | some it2 =>
        rw [hg] at htgt
        refine ⟨it2, by rw [hw]; exact hg, by simpa using htgt⟩

def allVertices (m : Map) : List Vertex :=
  (List.range m.length).flatMap (fun y =>
    (List.range ((m.get? y).getD []).length).flatMap (fun x =>
      DIRECTIONS.map (fun d => ⟨x, y, d⟩)))

theorem mem_allVertices_of_matched {m : Map} {v : Vertex}
    (h : vertexMatched m v = true) : v ∈ allVertices m := by
  simp only [vertexMatched] at h
  cases hg : mapGet m v.y v.x with
  | none => rw [hg] at h; simp at h
  | some it =>
    rw [mapGet_eq_bind] at hg
    cases hrow : m.get? v.y with
    | none => rw [hrow] at hg; simp at hg
    | some row =>
      rw [hrow] at hg
      simp only [Option.some_bind] at hg
      have hy : v.y < m.length := by
        by_contra hc
        rw [List.get?_eq_none.2 (by omega)] at hrow
        exact absurd hrow (by simp)
      have hx : v.x < row.length := by
        by_contra hc
        rw [List.get?_eq_none.2 (by omega)] at hg
        exact absurd hg (by simp)
      simp only [allVertices, List.mem_flatMap]
      refine ⟨v.y, by simp [List.mem_range, hy], v.x, ?_, ?_⟩
      · simp only [List.mem_range, hrow, Option.getD_some]
        exact hx
      · simp only [List.mem_map]
        exact ⟨v.direction, dir_mem_DIRECTIONS _, rfl⟩

theorem reaches_lb {m : Map} {s : Vertex} (lb : Vertex → Nat) (hs : lb s = 0)
    (hstep : ∀ v ∈ allVertices m, ∀ d : Direction, edgeExists m v d = true →
      lb (targetOf v d) ≤ lb v + edgeCost v.direction d) :
    ∀ {v : Vertex} {c : Nat}, Reaches m s v c → lb v ≤ c := by
  intro v c h
  induction h with
  | refl => omega
  | tail hr he ih =>
    rename_i v0 c0 w ec
    obtain ⟨d, hex, hw, hc⟩ := (edgeRel_iff_edgeExists m v0 w ec).1 he
    have hmem : v0 ∈ allVertices m := by
      apply mem_allVertices_of_matched
      simp only [edgeExists, Bool.and_eq_true] at hex
      exact hex.1
    have := hstep v0 hmem d hex
    subst hw
    subst hc
    omega

theorem reaches_closure {m : Map} {s : Vertex} (L : List Vertex) (hs : s ∈ L)
    (hcl : ∀ v ∈ L, ∀ d : Direction, edgeExists m v d = true → targetOf v d ∈ L) :
    ∀ {v : Vertex} {c : Nat}, Reaches m s v c → v ∈ L := by
  intro v c h
  induction h with
  | refl => exact hs
  | tail hr he ih =>
    rename_i v0 c0 w ec
    obtain ⟨d, hex, hw, _⟩ := (edgeRel_iff_edgeExists m v0 w ec).1 he
    subst hw
    exact hcl v0 ih d hex

theorem endCosts_lb {m : Map} {s : Vertex} {mv : Nat} (lb : Vertex → Nat) (hs : lb s = 0)
    (hstep : ∀ v ∈ allVertices m, ∀ d : Direction, edgeExists m v d = true →
      lb (targetOf v d) ≤ lb v + edgeCost v.direction d)
    (hend : ∀ v ∈ allVertices m, mapGet m v.y v.x = some MapItem.End → mv ≤ lb v) :
    ∀ c, EndCosts m s c → mv ≤ c := by
  rintro c ⟨v, hv, hr⟩
  have h1 := reaches_lb lb hs hstep hr
  have h2 : v ∈ allVertices m := by
    apply mem_allVertices_of_matched
    simp only [vertexMatched, isEndCell] at hv ⊢
    rw [hv]
    rfl
  have := hend v h2 hv
  omega

/-! ## d18: semantics of the A*-style search -/

theorem popMax_none_iff (l : List Node) : popMax l = none ↔ l = [] := by
  cases l with
  | nil => simp [popMax]
  | cons n rest =>
    simp only [popMax]
    cases popMax rest with
    | none => simp
    | some p =>
      obtain ⟨mx, r⟩ := p
      by_cases h : nodeBeats mx n = true <;> simp [h]

theorem popMax_perm {l : List Node} {n : Node} {r : List Node}
    (h : popMax l = some (n, r)) : l.Perm (n :: r) := by
  induction l generalizing n r with
  | nil => simp [popMax] at h
  | cons n0 rest ih =>
    simp only [popMax] at h
    cases hr : popMax rest with
    | none =>
      rw [hr] at h
      have : rest = [] := (popMax_none_iff rest).1 hr
      subst this
      simp at h
      obtain ⟨h1, h2⟩ := h
      subst h1; subst h2
      rfl
    | some p =>
      obtain ⟨mx, r2⟩ := p
      rw [hr] at h
      by_cases hb : nodeBeats mx n0 = true
      · simp [hb] at h
        obtain ⟨h1, h2⟩ := h
        subst h1; subst h2
        exact List.Perm.trans (List.Perm.cons n0 (ih hr)) (List.Perm.swap _ n0 r2)
      · simp [hb] at h
        obtain ⟨h1, h2⟩ := h
        subst h1; subst h2
        rfl

/-- One admissible step of the d18 maze: exactly the membership condition of
`find_neighbors`. -/
def AdjStep (m : AMap) (p q : Position) : Prop :=
  ∃ dd, dd ∈ DELTAS ∧ checkedAddSigned p.x dd.1 = some q.x ∧
    checkedAddSigned p.y dd.2 = some q.y ∧
    ¬(q.x ≥ m.length ∨ q.y ≥ m.length) ∧ aGet m q.y q.x = some MapEntry.Open

theorem find_neighbors_aux_mem {m : AMap} {p : Position} :
    ∀ {ds : List (Int × Int)} {l : List Position},
    find_neighbors_aux m p ds = some l →
    ∀ q, q ∈ l ↔ ∃ dd, dd ∈ ds ∧ checkedAddSigned p.x dd.1 = some q.x ∧
      checkedAddSigned p.y dd.2 = some q.y ∧
      ¬(q.x ≥ m.length ∨ q.y ≥ m.length) ∧ aGet m q.y q.x = some MapEntry.Open := by
  intro ds
  induction ds with
  | nil =>
    intro l h q
    simp only [find_neighbors_aux] at h
    injection h with hh
    subst hh
    simp
  | cons dd0 rest ih =>
    intro l h q
    obtain ⟨dx, dy⟩ := dd0
    simp only [find_neighbors_aux] at h
    cases hx : checkedAddSigned p.x dx with
    | none =>
      rw [hx] at h
      rw [ih h q]
      constructor
      · rintro ⟨dd, hdd, h1, h2, h3, h4⟩
        exact ⟨dd, List.mem_cons_of_mem _ hdd, h1, h2, h3, h4⟩
      · rintro ⟨dd, hdd, h1, h2, h3, h4⟩
        rcases List.mem_cons.1 hdd with h5 | h5
        · exfalso
          subst h5
          rw [hx] at h1
          exact absurd h1 (by simp)
        · exact ⟨dd, h5, h1, h2, h3, h4⟩
    | some nx =>
      rw [hx] at h
      dsimp only at h
      cases hy : checkedAddSigned p.y dy with
      | none =>
        rw [hy] at h
        rw [ih h q]
        constructor
        · rintro ⟨dd, hdd, h1, h2, h3, h4⟩
          exact ⟨dd, List.mem_cons_of_mem _ hdd, h1, h2, h3, h4⟩
        · rintro ⟨dd, hdd, h1, h2, h3, h4⟩
          rcases List.mem_cons.1 hdd with h5 | h5
          · exfalso
            subst h5
            rw [hy] at h2
            exact absurd h2 (by simp)
          · exact ⟨dd, h5, h1, h2, h3, h4⟩
      | some ny =>
        rw [hy] at h
        dsimp only at h
        by_cases hb : nx ≥ m.length ∨ ny ≥ m.length
        · rw [if_pos hb] at h
          rw [ih h q]
          constructor
          · rintro ⟨dd, hdd, h1, h2, h3, h4⟩
            exact ⟨dd, List.mem_cons_of_mem _ hdd, h1, h2, h3, h4⟩
          · rintro ⟨dd, hdd, h1, h2, h3, h4⟩
            rcases List.mem_cons.1 hdd with h5 | h5
            · exfalso
              subst h5
              rw [hx] at h1
              rw [hy] at h2
              injection h1 with h1e
              injection h2 with h2e
              subst h1e; subst h2e
              exact h3 hb
            · exact ⟨dd, h5, h1, h2, h3, h4⟩
        · rw [if_neg hb] at h
          cases hget : aGet m ny nx with
          | none => rw [hget] at h; exact absurd h (by simp)
          | some entry =>
            rw [hget] at h
            cases entry with
            | Corrupted =>
              rw [ih h q]
              constructor
              · rintro ⟨dd, hdd, h1, h2, h3, h4⟩
                exact ⟨dd, List.mem_cons_of_mem _ hdd, h1, h2, h3, h4⟩
              · rintro ⟨dd, hdd, h1, h2, h3, h4⟩
                rcases List.mem_cons.1 hdd with h5 | h5
                · exfalso
                  subst h5
                  rw [hx] at h1
                  rw [hy] at h2
                  injection h1 with h1e
                  injection h2 with h2e
                  subst h1e; subst h2e
                  rw [hget] at h4
                  exact absurd h4 (by simp)
                · exact ⟨dd, h5, h1, h2, h3, h4⟩
            | Open =>
              cases hrec : find_neighbors_aux m p rest with
              | none => rw [hrec] at h; exact absurd h (by simp)
              | some r =>
                rw [hrec] at h
                injection h with hh
                subst hh
                constructor
                · intro hq
                  rcases List.mem_cons.1 hq with h5 | h5
                  · subst h5
                    exact ⟨(dx, dy), List.mem_cons_self _ _, by simpa using hx,
                      by simpa using hy, by simpa using hb, by simpa using hget⟩
                  · obtain ⟨dd, hdd, h1, h2, h3, h4⟩ := (ih hrec q).1 h5
                    exact ⟨dd, List.mem_cons_of_mem _ hdd, h1, h2, h3, h4⟩
                · rintro ⟨dd, hdd, h1, h2, h3, h4⟩
                  rcases List.mem_cons.1 hdd with h5 | h5
                  · subst h5
                    rw [hx] at h1
                    rw [hy] at h2
                    injection h1 with h1e
                    injection h2 with h2e
                    apply List.mem_cons.2
                    left
                    cases q
                    simp only at h1e h2e
                    simp [h1e, h2e]
                  · exact List.mem_cons.2 (Or.inr ((ih hrec q).2 ⟨dd, h5, h1, h2, h3, h4⟩))

theorem find_neighbors_mem {m : AMap} {p : Position} {l : List Position}
    (h : find_neighbors m p = some l) (q : Position) : q ∈ l ↔ AdjStep m p q :=
  find_neighbors_aux_mem h q

/-- Rows all as long as the map is high: the n×n maps of d18. -/
def Square (m : AMap) : Prop := ∀ row ∈ m, row.length = m.length

theorem find_neighbors_isSome {m : AMap} (hsq : Square m) (p : Position) :
    (find_neighbors m p).isSome = true := by
  suffices h : ∀ ds : List (Int × Int), (find_neighbors_aux m p ds).isSome = true from h DELTAS
  intro ds
  induction ds with
  | nil => simp [find_neighbors_aux]
  | cons dd rest ih =>
    obtain ⟨dx, dy⟩ := dd
    simp only [find_neighbors_aux]
    cases hx : checkedAddSigned p.x dx with
    | none => exact ih
    | some nx =>
      dsimp only
      cases hy : checkedAddSigned p.y dy with
      | none => exact ih
      | some ny =>
        dsimp only
        by_cases hb : nx ≥ m.length ∨ ny ≥ m.length
        · rw [if_pos hb]; exact ih
        · rw [if_neg hb]
          have hny : ny < m.length := by omega
          have hnx : nx < m.length := by omega
          obtain ⟨entry, hentry⟩ : ∃ entry, aGet m ny nx = some entry := by
            simp only [aGet]
            rw [dif_pos hny]
            have hrow : (m.get ⟨ny, hny⟩).length = m.length := hsq _ (m.get_mem _ _)
            rw [dif_pos (by omega)]
            exact ⟨_, rfl⟩
          rw [hentry]
          cases entry with
          | Corrupted => exact ih
          | Open =>
            cases hrec : find_neighbors_aux m p rest with
            | none => rw [hrec] at ih; simp at ih
            | some r => simp

inductive OpenPath (m : AMap) : Position → Prop where
  | start : OpenPath m ⟨0, 0⟩
  | step {p q} : OpenPath m p → AdjStep m p q → OpenPath m q

def NodeOK (m : AMap) : Node → Prop
  | .root p _ _ _ => p = ⟨0, 0⟩
  | .step p _ _ _ prev => AdjStep m prev.position p ∧ NodeOK m prev

theorem nodeOK_openPath {m : AMap} : ∀ {n : Node}, NodeOK m n → OpenPath m n.position := by
  intro n
  induction n with
  | root p c e t =>
    intro h
    simp only [NodeOK] at h
    simp only [Node.position]
    rw [h]
    exact OpenPath.start
  | step p c e t prev ih =>
    intro h
    simp only [NodeOK] at h
    exact OpenPath.step (ih h.2) h.1

/-- Two positions differing by exactly one unit step in exactly one
coordinate. -/
def unitStep (p q : Position) : Prop :=
  (q.x = p.x ∧ (q.y = p.y + 1 ∨ p.y = q.y + 1)) ∨
    (q.y = p.y ∧ (q.x = p.x + 1 ∨ p.x = q.x + 1))

theorem checkedAddSigned_spec {x : Nat} {d : Int} {v : Nat}
    (h : checkedAddSigned x d = some v) : (v : Int) = (x : Int) + d := by
  simp only [checkedAddSigned] at h
  by_cases hc : 0 ≤ (x : Int) + d ∧ (x : Int) + d < (USIZE : Int)
  · rw [if_pos hc] at h
    injection h with hh
    subst hh
    exact Int.toNat_of_nonneg hc.1
  · rw [if_neg hc] at h
    exact absurd h (by simp)

theorem adjStep_unitStep {m : AMap} {p q : Position} (h : AdjStep m p q) : unitStep q p := by
  obtain ⟨⟨dx, dy⟩, hdd, hx, hy, _, _⟩ := h
  have hxe := checkedAddSigned_spec hx
  have hye := checkedAddSigned_spec hy
  simp only [DELTAS, List.mem_cons, List.mem_singleton, Prod.mk.injEq,
    List.not_mem_nil, or_false] at hdd
  simp only [unitStep]
  rcases hdd with ⟨h1, h2⟩ | ⟨h1, h2⟩ | ⟨h1, h2⟩ | ⟨h1, h2⟩ <;> subst h1 <;> subst h2 <;>
      simp only at hxe hye
  · left
    omega
  · left
    omega
  · right
    omega
  · right
    omega

theorem pathOf_ne_nil (n : Node) : pathOf n ≠ [] := by
  cases n <;> simp [pathOf]

theorem pathOf_head (n : Node) : (pathOf n).head? = some n.position := by
  cases n <;> simp [pathOf, Node.position]

theorem pathOf_last {m : AMap} : ∀ {n : Node}, NodeOK m n →
    (pathOf n).getLast? = some ⟨0, 0⟩ := by
  intro n
  induction n with
  | root p c e t =>
    intro h
    simp only [NodeOK] at h
    simp [pathOf, h]
  | step p c e t prev ih =>
    intro h
    simp only [NodeOK] at h
    simp only [pathOf]
    obtain ⟨q, rest, hq⟩ : ∃ q rest, pathOf prev = q :: rest := by
      cases prev <;> exact ⟨_, _, rfl⟩
    rw [hq, List.getLast?_cons_cons, ← hq]
    exact ih h.2

theorem pathOf_chain {m : AMap} : ∀ {n : Node}, NodeOK m n →
    List.Chain' unitStep (pathOf n) := by
  intro n
  induction n with
  | root p c e t => intro _; simp [pathOf]
  | step p c e t prev ih =>
    intro h
    simp only [NodeOK] at h
    simp only [pathOf]
    rw [List.chain'_cons']
    refine ⟨?_, ih h.2⟩
    intro b hb
    rw [pathOf_head] at hb
    injection hb with hh
    subst hh
    exact adjStep_unitStep h.1

theorem pathOf_opens {m : AMap} : ∀ {n : Node}, NodeOK m n →
    ∀ q ∈ (pathOf n).dropLast,
      q.x < m.length ∧ q.y < m.length ∧ aGet m q.y q.x = some MapEntry.Open := by
  intro n
  induction n with
  | root p c e t => intro _ q hq; simp [pathOf] at hq
  | step p c e t prev ih =>
    intro h q hq
    simp only [NodeOK] at h
    simp only [pathOf] at hq
    obtain ⟨q2, rest, hq2⟩ : ∃ q2 rest, pathOf prev = q2 :: rest := by
      cases prev <;> exact ⟨_, _, rfl⟩
    rw [hq2, List.dropLast_cons₂, ← hq2] at hq
    rcases List.mem_cons.1 hq with h1 | h1
    · subst h1
      obtain ⟨dd, _, _, _, hb, hopen⟩ := h.1
      exact ⟨by omega, by omega, hopen⟩
    · exact ih h.2 q h1

def allPositions (m : AMap) : List Position :=
  (List.range m.length).flatMap (fun y => (List.range m.length).map (fun x => ⟨x, y⟩))

theorem mem_allPositions {m : AMap} {p : Position} :
    p ∈ allPositions m ↔ p.x < m.length ∧ p.y < m.length := by
  simp only [allPositions, List.mem_flatMap, List.mem_range, List.mem_map]
  constructor
  · rintro ⟨y, hy, x, hx, he⟩
    rw [← he]
    exact ⟨hx, hy⟩
  · rintro ⟨hx, hy⟩
    exact ⟨p.y, hy, p.x, hx, rfl⟩

def unvisited (m : AMap) (vis : List Position) : Nat :=
  (allPositions m).countP (fun p => decide (p ∉ vis))

theorem countP_insert_lt (vis : List Position) (q : Position) :
    ∀ l : List Position, q ∈ l → q ∉ vis →
    l.countP (fun p => decide (p ∉ q :: vis)) < l.countP (fun p => decide (p ∉ vis)) := by
  intro l
  induction l with
  | nil => intro h; simp at h
  | cons a rest ih =>
    intro hq hnv
    have hmono : rest.countP (fun p => decide (p ∉ q :: vis)) ≤
        rest.countP (fun p => decide (p ∉ vis)) := by
      refine List.countP_mono_left ?_
      intro p _ hp
      simp only [decide_eq_true_eq] at hp ⊢
      intro hc
      exact hp (List.mem_cons_of_mem _ hc)
    rcases List.mem_cons.1 hq with h1 | h1
    · rw [List.countP_cons, List.countP_cons, ← h1]
      have h2 : decide (q ∉ q :: vis) = false := by simp
      have h3 : decide (q ∉ vis) = true := by simpa using hnv
      rw [h2, h3, if_neg (by simp), if_pos rfl]
      omega
    · have hrec := ih h1 hnv
      rw [List.countP_cons, List.countP_cons]
      by_cases ha : decide (a ∉ q :: vis) = true
      · have ha2 : decide (a ∉ vis) = true := by
          simp only [decide_eq_true_eq] at ha ⊢
          intro hc
          exact ha (List.mem_cons_of_mem _ hc)
        rw [ha, ha2]
        simp only [if_pos]
        omega
      · simp only [Bool.not_eq_true] at ha
        rw [ha, if_neg (by simp)]
        by_cases ha2 : decide (a ∉ vis) = true
        · rw [ha2, if_pos rfl]
          omega
        · simp only [Bool.not_eq_true] at ha2
          rw [ha2, if_neg (by simp)]
          omega

theorem unvisited_insert_lt {m : AMap} {vis : List Position} {q : Position}
    (hq : q ∈ allPositions m) (hnv : q ∉ vis) :
    unvisited m (q :: vis) < unvisited m vis :=
  countP_insert_lt vis q (allPositions m) hq hnv

theorem aRelax_spec (m : AMap) (node : Node) (goal : Position) :
    ∀ (nps : List Position) (frontier : List Node) (visited : List Position),
    (∀ n ∈ frontier, n ∈ (aRelax node goal nps frontier visited).1) ∧
    (∀ q ∈ visited, q ∈ (aRelax node goal nps frontier visited).2) ∧
    (∀ n ∈ (aRelax node goal nps frontier visited).1, n ∈ frontier ∨
      ∃ np ∈ nps, n = Node.step np (neighCost node) (neighEcg node goal)
        (neighEtc node goal) node) ∧
    (∀ q ∈ (aRelax node goal nps frontier visited).2, q ∈ visited ∨ q ∈ nps) ∧
    (∀ np ∈ nps, np ∈ visited ∨
      ∃ n ∈ (aRelax node goal nps frontier visited).1, n.position = np) := by
  intro nps
  induction nps with
  | nil =>
    intro frontier visited
    simp only [aRelax]
    exact ⟨fun n h => h, fun q h => h, fun n h => Or.inl h, fun q h => Or.inl h,
      fun np h => by simp at h⟩
  | cons np0 rest ih =>
    intro frontier visited
    simp only [aRelax]
    by_cases hv : np0 ∈ visited
    · rw [if_pos hv]
      obtain ⟨h1, h2, h3, h4, h5⟩ := ih frontier visited
      refine ⟨h1, h2, ?_, ?_, ?_⟩
      · intro n hn
        rcases h3 n hn with h | ⟨np, hnp, he⟩
        · exact Or.inl h
        · exact Or.inr ⟨np, List.mem_cons_of_mem _ hnp, he⟩
      · intro q hq
        rcases h4 q hq with h | h
        · exact Or.inl h
        · exact Or.inr (List.mem_cons_of_mem _ h)
      · intro np hnp
        rcases List.mem_cons.1 hnp with h | h
        · subst h; exact Or.inl hv
        · exact h5 np h
    · rw [if_neg hv]
      by_cases hscan : (frontier.filter (fun n => n.position = np0)).any
          (fun n => n.cost < neighCost node) = true
      · rw [if_pos hscan]
        obtain ⟨h1, h2, h3, h4, h5⟩ := ih frontier visited
        refine ⟨h1, h2, ?_, ?_, ?_⟩
        · intro n hn
          rcases h3 n hn with h | ⟨np, hnp, he⟩
          · exact Or.inl h
          · exact Or.inr ⟨np, List.mem_cons_of_mem _ hnp, he⟩
        · intro q hq
          rcases h4 q hq with h | h
          · exact Or.inl h
          · exact Or.inr (List.mem_cons_of_mem _ h)
        · intro np hnp
          rcases List.mem_cons.1 hnp with h | h
          · subst h
            obtain ⟨n, hnmem, hncond⟩ := List.any_eq_true.1 hscan
            obtain ⟨hnf, hnpos⟩ := List.mem_filter.1 hnmem
            right
            refine ⟨n, h1 n hnf, by simpa using hnpos⟩
          · exact h5 np h
      · rw [if_neg hscan]
        obtain ⟨h1, h2, h3, h4, h5⟩ :=
          ih (Node.step np0 (neighCost node) (neighEcg node goal)
            (neighEtc node goal) node :: frontier) (np0 :: visited)
        refine ⟨?_, ?_, ?_, ?_, ?_⟩
        · intro n hn
          exact h1 n (List.mem_cons_of_mem _ hn)
        · intro q hq
          exact h2 q (List.mem_cons_of_mem _ hq)
        · intro n hn
          rcases h3 n hn with h | ⟨np, hnp, he⟩
          · rcases List.mem_cons.1 h with h6 | h6
            · exact Or.inr ⟨np0, List.mem_cons_self _ _, h6⟩
            · exact Or.inl h6
          · exact Or.inr ⟨np, List.mem_cons_of_mem _ hnp, he⟩
        · intro q hq
          rcases h4 q hq with h | h
          · rcases List.mem_cons.1 h with h6 | h6
            · exact Or.inr (by rw [h6]; exact List.mem_cons_self _ _)
            · exact Or.inl h6
          · exact Or.inr (List.mem_cons_of_mem _ h)
        · intro np hnp
          rcases List.mem_cons.1 hnp with h | h
          · subst h
            right
            refine ⟨Node.step np (neighCost node) (neighEcg node goal)
              (neighEtc node goal) node, ?_, rfl⟩
            exact h1 _ (List.mem_cons_self _ _)
          · rcases h5 np h with h6 | h6
            · rcases List.mem_cons.1 h6 with h7 | h7
              · subst h7
                right
                refine ⟨Node.step np (neighCost node) (neighEcg node goal)
                  (neighEtc node goal) node, ?_, rfl⟩
                exact h1 _ (List.mem_cons_self _ _)
              · exact Or.inl h7
            · exact Or.inr h6

theorem aRelax_measure (m : AMap) (node : Node) (goal : Position) :
    ∀ (nps : List Position) (frontier : List Node) (visited : List Position),
    (∀ np ∈ nps, np ∈ allPositions m) →
    (aRelax node goal nps frontier visited).1.length +
      unvisited m (aRelax node goal nps frontier visited).2 ≤
      frontier.length + unvisited m visited := by
  intro nps
  induction nps with
  | nil => intro frontier visited _; simp [aRelax]
  | cons np0 rest ih =>
    intro frontier visited hnps
    have hrest : ∀ np ∈ rest, np ∈ allPositions m :=
      fun np h => hnps np (List.mem_cons_of_mem _ h)
    simp only [aRelax]
    by_cases hv : np0 ∈ visited
    · rw [if_pos hv]
      exact ih frontier visited hrest
    · rw [if_neg hv]
      by_cases hscan : (frontier.filter (fun n => n.position = np0)).any
          (fun n => n.cost < neighCost node) = true
      · rw [if_pos hscan]
        exact ih frontier visited hrest
      · rw [if_neg hscan]
        have h1 := ih (Node.step np0 (neighCost node) (neighEcg node goal)
          (neighEtc node goal) node :: frontier) (np0 :: visited) hrest
        have h2 := unvisited_insert_lt (hnps np0 (List.mem_cons_self _ _)) hv
        simp only [List.length_cons] at h1
        omega

/-- Loop invariant of the A*-style search with ghost set `P` of expanded
(popped and processed) positions. -/
structure AInv (m : AMap) (goal : Position) (P : Set Position)
    (frontier : List Node) (visited : List Position) : Prop where
  fOK : ∀ n ∈ frontier, NodeOK m n
  visCover : ∀ q ∈ visited, q ∈ P ∨ ∃ n ∈ frontier, n.position = q
  popped : ∀ q ∈ P, q ≠ goal ∧ ∃ l, find_neighbors m q = some l ∧
    ∀ p2 ∈ l, p2 ∈ visited ∨ p2 ∈ P ∨ ∃ n ∈ frontier, n.position = p2
  startCover : (⟨0, 0⟩ : Position) ∈ P ∨ ∃ n ∈ frontier, n.position = ⟨0, 0⟩

theorem ainv_empty {m : AMap} {goal : Position} {P : Set Position} {visited : List Position}
    (hinv : AInv m goal P [] visited) : ¬ OpenPath m goal := by
  have hP : ∀ q, OpenPath m q → q ∈ P := by
    intro q h
    induction h with
    | start =>
      rcases hinv.startCover with h | ⟨n, hn, _⟩
      · exact h
      · simp at hn
    | @step p0 q0 hp hadj ih =>
      obtain ⟨_, l, hl, hcov⟩ := hinv.popped _ ih
      have hq0 : q0 ∈ l := (find_neighbors_mem hl q0).2 hadj
      rcases hcov q0 hq0 with h | h | ⟨n, hn, _⟩
      · rcases hinv.visCover q0 h with h2 | ⟨n, hn, _⟩
        · exact h2
        · simp at hn
      · exact h
      · simp at hn
  intro hgoal
  exact (hinv.popped _ (hP _ hgoal)).1 rfl

theorem astep_ainv {m : AMap} {goal : Position} {P : Set Position}
    {frontier : List Node} {visited : List Position}
    (hsq : Square m) (hinv : AInv m goal P frontier visited) :
    astep m goal frontier visited ≠ .halt .panic ∧
    (∀ p, astep m goal frontier visited = .halt (.found p) →
      ∃ n, NodeOK m n ∧ n.position = goal ∧ p = pathOf n) ∧
    (astep m goal frontier visited = .halt .noPath → frontier = []) ∧
    (∀ f2 v2, astep m goal frontier visited = .next f2 v2 →
      ∃ P2 : Set Position, AInv m goal P2 f2 v2) := by
  cases hpop : popMax frontier with
  | none =>
    simp only [astep, hpop]
    refine ⟨by simp, by simp, ?_, by simp⟩
    intro _
    exact (popMax_none_iff frontier).1 hpop
  | some p =>
    obtain ⟨node, rest⟩ := p
    have hperm := popMax_perm hpop
    have hnodemem : node ∈ frontier := hperm.mem_iff.2 (List.mem_cons_self _ _)
    have hrestmem : ∀ n ∈ rest, n ∈ frontier :=
      fun n h => hperm.mem_iff.2 (List.mem_cons_of_mem _ h)
    have hnodeOK : NodeOK m node := hinv.fOK node hnodemem
    simp only [astep, hpop]
    by_cases hgoal : node.position = goal
    · rw [if_pos hgoal]
      refine ⟨by simp, ?_, ?_, by simp⟩
      · intro p hp
        injection hp with hh
        injection hh with hh2
        exact ⟨node, hnodeOK, hgoal, hh2.symm⟩
      · intro hp
        injection hp with hh
        exact absurd hh (by simp)
    · rw [if_neg hgoal]
      obtain ⟨l, hl⟩ := Option.isSome_iff_exists.1 (find_neighbors_isSome hsq node.position)
      rw [hl]
      dsimp only
      refine ⟨fun h => AStepOut.noConfusion h, fun p hp => AStepOut.noConfusion hp,
        fun hp => AStepOut.noConfusion hp, ?_⟩
      intro f2 v2 hn
      injection hn with h1 h2
      obtain ⟨hg1, hg2, hg3, hg4, hg5⟩ := aRelax_spec m node goal l rest visited
      rw [h1] at hg1 hg3 hg5
      rw [h2] at hg2 hg4
      refine ⟨P ∪ {node.position}, ?_, ?_, ?_, ?_⟩
      · -- fOK
        intro n hn2
        rcases hg3 n hn2 with h | ⟨np, hnp, he⟩
        · exact hinv.fOK n (hrestmem n h)
        · subst he
          exact ⟨(find_neighbors_mem hl np).1 hnp, hnodeOK⟩
      · -- visCover
        intro q hq
        rcases hg4 q hq with h | h
        · rcases hinv.visCover q h with h2 | ⟨n, hn2, hpos⟩
          · exact Or.inl (Or.inl h2)
          · rcases List.mem_cons.1 (hperm.mem_iff.1 hn2) with h3 | h3
            · subst h3
              exact Or.inl (Or.inr (by rw [← hpos]; rfl))
            · exact Or.inr ⟨n, hg1 n h3, hpos⟩
        · rcases hg5 q h with h2 | h2
          · rcases hinv.visCover q h2 with h3 | ⟨n, hn2, hpos⟩
            · exact Or.inl (Or.inl h3)
            · rcases List.mem_cons.1 (hperm.mem_iff.1 hn2) with h3 | h3
              · subst h3
                exact Or.inl (Or.inr (by rw [← hpos]; rfl))
              · exact Or.inr ⟨n, hg1 n h3, hpos⟩
          · exact Or.inr h2
      · -- popped
        intro q hq
        rcases hq with hq | hq
        · obtain ⟨hne, lq, hlq, hcov⟩ := hinv.popped q hq
          refine ⟨hne, lq, hlq, ?_⟩
          intro p2 hp2
          rcases hcov p2 hp2 with h | h | ⟨n, hn2, hpos⟩
          · exact Or.inl (hg2 p2 h)
          · exact Or.inr (Or.inl (Or.inl h))
          · rcases List.mem_cons.1 (hperm.mem_iff.1 hn2) with h3 | h3
            · subst h3
              exact Or.inr (Or.inl (Or.inr (by rw [← hpos]; rfl)))
            · exact Or.inr (Or.inr ⟨n, hg1 n h3, hpos⟩)
        · rw [Set.mem_singleton_iff] at hq
          subst hq
          refine ⟨hgoal, l, hl, ?_⟩
          intro p2 hp2
          rcases hg5 p2 hp2 with h | h
          · exact Or.inl (hg2 p2 h)
          · exact Or.inr (Or.inr h)
      · -- startCover
        rcases hinv.startCover with h | ⟨n, hn2, hpos⟩
        · exact Or.inl (Or.inl h)
        · rcases List.mem_cons.1 (hperm.mem_iff.1 hn2) with h3 | h3
          · subst h3
            exact Or.inl (Or.inr (by rw [← hpos]; rfl))
          · exact Or.inr ⟨n, hg1 n h3, hpos⟩

theorem astep_measure {m : AMap} {goal : Position} {frontier f2 : List Node}
    {visited v2 : List Position}
    (h : astep m goal frontier visited = .next f2 v2) :
    f2.length + unvisited m v2 < frontier.length + unvisited m visited := by
  simp only [astep] at h
  cases hpop : popMax frontier with
  | none => rw [hpop] at h; exact absurd h (by simp)
  | some p =>
    obtain ⟨node, rest⟩ := p
    rw [hpop] at h
    have hlen : frontier.length = rest.length + 1 := by
      simpa using (popMax_perm hpop).length_eq
    dsimp only at h
    by_cases hgoal : node.position = goal
    · rw [if_pos hgoal] at h; exact absurd h (by simp)
    · rw [if_neg hgoal] at h
      cases hl : find_neighbors m node.position with
      | none => rw [hl] at h; exact absurd h (by simp)
      | some l =>
        rw [hl] at h
        dsimp only at h
        injection h with h1 h2
        have hbounds : ∀ np ∈ l, np ∈ allPositions m := by
          intro np hnp
          obtain ⟨_, _, _, _, hb, _⟩ := (find_neighbors_mem hl np).1 hnp
          rw [mem_allPositions]
          omega
        have := aRelax_measure m node goal l rest visited hbounds
        rw [h1, h2] at this
        omega

theorem aloop_ne_fuelOut {m : AMap} {goal : Position} :
    ∀ {fuel : Nat} {frontier : List Node} {visited : List Position},
    frontier.length + unvisited m visited < fuel →
    aloop m goal fuel frontier visited ≠ .fuelOut := by
  intro fuel
  induction fuel with
  | zero => intro frontier visited h; omega
  | succ f ih =>
    intro frontier visited h
    simp only [aloop]
    cases hs : astep m goal frontier visited with
    | halt r =>
      cases hpop : popMax frontier with
      | none =>
        simp only [astep, hpop] at hs
        injection hs with hh
        subst hh
        simp
      | some p =>
        obtain ⟨node, rest⟩ := p
        simp only [astep, hpop] at hs
        by_cases hgoal : node.position = goal
        · rw [if_pos hgoal] at hs
          injection hs with hh
          subst hh
          simp
        · rw [if_neg hgoal] at hs
          cases hl : find_neighbors m node.position with
          | none =>
            rw [hl] at hs
            injection hs with hh
            subst hh
            simp
          | some l =>
            rw [hl] at hs
            exact absurd hs (by simp)
    | next f2 v2 =>
      have := astep_measure hs
      exact ih (by omega)

theorem aloop_master {m : AMap} {goal : Position} (hsq : Square m) :
    ∀ {fuel : Nat} {P : Set Position} {frontier : List Node} {visited : List Position},
    AInv m goal P frontier visited →
    aloop m goal fuel frontier visited ≠ .panic ∧
    (∀ p, aloop m goal fuel frontier visited = .found p →
      ∃ n, NodeOK m n ∧ n.position = goal ∧ p = pathOf n) ∧
    (aloop m goal fuel frontier visited = .noPath → ¬ OpenPath m goal) := by
  intro fuel
  induction fuel with
  | zero =>
    intro P frontier visited _
    simp only [aloop]
    exact ⟨by simp, by simp, by simp⟩
  | succ f ih =>
    intro P frontier visited hinv
    obtain ⟨hnp, hfound, hempty, hnext⟩ := astep_ainv hsq hinv
    simp only [aloop]
    cases hs : astep m goal frontier visited with
    | halt r =>
      cases r with
      | panic => exact absurd hs hnp
      | found p =>
        refine ⟨by simp, ?_, by simp⟩
        intro p2 hp2
        injection hp2 with hh
        subst hh
        exact hfound _ hs
      | noPath =>
        refine ⟨by simp, by simp, ?_⟩
        intro _
        have hfe : frontier = [] := hempty hs
        subst hfe
        exact ainv_empty hinv
      | fuelOut => exact ⟨by simp, by simp, by simp⟩
    | next f2 v2 =>
      obtain ⟨P2, hinv2⟩ := hnext f2 v2 hs
      exact ih hinv2

theorem allPositions_length (m : AMap) : (allPositions m).length = m.length * m.length := by
  simp only [allPositions]
  rw [List.length_flatMap]
  have h : (List.map (List.length ∘ fun y =>
      List.map (fun x => (⟨x, y⟩ : Position)) (List.range m.length)) (List.range m.length)) =
      List.map (fun _ => m.length) (List.range m.length) := by
    refine List.map_congr_left ?_
    intro y _
    simp [Function.comp]
  rw [h, List.map_const']
  simp [List.sum_replicate, Nat.mul_comm]

theorem unvisited_le (m : AMap) (vis : List Position) :
    unvisited m vis ≤ m.length * m.length := by
  have h1 : unvisited m vis ≤ (allPositions m).length := List.countP_le_length _
  rw [allPositions_length] at h1
  exact h1

def goalPos (m : AMap) : Position := ⟨wrapSub m.length 1, wrapSub m.length 1⟩

theorem astar_initial_AInv (m : AMap) :
    AInv m (goalPos m) ∅ [defaultNode] [] := by
  constructor
  · intro n hn
    simp at hn
    subst hn
    rfl
  · intro q hq
    simp at hq
  · intro q hq
    simp at hq
  · exact Or.inr ⟨defaultNode, List.mem_cons_self _ _, rfl⟩

theorem solve_maze_ne_fuelOut (m : AMap) : solve_maze_using_astar m ≠ .fuelOut := by
  simp only [solve_maze_using_astar]
  refine aloop_ne_fuelOut ?_
  have := unvisited_le m []
  simp only [List.length_cons, List.length_nil]
  omega

theorem solve_maze_found_props {m : AMap} {p : List Position} (hsq : Square m)
    (h : solve_maze_using_astar m = .found p) :
    p ≠ [] ∧ p.head? = some (goalPos m) ∧ p.getLast? = some ⟨0, 0⟩ ∧
      List.Chain' unitStep p ∧
      ∀ q ∈ p.dropLast, q.x < m.length ∧ q.y < m.length ∧
        aGet m q.y q.x = some MapEntry.Open := by
  have hmaster := (aloop_master hsq (astar_initial_AInv m)).2.1 p h
  obtain ⟨n, hOK, hposn, hpn⟩ := hmaster
  subst hpn
  refine ⟨pathOf_ne_nil n, ?_, pathOf_last hOK, pathOf_chain hOK, pathOf_opens hOK⟩
  rw [pathOf_head, hposn]

theorem solve_maze_noPath_iff {m : AMap} (hsq : Square m) :
    solve_maze_using_astar m = .noPath ↔ ¬ OpenPath m (goalPos m) := by
  constructor
  · intro h
    exact (aloop_master hsq (astar_initial_AInv m)).2.2 h
  · intro hno
    cases hres : solve_maze_using_astar m with
    | noPath => rfl
    | panic => exact absurd hres (aloop_master hsq (astar_initial_AInv m)).1
    | fuelOut => exact absurd hres (solve_maze_ne_fuelOut m)
    | found p =>
      exfalso
      obtain ⟨n, hOK, hposn, _⟩ := (aloop_master hsq (astar_initial_AInv m)).2.1 p hres
      exact hno (hposn ▸ nodeOK_openPath hOK)

/-! ## Adding a wall: effect on the generated graph (claim C8) -/

theorem cellAdjacenciesAux_isSome_iff (m : Map) (x y : Nat) (dirs : List Direction) :
    (cellAdjacenciesAux m x y dirs).isSome = true ↔
      ∀ cur ∈ dirs, (edgesForCell m x y cur).isSome = true := by
  induction dirs with
  | nil => simp [cellAdjacenciesAux]
  | cons cur rest ih =>
    simp only [cellAdjacenciesAux]
    cases hec : edgesForCell m x y cur with
    | none =>
      simp only [Option.isSome_none]
      constructor
      · intro h; simp at h
      · intro h
        have := h cur (List.mem_cons_self _ _)
        rw [hec] at this
        simp at this
    | some es =>
      dsimp only
      cases hrec : cellAdjacenciesAux m x y rest with
      | none =>
        simp only [Option.isSome_none]
        constructor
        · intro h; simp at h
        · intro h
          have h2 : (cellAdjacenciesAux m x y rest).isSome = true :=
            ih.2 (fun c hc => h c (List.mem_cons_of_mem _ hc))
          rw [hrec] at h2
          simp at h2
      | some r =>
        simp only [Option.isSome_some, true_iff]
        intro c hc
        rcases List.mem_cons.1 hc with h1 | h1
        · subst h1; simp [hec]
        · have h2 : (cellAdjacenciesAux m x y rest).isSome = true := by simp [hrec]
          exact ih.1 h2 c h1

theorem rowAdjacencies_isSome_iff (m : Map) (y : Nat) :
    ∀ (items : List MapItem) (x : Nat),
    (rowAdjacencies m y x items).isSome = true ↔
      ∀ k, matchedAt items k = true → (cellAdjacencies m (x + k) y).isSome = true := by
  intro items
  induction items with
  | nil => intro x; simp [rowAdjacencies, matchedAt]
  | cons item rest ih =>
    intro x
    simp only [rowAdjacencies]
    by_cases hm : isAdjSource item = true
    · rw [if_pos hm]
      cases hc : cellAdjacencies m x y with
      | none =>
        simp only [Option.isSome_none]
        constructor
        · intro h; simp at h
        · intro h
          have := h 0 (by rw [matchedAt_zero]; exact hm)
          rw [Nat.add_zero, hc] at this
          simp at this
      | some a =>
        dsimp only
        cases hrec : rowAdjacencies m y (x + 1) rest with
        | none =>
          simp only [Option.isSome_none]
          constructor
          · intro h; simp at h
          · intro h
            have h2 : (rowAdjacencies m y (x + 1) rest).isSome = true := by
              rw [ih (x + 1)]
              intro k hk
              have := h (k + 1) (by rw [matchedAt_succ]; exact hk)
              have harith : x + (k + 1) = x + 1 + k := by omega
              rw [harith] at this
              exact this
            rw [hrec] at h2
            simp at h2
        | some b =>
          simp only [Option.isSome_some, true_iff]
          intro k hk
          cases k with
          | zero => rw [Nat.add_zero]; simp [hc]
          | succ k0 =>
            rw [matchedAt_succ] at hk
            have h2 : (rowAdjacencies m y (x + 1) rest).isSome = true := by simp [hrec]
            have := (ih (x + 1)).1 h2 k0 hk
            have harith : x + 1 + k0 = x + (k0 + 1) := by omega
            rw [harith] at this
            exact this
    · rw [if_neg hm]
      rw [ih (x + 1)]
      constructor
      · intro h k hk
        cases k with
        | zero =>
          rw [matchedAt_zero] at hk
          exact absurd hk hm
        | succ k0 =>
          rw [matchedAt_succ] at hk
          have := h k0 hk
          have harith : x + 1 + k0 = x + (k0 + 1) := by omega
          rw [harith] at this
          exact this
      · intro h k hk
        have := h (k + 1) (by rw [matchedAt_succ]; exact hk)
        have harith : x + (k + 1) = x + 1 + k := by omega
        rw [harith] at this
        exact this

theorem genAdjacenciesAux_isSome_iff (m : Map) :
    ∀ (rows : List (List MapItem)) (y : Nat),
    (genAdjacenciesAux m y rows).isSome = true ↔
      ∀ k x, rowsMatchedAt rows k x = true → ∀ dc, (edgesForCell m x (y + k) dc).isSome = true := by
  intro rows
  induction rows with
  | nil => intro y; simp [genAdjacenciesAux, rowsMatchedAt]
  | cons row rest ih =>
    intro y
    simp only [genAdjacenciesAux]
    cases hrow : rowAdjacencies m y 0 row with
    | none =>
      simp only [Option.isSome_none]
      constructor
      · intro h; simp at h
      · intro h
        have h2 : (rowAdjacencies m y 0 row).isSome = true := by
          rw [rowAdjacencies_isSome_iff]
          intro k hk
          rw [cellAdjacencies, cellAdjacenciesAux_isSome_iff]
          intro cur _
          have := h 0 (0 + k) (by rw [rowsMatchedAt_zero]; simpa using hk) cur
          simpa using this
        rw [hrow] at h2
        simp at h2
    | some a =>
      dsimp only
      cases hrec : genAdjacenciesAux m (y + 1) rest with
      | none =>
        simp only [Option.isSome_none]
        constructor
        · intro h; simp at h
        · intro h
          have h2 : (genAdjacenciesAux m (y + 1) rest).isSome = true := by
            rw [ih (y + 1)]
            intro k x hk dc
            have := h (k + 1) x (by rw [rowsMatchedAt_succ]; exact hk) dc
            have harith : y + (k + 1) = y + 1 + k := by omega
            rw [harith] at this
            exact this
          rw [hrec] at h2
          simp at h2
      | some b =>
        simp only [Option.isSome_some, true_iff]
        intro k x hk dc
        cases k with
        | zero =>
          rw [rowsMatchedAt_zero] at hk
          have h2 : (rowAdjacencies m y 0 row).isSome = true := by simp [hrow]
          rw [rowAdjacencies_isSome_iff] at h2
          have := (cellAdjacenciesAux_isSome_iff m (0 + x) y DIRECTIONS).1
            (h2 x hk) dc (dir_mem_DIRECTIONS _)
          simpa using this
        | succ k0 =>
          rw [rowsMatchedAt_succ] at hk
          have h2 : (genAdjacenciesAux m (y + 1) rest).isSome = true := by simp [hrec]
          have := (ih (y + 1)).1 h2 k0 x hk dc
          have harith : y + 1 + k0 = y + (k0 + 1) := by omega
          rw [harith] at this
          exact this

/-- The adjacency builder succeeds exactly when every matched (non-wall) cell
has all four wrapped neighbour accesses in bounds. -/
theorem gen_isSome_iff (m : Map) :
    (genAdjacencies m).isSome = true ↔
      ∀ v : Vertex, vertexMatched m v = true →
        ∀ d, (mapGet m (targetOf v d).y (targetOf v d).x).isSome = true := by
  simp only [genAdjacencies]
  rw [genAdjacenciesAux_isSome_iff]
  constructor
  · intro h v hv d
    have hm : rowsMatchedAt m v.y v.x = true := by
      rw [← vertexMatched_eq_rowsMatchedAt]
      exact hv
    have := h v.y v.x (by simpa using hm) v.direction
    simp only [Nat.zero_add] at this
    rw [edgesForCell, edgesForCellAux_isSome_iff] at this
    exact this d (dir_mem_DIRECTIONS _)
  · intro h k x hk dc
    rw [edgesForCell, edgesForCellAux_isSome_iff]
    intro d _
    have hv : vertexMatched m (⟨x, k, dc⟩ : Vertex) = true := by
      rw [vertexMatched_eq_rowsMatchedAt]
      simpa using hk
    have := h ⟨x, k, dc⟩ hv d
    simpa using this

theorem mem_set_elim {α : Type} {a b : α} : ∀ {l : List α} {n : Nat}, a ∈ l.set n b → a ∈ l ∨ a = b := by
  intro l
  induction l with
  | nil => intro n h; simp at h
  | cons x rest ih =>
    intro n h
    cases n with
    | zero =>
      rw [List.set_cons_zero] at h
      rcases List.mem_cons.1 h with h1 | h1
      · exact Or.inr h1
      · exact Or.inl (List.mem_cons_of_mem _ h1)
    | succ k =>
      rw [List.set_cons_succ] at h
      rcases List.mem_cons.1 h with h1 | h1
      · exact Or.inl (h1 ▸ List.mem_cons_self _ _)
      · rcases ih h1 with h2 | h2
        · exact Or.inl (List.mem_cons_of_mem _ h2)
        · exact Or.inr h2

/-- Pointwise description of `msetCell`: the targeted cell (when in bounds)
holds the new item, every other access is unchanged. -/
theorem mapGet_msetCell (m : Map) (y x : Nat) (it : MapItem) (y2 x2 : Nat) :
    mapGet (msetCell m y x it) y2 x2 =
      if y2 = y ∧ x2 = x ∧ (mapGet m y x).isSome = true then some it
      else mapGet m y2 x2 := by
  by_cases hcond : y2 = y ∧ x2 = x ∧ (mapGet m y x).isSome = true
  · rw [if_pos hcond]
    obtain ⟨hy2, hx2, hsome⟩ := hcond
    have hy : y < m.length := by
      by_contra hc
      simp only [mapGet] at hsome
      rw [dif_neg hc] at hsome
      simp at hsome
    have hx : x < (m.get ⟨y, hy⟩).length := by
      by_contra hc
      simp only [mapGet] at hsome
      rw [dif_pos hy, dif_neg hc] at hsome
      simp at hsome
    simp only [msetCell]
    rw [dif_pos hy, dif_pos hx]
    rw [mapGet_eq_bind, hy2, hx2]
    have hrow : (m.set y ((m.get ⟨y, hy⟩).set x it)).get? y =
        some ((m.get ⟨y, hy⟩).set x it) := by
      rw [List.get?_set_eq, List.get?_eq_get hy]
      rfl
    rw [hrow]
    simp only [Option.some_bind]
    rw [List.get?_set_eq, List.get?_eq_get hx]
    rfl
  · rw [if_neg hcond]
    simp only [msetCell]
    by_cases hy : y < m.length
    · rw [dif_pos hy]
      by_cases hx : x < (m.get ⟨y, hy⟩).length
      · rw [dif_pos hx]
        have hsome : (mapGet m y x).isSome = true := by
          simp only [mapGet]
          rw [dif_pos hy, dif_pos hx]
          rfl
        rw [mapGet_eq_bind, mapGet_eq_bind m y2 x2]
        by_cases hy2 : y2 = y
        · have hx2 : ¬ x2 = x := fun hc => hcond ⟨hy2, hc, hsome⟩
          rw [hy2]
          have hrow : (m.set y ((m.get ⟨y, hy⟩).set x it)).get? y =
              some ((m.get ⟨y, hy⟩).set x it) := by
            rw [List.get?_set_eq, List.get?_eq_get hy]
            rfl
          rw [hrow, List.get?_eq_get hy]
          simp only [Option.some_bind]
          rw [List.get?_set_ne _ _ (fun h => hx2 h.symm)]
        · rw [List.get?_set_ne _ _ (fun h => hy2 h.symm)]
      · rw [dif_neg hx]
    · rw [dif_neg hy]

theorem mapGet_addWall {m : Map} {wy wx : Nat} (hE : (mapGet m wy wx).isSome = true)
    (y2 x2 : Nat) :
    mapGet (msetCell m wy wx MapItem.Wall) y2 x2 =
      if y2 = wy ∧ x2 = wx then some MapItem.Wall else mapGet m y2 x2 := by
  rw [mapGet_msetCell]
  by_cases h : y2 = wy ∧ x2 = wx
  · rw [if_pos ⟨h.1, h.2, hE⟩, if_pos h]
  · rw [if_neg (fun hc => h ⟨hc.1, hc.2.1⟩), if_neg h]

theorem vertexMatched_addWall {m : Map} {wy wx : Nat}
    (hE : (mapGet m wy wx).isSome = true) {v : Vertex}
    (h : vertexMatched (msetCell m wy wx MapItem.Wall) v = true) :
    vertexMatched m v = true ∧ ¬ (v.y = wy ∧ v.x = wx) := by
  simp only [vertexMatched] at h ⊢
  rw [mapGet_addWall hE] at h
  by_cases hc : v.y = wy ∧ v.x = wx
  · rw [if_pos hc] at h
    simp [isAdjSource] at h
  · rw [if_neg hc] at h
    exact ⟨h, hc⟩

theorem isSome_addWall {m : Map} {wy wx : Nat} (hE : (mapGet m wy wx).isSome = true)
    (y2 x2 : Nat) :
    (mapGet (msetCell m wy wx MapItem.Wall) y2 x2).isSome = (mapGet m y2 x2).isSome := by
  rw [mapGet_addWall hE]
  by_cases hc : y2 = wy ∧ x2 = wx
  · rw [if_pos hc, hc.1, hc.2]
    simp [hE]
  · rw [if_neg hc]

/-- Adding a wall on an in-bounds cell preserves success of the adjacency
builder: every remaining matched cell was matched before, with the same
in-bounds neighbourhood. -/
theorem gen_addWall_isSome {m : Map} {wy wx : Nat}
    (hE : (mapGet m wy wx).isSome = true)
    (hA : (genAdjacencies m).isSome = true) :
    (genAdjacencies (msetCell m wy wx MapItem.Wall)).isSome = true := by
  rw [gen_isSome_iff] at hA ⊢
  intro v hv d
  obtain ⟨hv2, _⟩ := vertexMatched_addWall hE hv
  rw [isSome_addWall hE]
  exact hA v hv2 d

theorem edgeRel_addWall {m : Map} {wy wx : Nat}
    (hE : (mapGet m wy wx).isSome = true) {v w : Vertex} {c : Nat}
    (h : EdgeRel (msetCell m wy wx MapItem.Wall) v w c) : EdgeRel m v w c := by
  obtain ⟨⟨it, hit, hsrc⟩, d, hw, hc, it2, hit2, hnw⟩ := h
  rw [mapGet_addWall hE] at hit hit2
  constructor
  · by_cases hcv : v.y = wy ∧ v.x = wx
    · rw [if_pos hcv] at hit
      cases hit
      simp [isAdjSource] at hsrc
    · rw [if_neg hcv] at hit
      exact ⟨it, hit, hsrc⟩
  · refine ⟨d, hw, hc, it2, ?_, hnw⟩
    by_cases hcw : w.y = wy ∧ w.x = wx
    · rw [if_pos hcw] at hit2
      cases hit2
      exact absurd rfl hnw
    · rw [if_neg hcw] at hit2
      exact hit2

theorem reaches_addWall {m : Map} {wy wx : Nat}
    (hE : (mapGet m wy wx).isSome = true) {s v : Vertex} {c : Nat}
    (h : Reaches (msetCell m wy wx MapItem.Wall) s v c) : Reaches m s v c := by
  induction h with
  | refl => exact Reaches.refl
  | tail hr he ih => exact Reaches.tail ih (edgeRel_addWall hE he)

theorem isEndCell_addWall {m : Map} {wy wx : Nat}
    (hEmp : mapGet m wy wx = some MapItem.Empty) (v : Vertex) :
    isEndCell (msetCell m wy wx MapItem.Wall) v ↔ isEndCell m v := by
  have hE : (mapGet m wy wx).isSome = true := by simp [hEmp]
  simp only [isEndCell]
  rw [mapGet_addWall hE]
  by_cases hc : v.y = wy ∧ v.x = wx
  · rw [if_pos hc, hc.1, hc.2, hEmp]
    simp
  · rw [if_neg hc]

theorem endCosts_addWall {m : Map} {wy wx : Nat}
    (hEmp : mapGet m wy wx = some MapItem.Empty) {s : Vertex} {c : Nat}
    (h : EndCosts (msetCell m wy wx MapItem.Wall) s c) : EndCosts m s c := by
  have hE : (mapGet m wy wx).isSome = true := by simp [hEmp]
  obtain ⟨v, hend, hr⟩ := h
  exact ⟨v, (isEndCell_addWall hEmp v).1 hend, reaches_addWall hE hr⟩

theorem noReindeer_addWall {m : Map} {wy wx : Nat} (h : NoReindeer m) :
    NoReindeer (msetCell m wy wx MapItem.Wall) := by
  intro row hrow it hit
  simp only [msetCell] at hrow
  by_cases hy : wy < m.length
  · rw [dif_pos hy] at hrow
    by_cases hx : wx < (m.get ⟨wy, hy⟩).length
    · rw [dif_pos hx] at hrow
      rcases mem_set_elim hrow with h1 | h1
      · exact h row h1 it hit
      · subst h1
        rcases mem_set_elim hit with h2 | h2
        · exact h _ (List.get_mem _ _ _) it h2
        · subst h2; rfl
    · rw [dif_neg hx] at hrow
      exact h row hrow it hit
  · rw [dif_neg hy] at hrow
    exact h row hrow it hit

theorem findStartInRow_set_ne {it : MapItem} (hit : it ≠ MapItem.Start) :
    ∀ (row : List MapItem) (x x0 : Nat), row.get? x ≠ some MapItem.Start →
      findStartInRow (row.set x it) x0 = findStartInRow row x0 := by
  intro row
  induction row with
  | nil => intro x x0 _; rfl
  | cons a rest ih =>
    intro x x0 hold
    cases x with
    | zero =>
      rw [List.set_cons_zero]
      simp only [findStartInRow]
      rw [if_neg hit]
      have ha : a ≠ MapItem.Start := by
        intro hc
        exact hold (by rw [hc]; rfl)
      rw [if_neg ha]
    | succ k =>
      rw [List.set_cons_succ]
      simp only [findStartInRow]
      by_cases ha : a = MapItem.Start
      · rw [if_pos ha, if_pos ha]
      · rw [if_neg ha, if_neg ha]
        exact ih k (x0 + 1) (by simpa using hold)

theorem findStartAux_set :
    ∀ (m : Map) (y y0 : Nat) (row row' : List MapItem), m.get? y = some row →
      findStartInRow row' 0 = findStartInRow row 0 →
      findStartAux (m.set y row') y0 = findStartAux m y0 := by
  intro m
  induction m with
  | nil => intro y y0 row row' h _; simp at h
  | cons r rest ih =>
    intro y y0 row row' h heq
    cases y with
    | zero =>
      rw [List.set_cons_zero]
      simp only [List.get?] at h
      cases h
      simp only [findStartAux]
      rw [heq]
    | succ k =>
      rw [List.set_cons_succ]
      simp only [findStartAux]
      cases hfs : findStartInRow r 0 with
      | some x => rfl
      | none => exact ih k (y0 + 1) row row' (by simpa using h) heq

/-- Turning an `Empty` cell into a wall does not move (or remove) the start. -/
theorem find_rudolph_addWall {m : Map} {wy wx : Nat}
    (hEmp : mapGet m wy wx = some MapItem.Empty) :
    find_rudolph (msetCell m wy wx MapItem.Wall) = find_rudolph m := by
  have hb := mapGet_eq_bind m wy wx
  rw [hEmp] at hb
  simp only [msetCell]
  by_cases hy : wy < m.length
  · rw [dif_pos hy]
    by_cases hx : wx < (m.get ⟨wy, hy⟩).length
    · rw [dif_pos hx]
      simp only [find_rudolph]
      rw [findStartAux_set m wy 0 (m.get ⟨wy, hy⟩) _ (List.get?_eq_get hy) ?_]
      refine findStartInRow_set_ne (by simp) _ wx 0 ?_
      have hrg : (m.get ⟨wy, hy⟩).get? wx = some MapItem.Empty := by
        rw [List.get?_eq_get hy] at hb
        simpa using hb.symm
      rw [hrg]
      simp
    · rw [dif_neg hx]
  · rw [dif_neg hy]

/-- Ordering on search results: adding a wall can only increase the optimal
cost or make the end unreachable. -/
def resLE : DResult → DResult → Prop
  | .found c, .found c2 => c ≤ c2
  | .found _, .noPath => True
  | .noPath, .noPath => True
  | _, _ => False

theorem addWall_mono {m : Map} {wy wx : Nat} {r : Reindeer}
    (hnr : NoReindeer m) (hA : (genAdjacencies m).isSome = true)
    (hr : find_rudolph m = some r)
    (hEmp : mapGet m wy wx = some MapItem.Empty)
    (hsmall : ∀ c, EndCosts (msetCell m wy wx MapItem.Wall) ⟨r.x, r.y, r.direction⟩ c →
      (∀ c2, EndCosts (msetCell m wy wx MapItem.Wall) ⟨r.x, r.y, r.direction⟩ c2 → c ≤ c2) →
      c + 2002 < USIZE) :
    resLE (find_optimal_path_using_dijkstra m)
      (find_optimal_path_using_dijkstra (msetCell m wy wx MapItem.Wall)) := by
  have hE : (mapGet m wy wx).isSome = true := by simp [hEmp]
  have hr' : find_rudolph (msetCell m wy wx MapItem.Wall) = some r := by
    rw [find_rudolph_addWall hEmp, hr]
  have hA' := gen_addWall_isSome hE hA
  have hnr' := @noReindeer_addWall m wy wx hnr
  obtain ⟨hstart, _⟩ := find_rudolph_spec hr
  have hs : vertexMatched m (⟨r.x, r.y, r.direction⟩ : Vertex) = true := by
    simp only [vertexMatched, hstart]
    rfl
  have hne : ¬ (r.y = wy ∧ r.x = wx) := by
    rintro ⟨h1, h2⟩
    rw [h1, h2, hEmp] at hstart
    cases hstart
  have hs' : vertexMatched (msetCell m wy wx MapItem.Wall) (⟨r.x, r.y, r.direction⟩ : Vertex) = true := by
    simp only [vertexMatched]
    rw [mapGet_addWall hE]
    simp only [if_neg hne, hstart]
    rfl
  simp only [find_optimal_path_using_dijkstra, hr, hr']
  by_cases hex : ∃ c, EndCosts (msetCell m wy wx MapItem.Wall) ⟨r.x, r.y, r.direction⟩ c
  · haveI : DecidablePred (EndCosts (msetCell m wy wx MapItem.Wall) ⟨r.x, r.y, r.direction⟩) :=
      Classical.decPred _
    have hmem' := Nat.find_spec hex
    have hlb' : ∀ c2, EndCosts (msetCell m wy wx MapItem.Wall) ⟨r.x, r.y, r.direction⟩ c2 →
        Nat.find hex ≤ c2 := fun c2 h2 => Nat.find_min' hex h2
    have hsm' := hsmall _ hmem' hlb'
    have hres' := dijkstra_core_found hA' hnr' hs' hmem' hlb' hsm'
    have hex2 : ∃ c, EndCosts m ⟨r.x, r.y, r.direction⟩ c :=
      ⟨Nat.find hex, endCosts_addWall hEmp hmem'⟩
    haveI : DecidablePred (EndCosts m ⟨r.x, r.y, r.direction⟩) := Classical.decPred _
    have hmem := Nat.find_spec hex2
    have hlb : ∀ c2, EndCosts m ⟨r.x, r.y, r.direction⟩ c2 → Nat.find hex2 ≤ c2 :=
      fun c2 h2 => Nat.find_min' hex2 h2
    have hle : Nat.find hex2 ≤ Nat.find hex :=
      hlb _ (endCosts_addWall hEmp hmem')
    have hres := dijkstra_core_found hA hnr hs hmem hlb (by omega)
    rw [hres, hres']
    exact hle
  · have hnone' : ¬ ∃ v c, isEndCell (msetCell m wy wx MapItem.Wall) v ∧
        Reaches (msetCell m wy wx MapItem.Wall) ⟨r.x, r.y, r.direction⟩ v c := by
      rintro ⟨v, c, h1, h2⟩
      exact hex ⟨c, v, h1, h2⟩
    have hres' := dijkstra_core_noPath hA' hnr' hs' hnone'
    rw [hres']
    obtain ⟨hp, hfo, _⟩ := dijkstra_core_spec hA hnr hs
    cases hres : dijkstra_core m ⟨r.x, r.y, r.direction⟩ with
    | found c => trivial
    | noPath => trivial
    | panic => exact absurd hres hp
    | fuelOut => exact absurd hres hfo

/-! ## Wall-bordered grids: the adjacency builder stays in bounds (claim C5) -/

theorem wrapIdx_natCast {n : Nat} (h : n < USIZE) : wrapIdx (n : Int) = n := by
  simp only [wrapIdx]
  rw [Int.emod_eq_of_lt (by positivity) (by exact_mod_cast h)]
  simp

theorem mapGet_isSome_of_bounds {m : Map} {w y x : Nat}
    (hw : ∀ row ∈ m, row.length = w) (hy : y < m.length) (hx : x < w) :
    (mapGet m y x).isSome = true := by
  simp only [mapGet]
  rw [dif_pos hy]
  have hrow : (m.get ⟨y, hy⟩).length = w := hw _ (m.get_mem _ _)
  rw [dif_pos (by omega)]
  rfl

/-- A rectangular grid of usize-sized dimensions whose whole border consists
of walls. -/
def wallBordered (m : Map) (w : Nat) : Prop :=
  m.length ≤ USIZE ∧ w ≤ USIZE ∧ (∀ row ∈ m, row.length = w) ∧
  (∀ x < w, (mapGet m 0 x).getD MapItem.Wall = MapItem.Wall) ∧
  (∀ x < w, (mapGet m (m.length - 1) x).getD MapItem.Wall = MapItem.Wall) ∧
  (∀ y < m.length, (mapGet m y 0).getD MapItem.Wall = MapItem.Wall) ∧
  (∀ y < m.length, (mapGet m y (w - 1)).getD MapItem.Wall = MapItem.Wall)

instance (m : Map) (w : Nat) : Decidable (wallBordered m w) := by
  unfold wallBordered
  infer_instance

/-- On a wall-bordered grid every source cell of the adjacency builder is
interior, so all four wrapped neighbour accesses are in bounds and the
builder succeeds (never indexes outside the grid). -/
theorem gen_isSome_of_wallBordered {m : Map} {w : Nat} (hb : wallBordered m w) :
    (genAdjacencies m).isSome = true := by
  obtain ⟨hmu, hwu, hw, hb0, hbl, hbw0, hbwl⟩ := hb
  rw [gen_isSome_iff]
  intro v hv d
  simp only [vertexMatched] at hv
  cases hg : mapGet m v.y v.x with
  | none => rw [hg] at hv; simp at hv
  | some it =>
    rw [hg] at hv
    have hnw : it ≠ MapItem.Wall := by
      cases it <;> simp_all [isAdjSource]
    have hy : v.y < m.length := by
      by_contra hc
      have : mapGet m v.y v.x = none := by
        simp only [mapGet]
        rw [dif_neg hc]
      rw [this] at hg
      cases hg
    have hx : v.x < w := by
      by_contra hc
      have hxr : ¬ v.x < (m.get ⟨v.y, hy⟩).length := by
        rw [hw _ (m.get_mem _ _)]
        exact hc
      have : mapGet m v.y v.x = none := by
        simp only [mapGet]
        rw [dif_pos hy, dif_neg hxr]
      rw [this] at hg
      cases hg
    have hy0 : v.y ≠ 0 := by
      intro hc
      have := hb0 v.x hx
      rw [← hc, hg] at this
      exact hnw (by simpa using this)
    have hyl : v.y ≠ m.length - 1 := by
      intro hc
      have := hbl v.x hx
      rw [← hc, hg] at this
      exact hnw (by simpa using this)
    have hx0 : v.x ≠ 0 := by
      intro hc
      have := hbw0 v.y hy
      rw [← hc, hg] at this
      exact hnw (by simpa using this)
    have hxl : v.x ≠ w - 1 := by
      intro hc
      have := hbwl v.y hy
      rw [← hc, hg] at this
      exact hnw (by simpa using this)
    have hyb : 1 ≤ v.y ∧ v.y + 1 < m.length := by omega
    have hxb : 1 ≤ v.x ∧ v.x + 1 < w := by omega
    cases d with
    | Up =>
      simp only [targetOf, Direction.dx_dy]
      have h1 : ((v.x : Int) + 0) = ((v.x : Nat) : Int) := by omega
      have h2 : ((v.y : Int) + (-1)) = (((v.y - 1 : Nat)) : Int) := by omega
      rw [h1, h2, wrapIdx_natCast (by omega), wrapIdx_natCast (by omega)]
      exact mapGet_isSome_of_bounds hw (by omega) (by omega)
    | Down =>
      simp only [targetOf, Direction.dx_dy]
      have h1 : ((v.x : Int) + 0) = ((v.x : Nat) : Int) := by omega
      have h2 : ((v.y : Int) + 1) = (((v.y + 1 : Nat)) : Int) := by omega
      rw [h1, h2, wrapIdx_natCast (by omega), wrapIdx_natCast (by omega)]
      exact mapGet_isSome_of_bounds hw (by omega) (by omega)
    | Left =>
      simp only [targetOf, Direction.dx_dy]
      have h1 : ((v.x : Int) + (-1)) = (((v.x - 1 : Nat)) : Int) := by omega
      have h2 : ((v.y : Int) + 0) = ((v.y : Nat) : Int) := by omega
      rw [h1, h2, wrapIdx_natCast (by omega), wrapIdx_natCast (by omega)]
      exact mapGet_isSome_of_bounds hw (by omega) (by omega)
    | Right =>
      simp only [targetOf, Direction.dx_dy]
      have h1 : ((v.x : Int) + 1) = (((v.x + 1 : Nat)) : Int) := by omega
      have h2 : ((v.y : Int) + 0) = ((v.y : Nat) : Int) := by omega
      rw [h1, h2, wrapIdx_natCast (by omega), wrapIdx_natCast (by omega)]
      exact mapGet_isSome_of_bounds hw (by omega) (by omega)

/-! ## Auxiliary facts for the d18 result shape (claim C10) -/

theorem solve_maze_ne_panic {m : AMap} (hsq : Square m) :
    solve_maze_using_astar m ≠ .panic := by
  simp only [solve_maze_using_astar]
  exact (aloop_master hsq (astar_initial_AInv m)).1

theorem openPath_closure {m : AMap} (hsq : Square m) (L : List Position)
    (hs : (⟨0, 0⟩ : Position) ∈ L)
    (hcl : ∀ p ∈ L, ∀ q ∈ (find_neighbors m p).getD [], q ∈ L) :
    ∀ {p : Position}, OpenPath m p → p ∈ L := by
  intro p h
  induction h with
  | start => exact hs
  | @step p0 q0 hp hadj ih =>
    obtain ⟨l, hl⟩ := Option.isSome_iff_exists.1 (find_neighbors_isSome hsq p0)
    have hq : q0 ∈ l := (find_neighbors_mem hl q0).2 hadj
    refine hcl p0 ih q0 ?_
    rw [hl]
    exact hq

theorem wrapSub_one {a : Nat} (h : a < USIZE) :
    wrapSub a 1 = if a = 0 then usizeMAX else a - 1 := by
  simp only [wrapSub]
  by_cases h0 : a = 0
  · subst h0
    rw [if_pos rfl]
    simp only [Nat.zero_add, usizeMAX]
    exact Nat.mod_eq_of_lt (by have := USIZE_pos; omega)
  · rw [if_neg h0]
    have harith : a + USIZE - 1 = (a - 1) + USIZE := by omega
    rw [harith, Nat.add_mod_right]
    exact Nat.mod_eq_of_lt (by omega)

/-! ## Concrete grids -/

def gSimple : Map :=
  [[.Wall, .Wall, .Wall, .Wall, .Wall],
   [.Wall, .Start, .Empty, .End, .Wall],
   [.Wall, .Wall, .Wall, .Wall, .Wall]]

def gBlocked : Map :=
  [[.Wall, .Wall, .Wall, .Wall, .Wall],
   [.Wall, .Start, .Wall, .End, .Wall],
   [.Wall, .Wall, .Wall, .Wall, .Wall]]

/-- The grid on which the memoized DFS and the Dijkstra search disagree. -/
def gCex : Map :=
  [[.Wall, .Wall, .Wall, .Wall, .Wall],
   [.Wall, .Wall, .Empty, .End, .Wall],
   [.Wall, .Empty, .Empty, .Wall, .Wall],
   [.Wall, .Empty, .Empty, .Wall, .Wall],
   [.Wall, .Start, .Empty, .Wall, .Wall],
   [.Wall, .Wall, .Wall, .Wall, .Wall]]

/-- A one-row grid whose start cell sits on the border: the unguarded
`(x as isize + dx) as usize` neighbour computation indexes out of bounds. -/
def gRow : Map := [[.Start, .Wall, .End]]

def gOne : Map := [[.Start]]

/-- Grid for the wall-addition scenario: two routes from `S` to `E`. -/
def gW : Map :=
  [[.Wall, .Wall, .Wall, .Wall, .Wall],
   [.Wall, .Start, .Empty, .End, .Wall],
   [.Wall, .Empty, .Empty, .Empty, .Wall],
   [.Wall, .Wall, .Wall, .Wall, .Wall]]

def aOpen : AMap := [[.Open, .Open], [.Open, .Open]]

def aBlocked : AMap := [[.Open, .Corrupted], [.Corrupted, .Corrupted]]

/-! ## Decidability instances and concrete search states for the claim witnesses -/

instance : Fintype Direction :=
  ⟨⟨{Direction.Up, Direction.Down, Direction.Left, Direction.Right}, by decide⟩,
    fun x => by cases x <;> decide⟩

instance (m : AMap) : Decidable (Square m) := by
  unfold Square
  infer_instance

instance (m : Map) (v : Vertex) : Decidable (isEndCell m v) := by
  unfold isEndCell
  infer_instance

def vStart : Vertex := ⟨1, 1, .Right⟩

def gA : List (Vertex × List Edge) := (genAdjacencies gSimple).getD []

def dist0 : DistMap := dupdate (initDist (keysOf gA)) vStart 0

def pq0 : List SState := [⟨vStart, 0⟩]

def pqNext : List SState := [⟨⟨2, 1, .Right⟩, 1⟩]

def distNext : DistMap := dupdate dist0 ⟨2, 1, .Right⟩ 1

/-- A potential function certifying the cost lower bound 2 on `gSimple`. -/
def lbSimple : Vertex → Nat := fun v =>
  if v.x = 3 ∧ v.y = 1 then 2 else if v.x = 2 ∧ v.y = 1 then 1 else 0

/-- The inner direction loop of the adjacency builder, in closed form: one
edge per non-wall neighbour, with cost `edgeCost` (assuming all four
neighbour accesses are in bounds). -/
theorem edgesForCellAux_eq (m : Map) (x y : Nat) (cur : Direction) :
    ∀ dirs : List Direction,
    (∀ d ∈ dirs, (mapGet m (targetOf ⟨x, y, cur⟩ d).y (targetOf ⟨x, y, cur⟩ d).x).isSome = true) →
    edgesForCellAux m x y cur dirs = some
      ((dirs.filter (fun d =>
          decide (mapGet m (targetOf ⟨x, y, cur⟩ d).y (targetOf ⟨x, y, cur⟩ d).x ≠
            some MapItem.Wall))).map
        (fun d => ⟨targetOf ⟨x, y, cur⟩ d, edgeCost cur d⟩)) := by
  intro dirs
  induction dirs with
  | nil => intro _; rfl
  | cons md rest ih =>
    intro h
    obtain ⟨it, hit⟩ := Option.isSome_iff_exists.1 (h md (List.mem_cons_self _ _))
    simp only [edgesForCellAux]
    rw [hit]
    dsimp only
    by_cases hw : it = MapItem.Wall
    · subst hw
      rw [if_pos rfl]
      rw [ih (fun d hd => h d (List.mem_cons_of_mem _ hd))]
      simp [List.filter_cons, hit]
    · rw [if_neg hw]
      rw [ih (fun d hd => h d (List.mem_cons_of_mem _ hd))]
      simp [List.filter_cons, hit, hw]

/-! ## The claims -/

/-- C1: on a grid whose start cell exists, whose adjacency builder succeeds
(all neighbour accesses in bounds), whose cells are only `# . S E`, and whose
least start-to-end cost is below `usize` overflow, the Dijkstra search returns
`Some c` with `c` the minimum cost from the start vertex (start cell, facing
east) to any vertex on the end cell. As stated in the spec the claim is false:
a grid whose end is unreachable returns `None` (see the counterexample), and a
non-wall cell on the grid border makes the builder panic instead. -/
theorem claim_C1 {m : Map} {r : Reindeer} {mval : Nat}
    (hr : find_rudolph m = some r) (hA : (genAdjacencies m).isSome = true)
    (hnr : NoReindeer m)
    (hmem : EndCosts m ⟨r.x, r.y, r.direction⟩ mval)
    (hlb : ∀ c, EndCosts m ⟨r.x, r.y, r.direction⟩ c → mval ≤ c)
    (hsmall : mval + 2002 < USIZE) :
    find_optimal_path_using_dijkstra m = DResult.found mval := by
  obtain ⟨hstart, _⟩ := find_rudolph_spec hr
  have hs : vertexMatched m (⟨r.x, r.y, r.direction⟩ : Vertex) = true := by
    simp only [vertexMatched]
    rw [hstart]
    rfl
  simp only [find_optimal_path_using_dijkstra, hr]
  exact dijkstra_core_found hA hnr hs hmem hlb hsmall

/-- C1, counterexample to the unconditional claim: `gBlocked` has a start and
an end cell, yet the search returns `noPath`, not `Some c`. -/
theorem claim_C1_counterexample :
    mapGet gBlocked 1 1 = some MapItem.Start ∧ mapGet gBlocked 1 3 = some MapItem.End ∧
    (∀ c : Nat, find_optimal_path_using_dijkstra gBlocked ≠ DResult.found c) := by
  refine ⟨by decide, by decide, fun c h => ?_⟩
  have h2 : find_optimal_path_using_dijkstra gBlocked = DResult.noPath := by decide
  rw [h2] at h
  exact DResult.noConfusion h

/-- C1, witness: on `gSimple` the hypotheses hold and the search returns the
optimal cost 2. -/
theorem claim_C1_witness : find_optimal_path_using_dijkstra gSimple = DResult.found 2 := by
  refine @claim_C1 gSimple ⟨1, 1, .Right⟩ 2 (by decide) (by decide) (by decide) ?_ ?_ (by decide)
  · refine ⟨⟨3, 1, .Right⟩, by decide, ?_⟩
    have h1 : EdgeRel gSimple ⟨1, 1, .Right⟩ ⟨2, 1, .Right⟩ 1 :=
      (edgeRel_iff_edgeExists _ _ _ _).2 ⟨.Right, by decide, by decide, by decide⟩
    have h2 : EdgeRel gSimple ⟨2, 1, .Right⟩ ⟨3, 1, .Right⟩ 1 :=
      (edgeRel_iff_edgeExists _ _ _ _).2 ⟨.Right, by decide, by decide, by decide⟩
    exact Reaches.tail (Reaches.tail Reaches.refl h1) h2
  · exact endCosts_lb lbSimple (by decide) (by decide) (by decide)

/-- C2: the spec says the memoized DFS must produce the same minimum cost as
the Dijkstra search on every input. It does not: on `gCex` Dijkstra returns
the true minimum 2005 (a path of that cost exists, third conjunct) while the
DFS returns 4005 — its memo key (position, incoming direction, outgoing
direction) ignores the path-dependent `Reindeer` marks left on the map, so a
cached value from a poisoned exploration is reused. -/
theorem claim_C2 :
    find_optimal_path_using_dijkstra gCex = DResult.found 2005 ∧
    find_optimal_path_dfs gCex = some (some 4005) ∧
    EndCosts gCex ⟨1, 4, .Right⟩ 2005 ∧
    (2005 : Nat) ≠ 4005 := by
  refine ⟨by decide, by decide, ⟨⟨3, 1, .Right⟩, by decide, ?_⟩, by decide⟩
  have h1 : EdgeRel gCex ⟨1, 4, .Right⟩ ⟨2, 4, .Right⟩ 1 :=
    (edgeRel_iff_edgeExists _ _ _ _).2 ⟨.Right, by decide, by decide, by decide⟩
  have h2 : EdgeRel gCex ⟨2, 4, .Right⟩ ⟨2, 3, .Up⟩ 1001 :=
    (edgeRel_iff_edgeExists _ _ _ _).2 ⟨.Up, by decide, by decide, by decide⟩
  have h3 : EdgeRel gCex ⟨2, 3, .Up⟩ ⟨2, 2, .Up⟩ 1 :=
    (edgeRel_iff_edgeExists _ _ _ _).2 ⟨.Up, by decide, by decide, by decide⟩
  have h4 : EdgeRel gCex ⟨2, 2, .Up⟩ ⟨2, 1, .Up⟩ 1 :=
    (edgeRel_iff_edgeExists _ _ _ _).2 ⟨.Up, by decide, by decide, by decide⟩
  have h5 : EdgeRel gCex ⟨2, 1, .Up⟩ ⟨3, 1, .Right⟩ 1001 :=
    (edgeRel_iff_edgeExists _ _ _ _).2 ⟨.Right, by decide, by decide, by decide⟩
  exact Reaches.tail (Reaches.tail (Reaches.tail (Reaches.tail (Reaches.tail
    Reaches.refl h1) h2) h3) h4) h5

/-- C3: under the domain conditions of C1 (builder succeeds, no reindeer
items, start exists, least end-cost below overflow) the d16 search returns
the explicit `noPath` outcome exactly when no end-cell vertex is reachable,
never fails, and every returned cost is distinct from the `usize::MAX`
sentinel; the d18 search on a square map likewise returns `noPath` exactly
when the goal is unreachable and never fails. As stated the claim is false:
an unreachable grid can panic instead (see the counterexample). -/
theorem claim_C3 {m : Map} {r : Reindeer} {m2 : AMap}
    (hr : find_rudolph m = some r) (hA : (genAdjacencies m).isSome = true)
    (hnr : NoReindeer m)
    (hsmall : ∀ c, EndCosts m ⟨r.x, r.y, r.direction⟩ c →
      (∀ c2, EndCosts m ⟨r.x, r.y, r.direction⟩ c2 → c ≤ c2) → c + 2002 < USIZE)
    (hsq : Square m2) :
    (find_optimal_path_using_dijkstra m = DResult.noPath ↔
      ¬ ∃ v c, isEndCell m v ∧ Reaches m ⟨r.x, r.y, r.direction⟩ v c) ∧
    find_optimal_path_using_dijkstra m ≠ DResult.panic ∧
    find_optimal_path_using_dijkstra m ≠ DResult.fuelOut ∧
    (∀ c, find_optimal_path_using_dijkstra m = DResult.found c → c < usizeMAX) ∧
    (solve_maze_using_astar m2 = AResult.noPath ↔ ¬ OpenPath m2 (goalPos m2)) ∧
    solve_maze_using_astar m2 ≠ AResult.panic ∧
    solve_maze_using_astar m2 ≠ AResult.fuelOut := by
  obtain ⟨hstart, _⟩ := find_rudolph_spec hr
  have hs : vertexMatched m (⟨r.x, r.y, r.direction⟩ : Vertex) = true := by
    simp only [vertexMatched]
    rw [hstart]
    rfl
  obtain ⟨hp, hfo, hfound⟩ := dijkstra_core_spec hA hnr hs
  simp only [find_optimal_path_using_dijkstra, hr]
  refine ⟨⟨?_, ?_⟩, hp, hfo, fun c hc => (hfound c hc).2,
    solve_maze_noPath_iff hsq, solve_maze_ne_panic hsq, solve_maze_ne_fuelOut m2⟩
  · intro hnp
    rintro ⟨v, c, hend, hre⟩
    have hex : ∃ c2, EndCosts m ⟨r.x, r.y, r.direction⟩ c2 := ⟨c, v, hend, hre⟩
    haveI : DecidablePred (EndCosts m ⟨r.x, r.y, r.direction⟩) := Classical.decPred _
    have hmem := Nat.find_spec hex
    have hlb : ∀ c2, EndCosts m ⟨r.x, r.y, r.direction⟩ c2 → Nat.find hex ≤ c2 :=
      fun c2 h2 => Nat.find_min' hex h2
    have hres := dijkstra_core_found hA hnr hs hmem hlb (hsmall _ hmem hlb)
    rw [hres] at hnp
    exact DResult.noConfusion hnp
  · intro hno
    exact dijkstra_core_noPath hA hnr hs hno

/-- C3, counterexample to the unconditional claim: on the one-row grid
`gRow = [S # E]` no end vertex is reachable from the start, yet the search
panics (unguarded out-of-bounds neighbour access) instead of returning the
`noPath` outcome. -/
theorem claim_C3_counterexample :
    find_optimal_path_using_dijkstra gRow = DResult.panic ∧
    ¬ ∃ v c, isEndCell gRow v ∧ Reaches gRow ⟨0, 0, .Right⟩ v c := by
  refine ⟨by decide, ?_⟩
  rintro ⟨v, c, hend, hre⟩
  have hv := reaches_closure [⟨0, 0, .Right⟩] (by decide) (by decide) hre
  have hveq : v = ⟨0, 0, .Right⟩ := by simpa using hv
  rw [hveq] at hend
  exact absurd hend (by decide)

/-- C3, witness: `gBlocked` (d16) and `aBlocked` (d18) are unreachable and
both searches report `noPath`. -/
theorem claim_C3_witness :
    find_optimal_path_using_dijkstra gBlocked = DResult.noPath ∧
    solve_maze_using_astar aBlocked = AResult.noPath := by
  have hunreach : ¬ ∃ v c, isEndCell gBlocked v ∧ Reaches gBlocked ⟨1, 1, .Right⟩ v c := by
    rintro ⟨v, c, hend, hre⟩
    have hv := reaches_closure [⟨1, 1, .Right⟩] (by decide) (by decide) hre
    have hveq : v = ⟨1, 1, .Right⟩ := by simpa using hv
    rw [hveq] at hend
    exact absurd hend (by decide)
  have hmain := @claim_C3 gBlocked ⟨1, 1, .Right⟩ aBlocked (by decide) (by decide) (by decide)
    (fun c hmem _ => absurd (match hmem with | ⟨v, hh1, hh2⟩ => ⟨v, c, hh1, hh2⟩) hunreach)
    (by decide)
  refine ⟨hmain.1.mpr hunreach, hmain.2.2.2.2.1.mpr ?_⟩
  intro hop
  exact absurd (openPath_closure (by decide) [⟨0, 0⟩] (by decide) (by decide) hop) (by decide)

/-- C4: `turns_to_face` returns 0 on equal directions, 2 on opposite ones and
1 otherwise; the edge cost is `1 + 1000 * turns_to_face`; and for a cell whose
four neighbour accesses are in bounds the generator produces exactly one edge
per non-wall neighbour, to (destination, move direction) at that cost, and no
edge for a wall neighbour. -/
theorem claim_C4 :
    (∀ a : Direction, a.turns_to_face a = 0) ∧
    (∀ a : Direction, a.turns_to_face a.opposite_direction = 2) ∧
    (∀ a b : Direction, a ≠ b → a.opposite_direction ≠ b → a.turns_to_face b = 1) ∧
    (∀ f d : Direction, edgeCost f d = 1 + 1000 * f.turns_to_face d) ∧
    (∀ (m : Map) (x y : Nat) (cur : Direction),
      (∀ d : Direction,
        (mapGet m (targetOf ⟨x, y, cur⟩ d).y (targetOf ⟨x, y, cur⟩ d).x).isSome = true) →
      edgesForCell m x y cur = some ((DIRECTIONS.filter (fun d =>
          decide (mapGet m (targetOf ⟨x, y, cur⟩ d).y (targetOf ⟨x, y, cur⟩ d).x ≠
            some MapItem.Wall))).map
        (fun d => ⟨targetOf ⟨x, y, cur⟩ d, edgeCost cur d⟩))) := by
  refine ⟨by decide, by decide, by decide, by decide, ?_⟩
  intro m x y cur h
  exact edgesForCellAux_eq m x y cur DIRECTIONS (fun d _ => h d)

/-- C4, witness: a perpendicular pair costs one turn, and the start cell of
`gSimple` facing east generates exactly one edge, to the open cell on its
right, at cost 1. -/
theorem claim_C4_witness :
    Direction.turns_to_face .Up .Left = 1 ∧
    edgesForCell gSimple 1 1 .Right = some [⟨⟨2, 1, .Right⟩, 1⟩] := by
  refine ⟨claim_C4.2.2.1 .Up .Left (by decide) (by decide), ?_⟩
  rw [claim_C4.2.2.2.2 gSimple 1 1 .Right (by decide)]
  decide

/-- C5: the spec demands that every grid access during edge generation be
guarded. The d18 `find_neighbors` is guarded (it always succeeds on a square
map and every produced neighbour is in bounds), and on a wall-bordered
rectangular grid the d16 builder stays in bounds; but the d16 builder as
written is NOT guarded — a non-wall cell on the border panics (see the
counterexample), so the claim as stated is false. -/
theorem claim_C5 :
    (∀ (m : Map) (w : Nat), wallBordered m w → (genAdjacencies m).isSome = true) ∧
    (∀ m2 : AMap, Square m2 → ∀ p : Position,
      (find_neighbors m2 p).isSome = true ∧
      ∀ l, find_neighbors m2 p = some l → ∀ q ∈ l, q.x < m2.length ∧ q.y < m2.length) := by
  refine ⟨fun m w hb => gen_isSome_of_wallBordered hb,
    fun m2 hsq p => ⟨find_neighbors_isSome hsq p, ?_⟩⟩
  intro l hl q hq
  obtain ⟨dd, _, _, _, hb, _⟩ := (find_neighbors_mem hl q).1 hq
  push_neg at hb
  omega

/-- C5, counterexample to the unconditional claim: the 1×1 grid `[[S]]` is
rectangular and its only cell is non-wall, yet the adjacency builder's
neighbour computation indexes out of bounds (modelled `none`) and the search
panics. -/
theorem claim_C5_counterexample :
    genAdjacencies gOne = none ∧ find_optimal_path_using_dijkstra gOne = DResult.panic :=
  ⟨by decide, by decide⟩

/-- C5, witness: `gSimple` is wall-bordered of width 5 so its builder
succeeds; on the square map `aOpen` the neighbour (0,1) of the corner is in
bounds. -/
theorem claim_C5_witness :
    (genAdjacencies gSimple).isSome = true ∧
    ((⟨0, 1⟩ : Position).x < aOpen.length ∧ (⟨0, 1⟩ : Position).y < aOpen.length) :=
  ⟨claim_C5.1 gSimple 5 (by decide),
    (claim_C5.2 aOpen (by decide) ⟨0, 0⟩).2 [⟨0, 1⟩, ⟨1, 0⟩] (by decide) ⟨0, 1⟩ (by decide)⟩

/-- C6: the Dijkstra search always terminates within its fuel — which is
possible because every entry pushed into the frontier either was already
there or strictly lowers the recorded distance of its vertex, so the number
of pushes is bounded. -/
theorem claim_C6 :
    (∀ m : Map, find_optimal_path_using_dijkstra m ≠ DResult.fuelOut) ∧
    (∀ (m : Map) (A : List (Vertex × List Edge)) (pq : List SState) (dist : DistMap)
      (pq2 : List SState) (dist2 : DistMap),
      dstep m A pq dist = DStepOut.next pq2 dist2 →
      ∀ st ∈ pq2, st ∈ pq ∨ ∃ d, dist st.position = some d ∧ st.cost < d) :=
  ⟨find_optimal_ne_fuelOut, fun _ _ _ _ _ _ h => dstep_push_lower h⟩

/-- C6, witness: on `gSimple` the search terminates, and the one entry pushed
by the first iteration strictly lowers the recorded distance of its vertex
(from the `usize::MAX` sentinel to 1). -/
theorem claim_C6_witness :
    find_optimal_path_using_dijkstra gSimple ≠ DResult.fuelOut ∧
    ((⟨⟨2, 1, .Right⟩, 1⟩ : SState) ∈ pq0 ∨
      ∃ d, dist0 (⟨⟨2, 1, .Right⟩, 1⟩ : SState).position = some d ∧
        (⟨⟨2, 1, .Right⟩, 1⟩ : SState).cost < d) :=
  ⟨claim_C6.1 gSimple,
    claim_C6.2 gSimple gA pq0 dist0 pqNext distNext (by rfl) ⟨⟨2, 1, .Right⟩, 1⟩ (by decide)⟩

/-- C7: the distance map starts at the `usize::MAX` sentinel on every vertex
except the source (which starts at 0); one search step only ever lowers an
entry, never raises one; and a popped entry that is stale (cost above the
recorded distance) on a non-end cell is discarded without touching the
distance map or expanding edges. -/
theorem claim_C7 :
    (∀ (keys : List Vertex) (s v : Vertex), v ∈ keys → v ≠ s →
      dupdate (initDist keys) s 0 v = some usizeMAX) ∧
    (∀ (keys : List Vertex) (s : Vertex), dupdate (initDist keys) s 0 s = some 0) ∧
    (∀ (m : Map) (A : List (Vertex × List Edge)) (pq : List SState) (dist : DistMap)
      (pq2 : List SState) (dist2 : DistMap), dstep m A pq dist = DStepOut.next pq2 dist2 →
      ∀ v, dist2 v = dist v ∨ ∃ d0 d2, dist v = some d0 ∧ dist2 v = some d2 ∧ d2 < d0) ∧
    (∀ (m : Map) (A : List (Vertex × List Edge)) (pq pq1 : List SState) (dist : DistMap)
      (st : SState) (it : MapItem) (d : Nat),
      popMin pq = some (st, pq1) → mapGet m st.position.y st.position.x = some it →
      it ≠ MapItem.End → dist st.position = some d → d < st.cost →
      dstep m A pq dist = DStepOut.next pq1 dist) := by
  refine ⟨?_, ?_, ?_, ?_⟩
  · intro keys s v hmem hne
    rw [dupdate_other _ _ _ _ hne, initDist_spec, if_pos hmem]
  · intro keys s
    rw [dupdate_same]
  · intro m A pq dist pq2 dist2 h
    exact dstep_dist_mono h
  · intro m A pq pq1 dist st it d h1 h2 h3 h4 h5
    exact dstep_stale_discard h1 h2 h3 h4 h5

/-- C7, witness: on a concrete two-vertex key list the non-source entry is
initialised to `usize::MAX` and the source to 0; the first step on `gSimple`
only lowers the distance of the relaxed vertex; and a stale entry for the
source (cost 5 against recorded 0) is discarded, leaving the distance map
untouched. -/
theorem claim_C7_witness :
    dupdate (initDist [⟨1, 1, .Right⟩, ⟨2, 1, .Right⟩]) ⟨1, 1, .Right⟩ 0 ⟨2, 1, .Right⟩ =
      some usizeMAX ∧
    dupdate (initDist [⟨1, 1, .Right⟩, ⟨2, 1, .Right⟩]) ⟨1, 1, .Right⟩ 0 ⟨1, 1, .Right⟩ =
      some 0 ∧
    (distNext vStart = dist0 vStart ∨
      ∃ d0 d2, dist0 vStart = some d0 ∧ distNext vStart = some d2 ∧ d2 < d0) ∧
    dstep gSimple gA [⟨vStart, 5⟩] dist0 = DStepOut.next [] dist0 :=
  ⟨claim_C7.1 [⟨1, 1, .Right⟩, ⟨2, 1, .Right⟩] ⟨1, 1, .Right⟩ ⟨2, 1, .Right⟩
      (by decide) (by decide),
    claim_C7.2.1 [⟨1, 1, .Right⟩, ⟨2, 1, .Right⟩] ⟨1, 1, .Right⟩,
    claim_C7.2.2.1 gSimple gA pq0 dist0 pqNext distNext (by rfl) vStart,
    claim_C7.2.2.2 gSimple gA [⟨vStart, 5⟩] [] dist0 ⟨vStart, 5⟩ MapItem.Start 0
      (by decide) (by decide) (by decide) (by decide) (by decide)⟩

/-- C8: turning an open (`Empty`) cell of a well-formed grid into a wall
never decreases the returned minimum cost: the result on the modified grid is
a cost greater than or equal to the original one, or the `noPath` outcome.
(The domain conditions of C1 on the original grid, and smallness of the
modified grid's least end-cost, keep both searches in the cost/`noPath`
regime.) -/
theorem claim_C8 {m : Map} {wy wx : Nat} {r : Reindeer}
    (hnr : NoReindeer m) (hA : (genAdjacencies m).isSome = true)
    (hr : find_rudolph m = some r)
    (hEmp : mapGet m wy wx = some MapItem.Empty)
    (hsmall : ∀ c, EndCosts (msetCell m wy wx MapItem.Wall) ⟨r.x, r.y, r.direction⟩ c →
      (∀ c2, EndCosts (msetCell m wy wx MapItem.Wall) ⟨r.x, r.y, r.direction⟩ c2 → c ≤ c2) →
      c + 2002 < USIZE) :
    resLE (find_optimal_path_using_dijkstra m)
      (find_optimal_path_using_dijkstra (msetCell m wy wx MapItem.Wall)) :=
  addWall_mono hnr hA hr hEmp hsmall

/-- C8, witness: walling the open cell between `S` and `E` of `gW` forces the
detour (the original cost 2 only grows — in fact to 3004). -/
theorem claim_C8_witness :
    resLE (find_optimal_path_using_dijkstra gW)
      (find_optimal_path_using_dijkstra (msetCell gW 1 2 MapItem.Wall)) := by
  refine @claim_C8 gW 1 2 ⟨1, 1, .Right⟩ (by decide) (by decide) (by decide) (by decide) ?_
  intro c _ hlb
  have h3004 : EndCosts (msetCell gW 1 2 MapItem.Wall) ⟨1, 1, .Right⟩ 3004 := by
    refine ⟨⟨3, 1, .Up⟩, by decide, ?_⟩
    have h1 : EdgeRel (msetCell gW 1 2 MapItem.Wall) ⟨1, 1, .Right⟩ ⟨1, 2, .Down⟩ 1001 :=
      (edgeRel_iff_edgeExists _ _ _ _).2 ⟨.Down, by decide, by decide, by decide⟩
    have h2 : EdgeRel (msetCell gW 1 2 MapItem.Wall) ⟨1, 2, .Down⟩ ⟨2, 2, .Right⟩ 1001 :=
      (edgeRel_iff_edgeExists _ _ _ _).2 ⟨.Right, by decide, by decide, by decide⟩
    have h3 : EdgeRel (msetCell gW 1 2 MapItem.Wall) ⟨2, 2, .Right⟩ ⟨3, 2, .Right⟩ 1 :=
      (edgeRel_iff_edgeExists _ _ _ _).2 ⟨.Right, by decide, by decide, by decide⟩
    have h4 : EdgeRel (msetCell gW 1 2 MapItem.Wall) ⟨3, 2, .Right⟩ ⟨3, 1, .Up⟩ 1001 :=
      (edgeRel_iff_edgeExists _ _ _ _).2 ⟨.Up, by decide, by decide, by decide⟩
    exact Reaches.tail (Reaches.tail (Reaches.tail (Reaches.tail Reaches.refl h1) h2) h3) h4
  have hle := hlb 3004 h3004
  have hU : (5006 : Nat) < USIZE := by decide
  omega

/-- C9: on the `#####/#S.E#/#####` grid with the start vertex facing west,
the search returns 2 + 2000 = 2002: the about-face is charged as one reversal
(turns = 2, first-move cost 2001), not as two single-turn charges. -/
theorem claim_C9 :
    dijkstra_core gSimple ⟨1, 1, .Left⟩ = DResult.found 2002 ∧
    Direction.turns_to_face .Left .Right = 2 ∧
    edgeCost .Left .Right = 2001 :=
  ⟨by decide, by decide, by decide⟩

/-- C10: on a square map of `usize`-sized dimension, every path returned by
the A*-style search is non-empty, runs from the goal `(n-1, n-1)` at its
front to the start `(0, 0)` at its back, moves by exactly one unit step in
exactly one coordinate between consecutive positions, and every position
except the start lies in bounds on an `Open` cell. -/
theorem claim_C10 {m : AMap} {p : List Position} (hsq : Square m)
    (hlen : m.length < USIZE) (h : solve_maze_using_astar m = AResult.found p) :
    p ≠ [] ∧ p.head? = some ⟨m.length - 1, m.length - 1⟩ ∧ p.getLast? = some ⟨0, 0⟩ ∧
      List.Chain' unitStep p ∧
      ∀ q ∈ p.dropLast, q.x < m.length ∧ q.y < m.length ∧
        aGet m q.y q.x = some MapEntry.Open := by
  obtain ⟨hne, hhead, hlast, hchain, hopen⟩ := solve_maze_found_props hsq h
  have hpos : 0 < m.length := by
    cases p with
    | nil => exact absurd rfl hne
    | cons q rest =>
      cases rest with
      | nil =>
        rw [List.head?_cons] at hhead
        have hh : q = goalPos m := Option.some.inj hhead
        have hlast2 : q = (⟨0, 0⟩ : Position) := by simpa using hlast
        have hgq : goalPos m = (⟨0, 0⟩ : Position) := by rw [← hh, hlast2]
        by_contra hc
        have hm0 : m.length = 0 := by omega
        have hMAX : goalPos m = ⟨usizeMAX, usizeMAX⟩ := by
          simp only [goalPos, hm0]
          rw [wrapSub_one USIZE_pos]
          rfl
        rw [hMAX] at hgq
        exact absurd (congrArg Position.x hgq) (by decide)
      | cons q2 rest2 =>
        have hq : q ∈ (q :: q2 :: rest2).dropLast := by
          rw [List.dropLast_cons₂]
          exact List.mem_cons_self _ _
        exact Nat.lt_of_le_of_lt (Nat.zero_le q.x) (hopen q hq).1
  have hgoal : goalPos m = ⟨m.length - 1, m.length - 1⟩ := by
    simp only [goalPos]
    rw [wrapSub_one (by omega)]
    rw [if_neg (by omega)]
  rw [hgoal] at hhead
  exact ⟨hne, hhead, hlast, hchain, hopen⟩

/-- C10, witness: on the all-open 2×2 map the returned path is
`[(1,1), (0,1), (0,0)]` and has all the stated properties. -/
theorem claim_C10_witness :
    ([⟨1, 1⟩, ⟨0, 1⟩, ⟨0, 0⟩] : List Position) ≠ [] ∧
    ([⟨1, 1⟩, ⟨0, 1⟩, ⟨0, 0⟩] : List Position).head? =
      some ⟨aOpen.length - 1, aOpen.length - 1⟩ ∧
    ([⟨1, 1⟩, ⟨0, 1⟩, ⟨0, 0⟩] : List Position).getLast? = some ⟨0, 0⟩ ∧
    List.Chain' unitStep [⟨1, 1⟩, ⟨0, 1⟩, ⟨0, 0⟩] ∧
    ∀ q ∈ ([⟨1, 1⟩, ⟨0, 1⟩, ⟨0, 0⟩] : List Position).dropLast,
      q.x < aOpen.length ∧ q.y < aOpen.length ∧ aGet aOpen q.y q.x = some MapEntry.Open :=
  @claim_C10 aOpen [⟨1, 1⟩, ⟨0, 1⟩, ⟨0, 0⟩] (by decide) (by decide) (by decide)
